import Mathlib

/-!
# The dotenv store's flatten / unflatten core (`stores/dotenv/store.go`)

A shallow embedding of the flatten / unflatten transcoder of the dotenv store and of the
value codec it uses, followed by the properties established about it.

Modelling conventions.

* A Go `string` is a sequence of bytes.  It is modelled as `List Char`; every comparison the
  code makes is against an ASCII character (the double quote, the newline, the backslash,
  the letter n, the underscore, decimal digits and signs), so the granularity of
  the code units does not influence any result.
* A Go `interface{}` value is modelled by `Value`.  `Value.num` stands for the numeric scalars
  (the payload is kept as an integer), `Value.null` for the nil interface.
* A Go `map[string]interface{}` is modelled by an association list whose keys are pairwise
  distinct (`Value.WF`).  The order of the list stands for the order in which a `range` loop
  happens to visit the map, so a statement about every association list is a statement about
  every iteration order.  Two values are compared with `Value.deepEqual`, which ignores
  that order.
* A run-time panic is modelled by the result `none`.
* The type `int` has 64 bits.  `make([]interface{}, n)` panics when `n` is negative or beyond
  the largest length the Go runtime accepts on such a platform (`maxSliceLen`); within that
  range the allocation is taken to succeed, and every slice that exists has a length in that
  range (`Value.WF`).
-/

set_option autoImplicit false

namespace Dotenv

/-! ## Data model -/

/-- A Go string, as a sequence of code units. -/
abbrev GoString := List Char

/-- A dynamically typed Go value (`interface{}`), as produced by decoding JSON. -/
inductive Value where
  | null
  | bool (b : Bool)
  | num (n : Int)
  | str (s : GoString)
  | list (xs : List Value)
  | map (kvs : List (GoString × Value))

instance : Inhabited Value := ⟨Value.null⟩

/-- A Go `map[string]interface{}`: entries with pairwise distinct keys. -/
abbrev GoMap := List (GoString × Value)

mutual
/-- Structural equality test on values. -/
def Value.beq : Value → Value → Bool
  | .null, .null => true
  | .bool a, .bool b => a == b
  | .num a, .num b => a == b
  | .str a, .str b => a == b
  | .list xs, .list ys => Value.beqList xs ys
  | .map m, .map n => Value.beqEntries m n
  | _, _ => false
/-- Structural equality test on lists of values. -/
def Value.beqList : List Value → List Value → Bool
  | [], [] => true
  | x :: xs, y :: ys => Value.beq x y && Value.beqList xs ys
  | _, _ => false
/-- Structural equality test on lists of map entries. -/
def Value.beqEntries : GoMap → GoMap → Bool
  | [], [] => true
  | (k, x) :: xs, (l, y) :: ys => k == l && Value.beq x y && Value.beqEntries xs ys
  | _, _ => false
end

mutual
theorem Value.beq_iff : ∀ (a b : Value), Value.beq a b = true ↔ a = b
  | .null, b => by cases b <;> simp [Value.beq]
  | .bool a, b => by cases b <;> simp [Value.beq]
  | .num a, b => by cases b <;> simp [Value.beq]
  | .str a, b => by cases b <;> simp [Value.beq]
  | .list xs, b => by
    cases b <;> simp [Value.beq]
    exact Value.beqList_iff xs _
  | .map m, b => by
    cases b <;> simp [Value.beq]
    exact Value.beqEntries_iff m _
theorem Value.beqList_iff : ∀ (xs ys : List Value), Value.beqList xs ys = true ↔ xs = ys
  | [], ys => by cases ys <;> simp [Value.beqList]
  | x :: xs, ys => by
    cases ys with
    | nil => simp [Value.beqList]
    | cons y ys => simp [Value.beqList, Value.beq_iff x y, Value.beqList_iff xs ys]
theorem Value.beqEntries_iff : ∀ (xs ys : GoMap), Value.beqEntries xs ys = true ↔ xs = ys
  | [], ys => by cases ys <;> simp [Value.beqEntries]
  | (k, x) :: xs, ys => by
    cases ys with
    | nil => simp [Value.beqEntries]
    | cons y ys =>
      obtain ⟨l, y⟩ := y
      simp [Value.beqEntries, Value.beq_iff x y, Value.beqEntries_iff xs ys, and_assoc]
end

instance : DecidableEq Value := fun a b => decidable_of_iff _ (Value.beq_iff a b)

/-- The number of bits of the Go type `int`. -/
def intSize : Nat := 64

/-- The largest value of the Go type `int`. -/
def maxInt : Int := 2 ^ (intSize - 1) - 1

/-- The smallest value of the Go type `int`. -/
def minInt : Int := -(2 ^ (intSize - 1))

/-- Two's complement wrap-around of an arithmetic result to the type `int`. -/
def wrapInt (z : Int) : Int :=
  (z + 2 ^ (intSize - 1)) % 2 ^ intSize - 2 ^ (intSize - 1)

/-- The size in bytes of a value of type `interface{}` on a 64-bit platform. -/
def interfaceSize : Nat := 16

/-- The largest allocation the Go runtime accepts (`maxAlloc`, 48 heap address bits). -/
def maxAlloc : Nat := 2 ^ 48

/-- The largest length that `make([]interface{}, n)` accepts: for a longer slice the size in
bytes exceeds `maxAlloc` and `makeslice` panics. -/
def maxSliceLen : Nat := maxAlloc / interfaceSize

/-- The double quote character. -/
def dquote : Char := Char.ofNat 34

/-! ## The standard library functions the code calls -/

/-- Worker of `Replace` for a non-empty `old`: scans left to right, `skip` counts the
characters of a matched occurrence that are still to be dropped. -/
def replaceGo (old new : GoString) : GoString → Nat → GoString
  | [], _ => []
  | _ :: rest, skip + 1 => replaceGo old new rest skip
  | c :: rest, 0 =>
    if old.isPrefixOf (c :: rest) then new ++ replaceGo old new rest (old.length - 1)
    else c :: replaceGo old new rest 0

/-- Go `strings.Replace(s, old, new, -1)`: every non-overlapping occurrence of `old`, taken
from the left, is replaced by `new`. -/
def Replace (s old new : GoString) : GoString :=
  if old = [] then new ++ s.flatMap (fun c => c :: new) else replaceGo old new s 0

/-- Puts `c` in front of the first piece of a split. -/
def consHead (c : Char) : List GoString → List GoString
  | [] => [[c]]
  | hd :: tl => (c :: hd) :: tl

/-- Worker of `Split` for a non-empty separator: scans left to right, `skip` counts the
characters of a matched separator that are still to be dropped. -/
def splitGo (sep : GoString) : GoString → Nat → List GoString
  | [], _ => [[]]
  | _ :: rest, skip + 1 => splitGo sep rest skip
  | c :: rest, 0 =>
    if sep.isPrefixOf (c :: rest) then [] :: splitGo sep rest (sep.length - 1)
    else consHead c (splitGo sep rest 0)

/-- Go `strings.Split(s, sep)`: the pieces of `s` between the non-overlapping occurrences of
`sep`, taken from the left. -/
def Split (s sep : GoString) : List GoString :=
  if sep = [] then s.map (fun c => [c]) else splitGo sep s 0

/-- Go `strings.Join(elems, sep)`. -/
def Join : List GoString → GoString → GoString
  | [], _ => []
  | [a], _ => a
  | a :: b :: rest, sep => a ++ sep ++ Join (b :: rest) sep

/-- Go `fmt.Sprint(i)` for a non-negative `int`: the decimal numeral. -/
def Sprint (i : Nat) : GoString := Nat.toDigits 10 i

/-- The value of a decimal digit. -/
def digitVal (c : Char) : Option Nat :=
  if 48 ≤ c.toNat ∧ c.toNat ≤ 57 then some (c.toNat - 48) else none

/-- Reads a run of decimal digits, most significant first. -/
def parseDigits : GoString → Nat → Option Nat
  | [], acc => some acc
  | c :: rest, acc =>
    match digitVal c with
    | some d => parseDigits rest (acc * 10 + d)
    | none => none

/-- Go `strconv.Atoi(s)`: an optional sign followed by at least one decimal digit, the value
being in the range of `int`; `none` stands for a non-nil error. -/
def Atoi (s : GoString) : Option Int :=
  let neg : Bool := s.head? = some '-'
  let ds : GoString := if s.head? = some '-' ∨ s.head? = some '+' then s.drop 1 else s
  if ds = [] then none
  else
    match parseDigits ds 0 with
    | none => none
    | some n =>
      if neg then (if (n : Int) ≤ -minInt then some (-(n : Int)) else none)
      else (if (n : Int) ≤ maxInt then some (n : Int) else none)

/-- Go slice expression `s[lo:hi]` on a string; out-of-range bounds panic. -/
def sliceStr (s : GoString) (lo hi : Nat) : Option GoString :=
  if lo ≤ hi ∧ hi ≤ s.length then some ((s.take hi).drop lo) else none

/-! ## The value codec -/

/-- The separator of path segments in a flat key. -/
def flattenSep : GoString := ['_', '_']

/-- The newline character as a string. -/
def newline : GoString := ['\n']

/-- The two characters backslash and n. -/
def escapedNewline : GoString := ['\\', 'n']

/-- Source `encodeValue`: a string has its newlines escaped and is wrapped in double quotes,
every other value is returned as it is. -/
def encodeValue : Value → Value
  | .str s => .str (dquote :: Replace s newline escapedNewline ++ [dquote])
  | v => v

/-- Source `decodeValue`: a string that starts and ends with a double quote loses both and has
its escaped newlines restored; the slice expression panics on the one-character string. -/
def decodeValue : Value → Option Value
  | .str s =>
    if 0 < s.length ∧ s.head? = some dquote ∧ s.getLast? = some dquote then
      match sliceStr s 1 (s.length - 1) with
      | some inner => some (.str (Replace inner escapedNewline newline))
      | none => none
    else some (.str s)
  | v => some v

/-! ## Maps and slices -/

/-- Go `node[key]` on a map: the nil interface when the key is absent. -/
def mapGet : GoMap → GoString → Value
  | [], _ => .null
  | (k, x) :: rest, key => if k = key then x else mapGet rest key

/-- Go `node[key] = value` on a map. -/
def mapSet : GoMap → GoString → Value → GoMap
  | [], key, value => [(key, value)]
  | (k, x) :: rest, key, value =>
    if k = key then (k, value) :: rest else (k, x) :: mapSet rest key value

/-- The keys of a map. -/
def mapKeys (m : GoMap) : List GoString := m.map Prod.fst

/-! ## flatten -/

mutual
/-- Source `flattenRecursive`, with the callback of `flatten` inlined: `r` is the result map
the callback writes to, threaded through the traversal. -/
def flattenRecursive : Value → List GoString → GoMap → GoMap
  | .map m, ks, r => flattenEntries m ks r
  | .list s, ks, r => flattenElems s 0 ks r
  | v, ks, r => mapSet r (Join ks flattenSep) (encodeValue v)
/-- The loop `for k, v := range m` of `flattenRecursive`. -/
def flattenEntries : GoMap → List GoString → GoMap → GoMap
  | [], _, r => r
  | (k, v) :: rest, ks, r => flattenEntries rest ks (flattenRecursive v (ks ++ [k]) r)
/-- The loop `for i, e := range s` of `flattenRecursive`; `i` is the index of the head. -/
def flattenElems : List Value → Nat → List GoString → GoMap → GoMap
  | [], _, _, r => r
  | e :: rest, i, ks, r => flattenElems rest (i + 1) ks (flattenRecursive e (ks ++ [Sprint i]) r)
end

/-- Source `flatten`. -/
def flatten (m : GoMap) : GoMap := flattenRecursive (.map m) [] []

/-! ## unflatten -/

/-- Go `make([]interface{}, length)`: it panics on a negative length and on a length beyond
`maxSliceLen`, and returns a slice of nil values otherwise. -/
def makeSlice (length : Int) : Option (List Value) :=
  if 0 ≤ length ∧ length ≤ (maxSliceLen : Int) then some (List.replicate length.toNat .null)
  else none

/-- The slice branch of unflatten's inner loop: the slice `node` the cursor slot holds after
the branch, given the slot's content `cur` and the required `length`.  A nil slot gets a new
slice, a shorter slice is copied into a new one, the type assertion panics on anything but a
slice. -/
def sliceNode : Value → Int → Option (List Value)
  | .null, length => makeSlice length
  | .list node, length =>
    if (node.length : Int) < length then
      match makeSlice length with
      | some newNode => some (node ++ newNode.drop node.length)
      | none => none
    else some node
  | _, _ => none

/-- The map branch of unflatten's inner loop: the map `node` the cursor slot holds after the
branch.  The type assertion panics on anything but a map. -/
def mapNode : Value → Option GoMap
  | .null => some []
  | .map node => some node
  | _ => none

/-- The inner loop of `unflatten` followed by the final `setValue(decodeValue(value))`.
The accessor pair (`getValue`, `setValue`) designates one slot; `cur` is the content of
that slot, and the result is its content after the remaining `keys` have been walked and
the value stored. -/
def setPath : List GoString → Value → Value → Option Value
  | [], _, value => decodeValue value
  | key :: keys, cur, value =>
    match Atoi key with
    | some index =>
      match sliceNode cur (wrapInt (index + 1)) with
      | none => none
      | some node =>
        if 0 ≤ index ∧ index < node.length then
          match setPath keys (node.getD index.toNat .null) value with
          | some x => some (.list (node.set index.toNat x))
          | none => none
        else none
    | none =>
      match mapNode cur with
      | none => none
      | some node =>
        match setPath keys (mapGet node key) value with
        | some x => some (.map (mapSet node key x))
        | none => none

/-- The outer loop of `unflatten`: the entries are visited in the order of the list. -/
def unflattenLoop : GoMap → Value → Option Value
  | [], tree => some tree
  | (keyPath, value) :: rest, tree =>
    match setPath (Split keyPath flattenSep) tree value with
    | some t => unflattenLoop rest t
    | none => none

/-- Source `unflatten`; the entries of `m` are listed in the order the `range` loop visits
them.  The root slot holds the result map. -/
def unflatten (m : GoMap) : Option Value := unflattenLoop m (.map [])

/-! ## Comparing values -/

mutual
/-- Equality of values as Go data (`reflect.DeepEqual`): maps are compared key by key. -/
def Value.deepEqual : Value → Value → Bool
  | .null, .null => true
  | .bool a, .bool b => a == b
  | .num a, .num b => a == b
  | .str a, .str b => a == b
  | .list xs, .list ys => Value.deepEqualList xs ys
  | .map m, .map n => m.length == n.length && Value.deepEqualEntries m n
  | _, _ => false
/-- Element-wise comparison of slices. -/
def Value.deepEqualList : List Value → List Value → Bool
  | [], [] => true
  | x :: xs, y :: ys => Value.deepEqual x y && Value.deepEqualList xs ys
  | _, _ => false
/-- Every entry of the first map has a deeply equal entry under the same key in `n`. -/
def Value.deepEqualEntries : GoMap → GoMap → Bool
  | [], _ => true
  | (k, x) :: rest, n =>
    (match n.lookup k with
      | some y => Value.deepEqual x y
      | none => false) && Value.deepEqualEntries rest n
end

/-! ## Nodes, leaves and paths of a nested value -/

mutual
/-- Every node of a nested value: the value itself and the nodes of its children. -/
def Value.nodes : Value → List Value
  | .list xs => .list xs :: Value.nodesList xs
  | .map m => .map m :: Value.nodesEntries m
  | v => [v]
/-- The nodes of the elements of a slice. -/
def Value.nodesList : List Value → List Value
  | [] => []
  | x :: xs => Value.nodes x ++ Value.nodesList xs
/-- The nodes of the values of a map. -/
def Value.nodesEntries : GoMap → List Value
  | [] => []
  | (_, x) :: rest => Value.nodes x ++ Value.nodesEntries rest
end

/-- A step of a path in a nested value: a map key or a list position. -/
inductive Seg where
  | key (k : GoString)
  | index (i : Nat)
  deriving DecidableEq

/-- The text of a segment: a map key verbatim, a list position as its decimal numeral. -/
def Seg.render : Seg → GoString
  | .key k => k
  | .index i => Sprint i

/-- The flat key of a path: the rendered segments joined by the separator. -/
def keyPath (p : List Seg) : GoString := Join (p.map Seg.render) flattenSep

mutual
/-- The leaves of a nested value (the nodes that are neither a map nor a slice), each with
the path that leads to it, in depth-first order. -/
def Value.leaves : Value → List (List Seg × Value)
  | .list xs => Value.leavesList xs 0
  | .map m => Value.leavesEntries m
  | v => [([], v)]
/-- The leaves below the elements of a slice; `i` is the index of the head. -/
def Value.leavesList : List Value → Nat → List (List Seg × Value)
  | [], _ => []
  | x :: xs, i =>
    (Value.leaves x).map (fun pl => (Seg.index i :: pl.1, pl.2)) ++ Value.leavesList xs (i + 1)
/-- The leaves below the values of a map. -/
def Value.leavesEntries : GoMap → List (List Seg × Value)
  | [] => []
  | (k, x) :: rest =>
    (Value.leaves x).map (fun pl => (Seg.key k :: pl.1, pl.2)) ++ Value.leavesEntries rest
end

/-! ## Conditions on nested values -/

/-- A leaf: a value that is neither a map nor a slice. -/
def Value.isLeaf : Value → Bool
  | .list _ => false
  | .map _ => false
  | _ => true

/-- The invariants of the Go data at one node: the keys of a map are pairwise distinct, the
length of a slice is one that an allocation can have (at most `maxSliceLen`). -/
def Value.nodeWF : Value → Bool
  | .list xs => decide (xs.length ≤ maxSliceLen)
  | .map m => decide ((mapKeys m).Nodup)
  | _ => true

/-- A well-formed value: every node satisfies the invariants of the Go data. -/
def Value.WF (v : Value) : Prop := ∀ n ∈ Value.nodes v, Value.nodeWF n = true

/-- A map key that survives the flat format: `Atoi` rejects it, it does not hold the
separator and it does not end with an underscore. -/
def keyOK (k : GoString) : Prop :=
  Atoi k = none ∧ ¬ flattenSep <:+: k ∧ k.getLast? ≠ some '_'

instance (k : GoString) : Decidable (keyOK k) :=
  inferInstanceAs (Decidable (_ ∧ _ ∧ _))

/-- Every key of the map at this node survives the flat format. -/
def Value.nodeKeysOK : Value → Bool
  | .map m => decide (∀ k ∈ mapKeys m, keyOK k)
  | _ => true

/-- Every map key of the value survives the flat format. -/
def Value.KeysOK (v : Value) : Prop := ∀ n ∈ Value.nodes v, Value.nodeKeysOK n = true

/-- This node is not an empty map and not an empty slice. -/
def Value.nodeNonEmpty : Value → Bool
  | .list xs => !xs.isEmpty
  | .map m => !m.isEmpty
  | _ => true

/-- The value holds no empty map and no empty slice. -/
def Value.NoEmpty (v : Value) : Prop := ∀ n ∈ Value.nodes v, Value.nodeNonEmpty n = true

/-- This node is not a string that holds a backslash followed by the letter n. -/
def Value.nodeClean : Value → Bool
  | .str s => decide (¬ escapedNewline <:+: s)
  | _ => true

/-- No string of the value holds a backslash followed by the letter n. -/
def Value.Clean (v : Value) : Prop := ∀ n ∈ Value.nodes v, Value.nodeClean n = true

instance (v : Value) : Decidable (Value.WF v) :=
  inferInstanceAs (Decidable (∀ n ∈ Value.nodes v, _))

instance (v : Value) : Decidable (Value.KeysOK v) :=
  inferInstanceAs (Decidable (∀ n ∈ Value.nodes v, _))

instance (v : Value) : Decidable (Value.NoEmpty v) :=
  inferInstanceAs (Decidable (∀ n ∈ Value.nodes v, _))

instance (v : Value) : Decidable (Value.Clean v) :=
  inferInstanceAs (Decidable (∀ n ∈ Value.nodes v, _))

/-! ## Definitions used to state the properties -/

/-- The map obtained by writing the entries of `l`, in order, into `r`. -/
def writeAll (l : List (GoString × Value)) (r : GoMap) : GoMap :=
  l.foldl (fun acc e => mapSet acc e.1 e.2) r

/-- The write the callback of `flatten` makes for the leaf `pl` found below the path `ks`. -/
def emitLeaf (ks : List GoString) (r : GoMap) (pl : List Seg × Value) : GoMap :=
  mapSet r (Join (ks ++ pl.1.map Seg.render) flattenSep) (encodeValue pl.2)

/-- The flat entry of a leaf: its joined path and its encoded value. -/
def flatEntry (pl : List Seg × Value) : GoString × Value := (keyPath pl.1, encodeValue pl.2)

/-- A segment that survives the flat format: a map key that does, or a list position that
fits the type `int`. -/
def segOK : Seg → Prop
  | .key k => keyOK k
  | .index i => (i : Int) ≤ maxInt

/-- The relation between the tree `t` that `unflatten` has built so far and the value `w`
it is building: an unset slot holds nil, a set leaf is related by `R` to the leaf of `w`, a
slice is not longer than the slice of `w`, a map has no key that the map of `w` lacks. -/
inductive Sub (R : Value → Value → Prop) : Value → Value → Prop
  | null (w : Value) : Sub R .null w
  | leaf (t w : Value) : Value.isLeaf t = true → Value.isLeaf w = true → R t w → Sub R t w
  | list (ts ws : List Value) : ts.length ≤ ws.length →
      (∀ i, Sub R (ts.getD i .null) (ws.getD i .null)) → Sub R (.list ts) (.list ws)
  | map (tm wm : GoMap) : (mapKeys tm).Nodup → (∀ k ∈ mapKeys tm, k ∈ mapKeys wm) →
      (∀ k, Sub R (mapGet tm k) (mapGet wm k)) → Sub R (.map tm) (.map wm)

/-- The list that the entries `k__i` build: slot `i` holds `d i` when `i` is one of the chosen
indices, nil otherwise, for the slots `0` to `n`. -/
def grownList (idxs : List Nat) (d : Nat → Value) (n : Nat) : List Value :=
  (List.range (n + 1)).map (fun i => if i ∈ idxs then d i else .null)

/-- The text of a string with every newline character replaced by the two characters
backslash and n. -/
def escapeNewlines (s : GoString) : GoString :=
  s.flatMap (fun c => if c = '\n' then ['\\', 'n'] else [c])

/-- The node of a nested value at the end of a path, when the path exists in the value. -/
def Value.nodeAt : Value → List Seg → Option Value
  | v, [] => some v
  | .map m, .key k :: p =>
    match m.lookup k with
    | some x => Value.nodeAt x p
    | none => none
  | .list xs, .index i :: p =>
    match xs[i]? with
    | some x => Value.nodeAt x p
    | none => none
  | _, _ => none

/-- The nested value of the concrete scenario: a user with a name and two tags. -/
def scenarioValue : GoMap :=
  [("user".toList, .map [("name".toList, .str "ann".toList),
    ("tags".toList, .list [.str "x".toList, .str "y".toList])])]

/-- The flat mapping of the concrete scenario; every value is wrapped in double quotes. -/
def scenarioFlat : GoMap :=
  [("user__name".toList, .str ([dquote] ++ "ann".toList ++ [dquote])),
   ("user__tags__0".toList, .str ([dquote] ++ "x".toList ++ [dquote])),
   ("user__tags__1".toList, .str ([dquote] ++ "y".toList ++ [dquote]))]

/-- An optionally signed, non-empty run of decimal digits. -/
def signedDigits (k : GoString) : Prop :=
  (if k.head? = some '-' ∨ k.head? = some '+' then k.drop 1 else k) ≠ [] ∧
  ∀ c ∈ (if k.head? = some '-' ∨ k.head? = some '+' then k.drop 1 else k),
    (digitVal c).isSome = true

instance (k : GoString) : Decidable (signedDigits k) :=
  inferInstanceAs (Decidable (_ ∧ _))

/-- A map key that does not hold the separator, neither begins nor ends with an underscore,
and is not an optionally signed run of decimal digits. -/
def keySafe (k : GoString) : Prop :=
  ¬ flattenSep <:+: k ∧ k.head? ≠ some '_' ∧ k.getLast? ≠ some '_' ∧ ¬ signedDigits k

instance (k : GoString) : Decidable (keySafe k) :=
  inferInstanceAs (Decidable (_ ∧ _ ∧ _ ∧ _))

/-- Every key of the map at this node is safe. -/
def Value.nodeKeysSafe : Value → Bool
  | .map m => decide (∀ k ∈ mapKeys m, keySafe k)
  | _ => true

/-- Every map key of the value is safe. -/
def Value.KeysSafe (v : Value) : Prop := ∀ n ∈ Value.nodes v, Value.nodeKeysSafe n = true

instance (v : Value) : Decidable (Value.KeysSafe v) :=
  inferInstanceAs (Decidable (∀ n ∈ Value.nodes v, _))

/-! ## The plain file format -/

/-- Modelled from the spec: the type `sops.TreeBranch` and the dynamic values of its items,
declared in the root package of the repository. A branch is an ordered list of items; the
key and the value of an item are dynamic values: a plain Go value or a nested branch. -/
inductive TreeValue where
  | plain (v : Value)
  | branch (items : List (TreeValue × TreeValue))

/-- An item of a branch: its `Key` and its `Value`. -/
abbrev TreeItem := TreeValue × TreeValue

/-- A branch: an ordered list of items. -/
abbrev TreeBranch := List TreeItem

/-- Worker of `Index`: `i` is the position of the head of the remaining text. -/
def indexGo (sep : GoString) : GoString → Nat → Int
  | [], i => if sep = [] then (i : Int) else -1
  | c :: rest, i => if sep.isPrefixOf (c :: rest) then (i : Int) else indexGo sep rest (i + 1)

/-- Go `bytes.Index(s, sep)`: the position of the first occurrence of `sep` in `s`, or -1. -/
def Index (s sep : GoString) : Int := indexGo sep s 0

/-- The loop of `LoadPlainFile` over the lines; `branch` holds the items appended so far and
`none` stands for the returned error. -/
def loadLoop : List GoString → TreeBranch → Option TreeBranch
  | [], branch => some branch
  | line :: rest, branch =>
    if line.length = 0 then loadLoop rest branch
    else if Index line ['='] = -1 then none
    else
      loadLoop rest (branch ++ [(.plain (.str (line.take (Index line ['=']).toNat)),
        .plain (.str (line.drop ((Index line ['=']).toNat + 1))))])

/-- Source `Store.LoadPlainFile`; `none` stands for the returned error. -/
def LoadPlainFile (inp : GoString) : Option TreeBranch := loadLoop (Split inp newline) []

/-- Source `isComplexValue`: a type switch with the cases `[]interface{}` and
`sops.TreeBranch`. -/
def isComplexValue : TreeValue → Bool
  | .plain (.list _) => true
  | .branch _ => true
  | _ => false

/-- The loop of `EmitPlainFile`; `sprint` is the text the verb `%s` of `fmt.Sprintf` writes for
a dynamic value, `buffer` the bytes written so far, `none` the returned error. -/
def emitLoop (sprint : TreeValue → GoString) : TreeBranch → GoString → Option GoString
  | [], buffer => some buffer
  | item :: rest, buffer =>
    if isComplexValue item.2 then none
    else emitLoop sprint rest (buffer ++ (sprint item.1 ++ ['='] ++ sprint item.2 ++ newline))

/-- Source `Store.EmitPlainFile`; `none` stands for the returned error (with no bytes). -/
def EmitPlainFile (sprint : TreeValue → GoString) (inp : TreeBranch) : Option GoString :=
  emitLoop sprint inp []

/-- The item that a line with a separator stands for: the text before the first `=` and the
text after it. -/
def itemOfLine (line : GoString) : TreeItem :=
  (.plain (.str (line.takeWhile (fun c => c != '='))),
   .plain (.str ((line.dropWhile (fun c => c != '=')).drop 1)))

/-- A nested container: a list, a map or a tree branch. -/
def isContainer : TreeValue → Bool
  | .plain (.list _) => true
  | .plain (.map _) => true
  | .branch _ => true
  | _ => false

/-- A rendering of dynamic values that writes a string as it is, as the verb `%s` does. -/
def sprintString : TreeValue → GoString
  | .plain (.str s) => s
  | _ => []

/-- The line that `EmitPlainFile` writes for an item, without its final newline. -/
def emittedLine (sprint : TreeValue → GoString) (item : TreeItem) : GoString :=
  sprint item.1 ++ ['='] ++ sprint item.2

/-! ## Addresses of flat entries -/

/-- The slot of a container that a path segment addresses: a list position when `Atoi` reads
the segment as a non-negative integer, the map key with the text of the segment otherwise. -/
def segOf (s : GoString) : Seg :=
  match Atoi s with
  | some z => if 0 ≤ z then .index z.toNat else .key s
  | none => .key s

/-- The address of a flat entry: the slots that the segments of its key address, from the
root down. -/
def address (key : GoString) : List Seg := (Split key flattenSep).map segOf

/-- Two flat entries are independent when neither addresses the slot of the other or a slot
below it: neither address is a prefix of the other. -/
def Independent (a b : GoString × Value) : Prop :=
  ¬ address a.1 <+: address b.1 ∧ ¬ address b.1 <+: address a.1

instance (a b : GoString × Value) : Decidable (Independent a b) :=
  inferInstanceAs (Decidable (_ ∧ _))

/-- A flat mapping with independent entries that is not the result of `flatten`: it leaves
slot 1 of the list under `k` and slot 0 of the list under `n` unset, writes a position with a
sign, and holds an empty map and a string with a backslash followed by the letter n. -/
def sparseFlat : GoMap :=
  [(['k', '_', '_', '2'], .num 1),
   (['k', '_', '_', '0', '_', '_', 'b'], .str [dquote, 'x', dquote]),
   (['n', '_', '_', '+', '1'], .str ['\\', 'n']),
   (['m'], .map [])]

/-! ## Lemmas on nodes -/

theorem Value.self_mem_nodes (v : Value) : v ∈ Value.nodes v := by
  cases v <;> simp [Value.nodes]

theorem Value.mem_nodesList (xs : List Value) (n : Value) :
    n ∈ Value.nodesList xs ↔ ∃ x ∈ xs, n ∈ Value.nodes x := by
  induction xs with
  | nil => simp [Value.nodesList]
  | cons a t ih => simp [Value.nodesList, ih]

theorem Value.mem_nodesEntries (m : GoMap) (n : Value) :
    n ∈ Value.nodesEntries m ↔ ∃ kx ∈ m, n ∈ Value.nodes kx.2 := by
  induction m with
  | nil => simp [Value.nodesEntries]
  | cons a t ih =>
    obtain ⟨k, x⟩ := a
    simp only [Value.nodesEntries, List.mem_append, ih, List.mem_cons]
    constructor
    · rintro (h | ⟨kx, h1, h2⟩)
      · exact ⟨(k, x), Or.inl rfl, h⟩
      · exact ⟨kx, Or.inr h1, h2⟩
    · rintro ⟨kx, h1 | h1, h2⟩
      · exact Or.inl (by rw [h1] at h2; exact h2)
      · exact Or.inr ⟨kx, h1, h2⟩

theorem Value.nodes_of_mem_list (xs : List Value) (x n : Value) (hx : x ∈ xs)
    (hn : n ∈ Value.nodes x) : n ∈ Value.nodes (.list xs) := by
  simp only [Value.nodes, List.mem_cons]
  exact Or.inr ((Value.mem_nodesList xs n).2 ⟨x, hx, hn⟩)

theorem Value.nodes_of_mem_map (m : GoMap) (k : GoString) (x n : Value) (hx : (k, x) ∈ m)
    (hn : n ∈ Value.nodes x) : n ∈ Value.nodes (.map m) := by
  simp only [Value.nodes, List.mem_cons]
  exact Or.inr ((Value.mem_nodesEntries m n).2 ⟨(k, x), hx, hn⟩)

/-- Induction on nested values. -/
theorem Value.induction {P : Value → Prop} (hleaf : ∀ v, Value.isLeaf v = true → P v)
    (hlist : ∀ xs : List Value, (∀ x ∈ xs, P x) → P (.list xs))
    (hmap : ∀ m : GoMap, (∀ kx ∈ m, P kx.2) → P (.map m)) (v : Value) : P v := by
  have key : ∀ n : Nat, ∀ v : Value, sizeOf v < n → P v := by
    intro n
    induction n with
    | zero => intro v h; omega
    | succ n ih =>
      intro v h
      cases v with
      | list xs =>
        apply hlist
        intro x hx
        apply ih
        have := List.sizeOf_lt_of_mem hx
        simp only [Value.list.sizeOf_spec] at h
        omega
      | map m =>
        apply hmap
        intro kx hkx
        apply ih
        have h1 := List.sizeOf_lt_of_mem hkx
        have h2 : sizeOf kx.2 < sizeOf kx := by
          obtain ⟨k, x⟩ := kx
          simp only [Prod.mk.sizeOf_spec]
          omega
        simp only [Value.map.sizeOf_spec] at h
        omega
      | null => exact hleaf _ rfl
      | bool b => exact hleaf _ rfl
      | num z => exact hleaf _ rfl
      | str s => exact hleaf _ rfl
  exact key (sizeOf v + 1) v (by omega)

/-! ## Lemmas on the string functions -/

theorem replaceGo_newline_cons (c : Char) (s : GoString) :
    replaceGo newline escapedNewline (c :: s) 0 =
      if c = '\n' then '\\' :: 'n' :: replaceGo newline escapedNewline s 0
      else c :: replaceGo newline escapedNewline s 0 := by
  by_cases h : c = '\n'
  · simp [replaceGo, newline, escapedNewline, List.isPrefixOf, h]
  · have h2 : ¬ '\n' = c := fun e => h e.symm
    simp [replaceGo, newline, escapedNewline, List.isPrefixOf, h, h2]

theorem replaceGo_escaped_hit (s : GoString) :
    replaceGo escapedNewline newline ('\\' :: 'n' :: s) 0 =
      '\n' :: replaceGo escapedNewline newline s 0 := by
  simp [replaceGo, newline, escapedNewline, List.isPrefixOf]

theorem replaceGo_escaped_miss (c : Char) (s : GoString)
    (h : ¬ (c = '\\' ∧ s.head? = some 'n')) :
    replaceGo escapedNewline newline (c :: s) 0 =
      c :: replaceGo escapedNewline newline s 0 := by
  cases s with
  | nil => simp [replaceGo, escapedNewline, List.isPrefixOf]
  | cons d t =>
    have h2 : ¬ (c = '\\' ∧ d = 'n') := by simpa using h
    simp only [replaceGo, escapedNewline, List.isPrefixOf, Bool.and_true]
    rw [if_neg]
    intro hp
    simp only [Bool.and_eq_true, beq_iff_eq] at hp
    exact h2 ⟨hp.1.symm, hp.2.symm⟩

theorem head_replaceGo_newline (s : GoString) :
    (replaceGo newline escapedNewline s 0).head? = some 'n' ↔ s.head? = some 'n' := by
  cases s with
  | nil => simp [replaceGo]
  | cons c t =>
    rw [replaceGo_newline_cons]
    by_cases h : c = '\n'
    · subst h; simp
    · simp [h]

theorem infix_of_infix_tail {α : Type} (l : List α) (c : α) (s : List α) (h : l <:+: s) :
    l <:+: c :: s := by
  obtain ⟨a, b, rfl⟩ := h
  exact ⟨c :: a, b, by simp⟩

theorem infix_of_prefix_pair {α : Type} (a b : α) (s : List α) : [a, b] <:+: a :: b :: s :=
  ⟨[], s, by simp⟩

/-- Escaping and then unescaping returns a string that holds no backslash-n pair. -/
theorem unescape_escape (s : GoString) (h : ¬ escapedNewline <:+: s) :
    replaceGo escapedNewline newline (replaceGo newline escapedNewline s 0) 0 = s := by
  induction s with
  | nil => simp [replaceGo]
  | cons c t ih =>
    have ht : ¬ escapedNewline <:+: t := fun hh => h (infix_of_infix_tail _ c t hh)
    rw [replaceGo_newline_cons]
    by_cases hc : c = '\n'
    · rw [if_pos hc, replaceGo_escaped_hit, ih ht, hc]
    · rw [if_neg hc, replaceGo_escaped_miss, ih ht]
      rintro ⟨h1, h2⟩
      rw [head_replaceGo_newline] at h2
      cases t with
      | nil => simp at h2
      | cons d u =>
        simp at h2
        subst h1; subst h2
        exact h (infix_of_prefix_pair _ _ u)

theorem Replace_newline (s : GoString) :
    Replace s newline escapedNewline = replaceGo newline escapedNewline s 0 := by
  simp [Replace, newline]

theorem Replace_escaped (s : GoString) :
    Replace s escapedNewline newline = replaceGo escapedNewline newline s 0 := by
  simp [Replace, escapedNewline]

/-- The codec on strings: decoding an encoded string unescapes the escaped text. -/
theorem decodeValue_encodeValue_str (s : GoString) :
    decodeValue (encodeValue (.str s)) =
      some (.str (Replace (Replace s newline escapedNewline) escapedNewline newline)) := by
  simp only [encodeValue, decodeValue]
  have hlast : (dquote :: Replace s newline escapedNewline ++ [dquote]).getLast? = some dquote := by
    rw [List.getLast?_append]
    simp
  rw [if_pos ⟨by simp, by simp, hlast⟩]
  simp [sliceStr, List.take_append_eq_append_take]

theorem decodeValue_encodeValue_of_clean (s : GoString) (h : ¬ escapedNewline <:+: s) :
    decodeValue (encodeValue (.str s)) = some (.str s) := by
  rw [decodeValue_encodeValue_str, Replace_newline, Replace_escaped, unescape_escape s h]

theorem Split_flattenSep (s : GoString) : Split s flattenSep = splitGo flattenSep s 0 := by
  simp [Split, flattenSep]

theorem splitGo_sep_cons (t : GoString) :
    splitGo flattenSep ('_' :: '_' :: t) 0 = [] :: splitGo flattenSep t 0 := by
  simp [splitGo, flattenSep, List.isPrefixOf]

theorem splitGo_miss (c : Char) (t : GoString) (h : ¬ (c = '_' ∧ t.head? = some '_')) :
    splitGo flattenSep (c :: t) 0 = consHead c (splitGo flattenSep t 0) := by
  cases t with
  | nil => simp [splitGo, flattenSep, List.isPrefixOf]
  | cons d u =>
    have h2 : ¬ (c = '_' ∧ d = '_') := by simpa using h
    simp only [splitGo, flattenSep, List.isPrefixOf, Bool.and_true]
    rw [if_neg]
    intro hp
    simp only [Bool.and_eq_true, beq_iff_eq] at hp
    exact h2 ⟨hp.1.symm, hp.2.symm⟩

/-- A string without the separator is a single piece. -/
theorem splitGo_single (s : GoString) (h : ¬ flattenSep <:+: s) :
    splitGo flattenSep s 0 = [s] := by
  induction s with
  | nil => simp [splitGo]
  | cons c t ih =>
    have ht : ¬ flattenSep <:+: t := fun hh => h (infix_of_infix_tail _ c t hh)
    rw [splitGo_miss, ih ht, consHead]
    rintro ⟨h1, h2⟩
    cases t with
    | nil => simp at h2
    | cons d u =>
      simp at h2
      subst h1; subst h2
      exact h (infix_of_prefix_pair _ _ u)

/-- A piece without the separator that does not end with an underscore is cut off at the
separator that follows it. -/
theorem splitGo_append_sep (s t : GoString) (h : ¬ flattenSep <:+: s)
    (hlast : s.getLast? ≠ some '_') :
    splitGo flattenSep (s ++ flattenSep ++ t) 0 = s :: splitGo flattenSep t 0 := by
  induction s with
  | nil => simpa [flattenSep] using splitGo_sep_cons t
  | cons c u ih =>
    have hu : ¬ flattenSep <:+: u := fun hh => h (infix_of_infix_tail _ c u hh)
    have hulast : u.getLast? ≠ some '_' := by
      cases u with
      | nil => simp
      | cons d w => simpa [List.getLast?_cons_cons] using hlast
    rw [List.cons_append, List.cons_append, splitGo_miss, ih hu hulast, consHead]
    rintro ⟨h1, h2⟩
    cases u with
    | nil =>
      subst h1
      simp at hlast
    | cons d w =>
      simp at h2
      subst h1; subst h2
      exact h (infix_of_prefix_pair _ _ w)

/-- Splitting a joined sequence of segments gives the segments back, when no segment holds
the separator and no segment but the last ends with an underscore. -/
theorem Split_Join (segs : List GoString) (hne : segs ≠ [])
    (hsep : ∀ s ∈ segs, ¬ flattenSep <:+: s)
    (hlast : ∀ s ∈ segs.dropLast, s.getLast? ≠ some '_') :
    Split (Join segs flattenSep) flattenSep = segs := by
  rw [Split_flattenSep]
  induction segs with
  | nil => exact absurd rfl hne
  | cons a rest ih =>
    cases rest with
    | nil => simpa [Join] using splitGo_single a (hsep a (by simp))
    | cons b r =>
      have h1 : splitGo flattenSep (Join (b :: r) flattenSep) 0 = b :: r := by
        apply ih (by simp)
        · intro s hs
          exact hsep s (List.mem_cons_of_mem _ hs)
        · intro s hs
          exact hlast s (by simp [List.dropLast]; exact Or.inr (by simpa using hs))
      rw [Join, splitGo_append_sep a _ (hsep a (by simp)) (hlast a (by simp [List.dropLast])), h1]

/-! ## Lemmas on decimal numerals -/

theorem digitVal_digitChar (k : Nat) (h : k < 10) : digitVal (Nat.digitChar k) = some k := by
  interval_cases k <;> decide

theorem digitVal_isSome_ne (c : Char) (h : (digitVal c).isSome) :
    c ≠ '_' ∧ c ≠ '-' ∧ c ≠ '+' := by
  refine ⟨?_, ?_, ?_⟩ <;> (rintro rfl; revert h; decide)

theorem parseDigits_append (l1 l2 : GoString) (acc : Nat) :
    parseDigits (l1 ++ l2) acc = (parseDigits l1 acc).bind (parseDigits l2) := by
  induction l1 generalizing acc with
  | nil => simp [parseDigits]
  | cons c t ih =>
    simp only [List.cons_append, parseDigits]
    cases digitVal c with
    | none => simp
    | some d => simpa using ih (acc * 10 + d)

/-- The digits written by `Nat.toDigitsCore` in base ten, given enough fuel, read back as
the number. -/
theorem toDigitsCore_spec (f : Nat) : ∀ (n : Nat) (ds : List Char), n < f →
    ∃ l : GoString, Nat.toDigitsCore 10 f n ds = l ++ ds ∧ parseDigits l 0 = some n ∧
      l ≠ [] ∧ ∀ c ∈ l, (digitVal c).isSome := by
  induction f with
  | zero => intro n ds h; omega
  | succ f ih =>
    intro n ds h
    have hd : digitVal (Nat.digitChar (n % 10)) = some (n % 10) :=
      digitVal_digitChar _ (Nat.mod_lt _ (by decide))
    simp only [Nat.toDigitsCore]
    by_cases h0 : n / 10 = 0
    · rw [if_pos h0]
      refine ⟨[Nat.digitChar (n % 10)], by simp, ?_, by simp, ?_⟩
      · simp only [parseDigits, hd]
        congr 1
        omega
      · intro c hc
        simp only [List.mem_singleton] at hc
        rw [hc, hd]; rfl
    · rw [if_neg h0]
      obtain ⟨l, hl, hp, _, hall⟩ := ih (n / 10) (Nat.digitChar (n % 10) :: ds) (by omega)
      refine ⟨l ++ [Nat.digitChar (n % 10)], by simp [hl], ?_, by simp, ?_⟩
      · rw [parseDigits_append, hp]
        simp only [Option.some_bind, parseDigits, hd]
        congr 1
        omega
      · intro c hc
        rcases List.mem_append.1 hc with hc | hc
        · exact hall c hc
        · simp only [List.mem_singleton] at hc
          rw [hc, hd]; rfl

theorem Sprint_spec (i : Nat) :
    parseDigits (Sprint i) 0 = some i ∧ Sprint i ≠ [] ∧ ∀ c ∈ Sprint i, (digitVal c).isSome := by
  obtain ⟨l, hl, hp, hne, hall⟩ := toDigitsCore_spec (i + 1) i [] (by omega)
  have : Sprint i = l := by simpa [Sprint, Nat.toDigits] using hl
  rw [this]
  exact ⟨hp, hne, hall⟩

theorem Sprint_injective (i j : Nat) (h : Sprint i = Sprint j) : i = j := by
  have h1 := (Sprint_spec i).1
  rw [h, (Sprint_spec j).1] at h1
  exact (Option.some.inj h1).symm

/-- A non-empty run of digits is accepted by `Atoi` when its value fits the type `int`. -/
theorem Atoi_of_digits (s : GoString) (n : Nat) (hne : s ≠ [])
    (hall : ∀ c ∈ s, (digitVal c).isSome) (hp : parseDigits s 0 = some n)
    (hn : (n : Int) ≤ maxInt) : Atoi s = some (n : Int) := by
  cases s with
  | nil => exact absurd rfl hne
  | cons c t =>
    obtain ⟨_, h1, h2⟩ := digitVal_isSome_ne c (hall c (by simp))
    simp [Atoi, h1, h2, hp, hn]

theorem Atoi_Sprint (i : Nat) (h : (i : Int) ≤ maxInt) : Atoi (Sprint i) = some (i : Int) :=
  Atoi_of_digits _ i (Sprint_spec i).2.1 (Sprint_spec i).2.2 (Sprint_spec i).1 h

theorem not_sep_infix_of_no_underscore (s : GoString) (h : ∀ c ∈ s, c ≠ '_') :
    ¬ flattenSep <:+: s := by
  rintro ⟨a, b, rfl⟩
  exact h '_' (by simp [flattenSep]) rfl

theorem getLast_ne_of_no_underscore (s : GoString) (h : ∀ c ∈ s, c ≠ '_') :
    s.getLast? ≠ some '_' := by
  intro hl
  exact h '_' (List.mem_of_getLast?_eq_some hl) rfl

theorem Sprint_no_underscore (i : Nat) : ∀ c ∈ Sprint i, c ≠ '_' :=
  fun c hc => (digitVal_isSome_ne c ((Sprint_spec i).2.2 c hc)).1

/-! ## Lemmas on maps -/

theorem mem_mapSet (r : GoMap) (k : GoString) (v : Value) (e : GoString × Value)
    (h : e ∈ mapSet r k v) : e ∈ r ∨ e = (k, v) := by
  induction r with
  | nil => simpa [mapSet] using h
  | cons a t ih =>
    obtain ⟨k1, x⟩ := a
    simp only [mapSet] at h
    by_cases hk : k1 = k
    · rw [if_pos hk] at h
      rcases List.mem_cons.1 h with h | h
      · exact Or.inr (by rw [h, hk])
      · exact Or.inl (List.mem_cons_of_mem _ h)
    · rw [if_neg hk] at h
      rcases List.mem_cons.1 h with h | h
      · exact Or.inl (by rw [h]; exact List.mem_cons_self _ _)
      · rcases ih h with h | h
        · exact Or.inl (List.mem_cons_of_mem _ h)
        · exact Or.inr h

theorem mapKeys_mapSet (r : GoMap) (k : GoString) (v : Value) (k1 : GoString) :
    k1 ∈ mapKeys (mapSet r k v) ↔ k1 ∈ mapKeys r ∨ k1 = k := by
  induction r with
  | nil => simp [mapSet, mapKeys]
  | cons a t ih =>
    obtain ⟨k2, x⟩ := a
    simp only [mapSet]
    by_cases hk : k2 = k
    · rw [if_pos hk]
      simp only [mapKeys, List.map_cons, List.mem_cons]
      constructor
      · rintro (h | h)
        · exact Or.inl (Or.inl h)
        · exact Or.inl (Or.inr h)
      · rintro ((h | h) | h)
        · exact Or.inl h
        · exact Or.inr h
        · exact Or.inl (by rw [h, hk])
    · rw [if_neg hk]
      simp only [mapKeys, List.map_cons, List.mem_cons] at ih ⊢
      rw [ih]
      tauto

theorem length_mapSet (r : GoMap) (k : GoString) (v : Value) (h : k ∉ mapKeys r) :
    (mapSet r k v).length = r.length + 1 := by
  induction r with
  | nil => simp [mapSet]
  | cons a t ih =>
    obtain ⟨k2, x⟩ := a
    simp only [mapKeys, List.map_cons, List.mem_cons, not_or] at h
    have hk : ¬ k2 = k := fun e => h.1 e.symm
    simp only [mapSet, if_neg hk, List.length_cons]
    rw [ih h.2]

theorem mem_writeAll (l : List (GoString × Value)) (r : GoMap) (e : GoString × Value)
    (h : e ∈ writeAll l r) : e ∈ r ∨ e ∈ l := by
  induction l generalizing r with
  | nil => exact Or.inl h
  | cons a t ih =>
    rcases ih (mapSet r a.1 a.2) h with h | h
    · rcases mem_mapSet r a.1 a.2 e h with h | h
      · exact Or.inl h
      · exact Or.inr (by rw [h]; exact List.mem_cons_self _ _)
    · exact Or.inr (List.mem_cons_of_mem _ h)

theorem mapKeys_writeAll (l : List (GoString × Value)) (r : GoMap) (k : GoString) :
    k ∈ mapKeys (writeAll l r) ↔ k ∈ mapKeys r ∨ k ∈ l.map Prod.fst := by
  induction l generalizing r with
  | nil => simp [writeAll]
  | cons a t ih =>
    have h := ih (mapSet r a.1 a.2)
    simp only [writeAll, List.foldl_cons] at h ⊢
    rw [h, mapKeys_mapSet]
    simp only [List.map_cons, List.mem_cons]
    tauto

theorem length_writeAll (l : List (GoString × Value)) (r : GoMap)
    (hnd : (l.map Prod.fst).Nodup) (hdis : ∀ k ∈ l.map Prod.fst, k ∉ mapKeys r) :
    (writeAll l r).length = r.length + l.length := by
  induction l generalizing r with
  | nil => simp [writeAll]
  | cons a t ih =>
    simp only [List.map_cons, List.nodup_cons] at hnd
    have h := ih (mapSet r a.1 a.2) hnd.2 (by
      intro k hk hin
      rcases (mapKeys_mapSet r a.1 a.2 k).1 hin with h1 | h1
      · exact hdis k (by simp only [List.map_cons]; exact List.mem_cons_of_mem _ hk) h1
      · exact hnd.1 (h1 ▸ hk))
    simp only [writeAll, List.foldl_cons] at h ⊢
    rw [h, length_mapSet r a.1 a.2 (hdis a.1 (List.mem_cons_self _ _))]
    simp only [List.length_cons]
    omega

/-! ## flatten in terms of the leaves -/

theorem foldl_emitLeaf_cons (ks : List GoString) (sg : Seg) (l : List (List Seg × Value))
    (r : GoMap) :
    (l.map (fun pl => (sg :: pl.1, pl.2))).foldl (emitLeaf ks) r
      = l.foldl (emitLeaf (ks ++ [sg.render])) r := by
  rw [List.foldl_map]
  congr 1
  funext acc pl
  simp [emitLeaf]

mutual
theorem flattenRecursive_eq : ∀ (v : Value) (ks : List GoString) (r : GoMap),
    flattenRecursive v ks r = (Value.leaves v).foldl (emitLeaf ks) r
  | .null, ks, r => by simp [flattenRecursive, Value.leaves, emitLeaf]
  | .bool b, ks, r => by simp [flattenRecursive, Value.leaves, emitLeaf]
  | .num n, ks, r => by simp [flattenRecursive, Value.leaves, emitLeaf]
  | .str s, ks, r => by simp [flattenRecursive, Value.leaves, emitLeaf]
  | .list xs, ks, r => by
    simp only [flattenRecursive, Value.leaves]
    exact flattenElems_eq xs 0 ks r
  | .map m, ks, r => by
    simp only [flattenRecursive, Value.leaves]
    exact flattenEntries_eq m ks r
theorem flattenEntries_eq : ∀ (m : GoMap) (ks : List GoString) (r : GoMap),
    flattenEntries m ks r = (Value.leavesEntries m).foldl (emitLeaf ks) r
  | [], ks, r => by simp [flattenEntries, Value.leavesEntries]
  | (k, v) :: rest, ks, r => by
    simp only [flattenEntries, Value.leavesEntries, List.foldl_append]
    rw [flattenEntries_eq rest, flattenRecursive_eq v, foldl_emitLeaf_cons ks (Seg.key k)]
    rfl
theorem flattenElems_eq : ∀ (xs : List Value) (i : Nat) (ks : List GoString) (r : GoMap),
    flattenElems xs i ks r = (Value.leavesList xs i).foldl (emitLeaf ks) r
  | [], i, ks, r => by simp [flattenElems, Value.leavesList]
  | e :: rest, i, ks, r => by
    simp only [flattenElems, Value.leavesList, List.foldl_append]
    rw [flattenElems_eq rest, flattenRecursive_eq e, foldl_emitLeaf_cons ks (Seg.index i)]
    rfl
end

/-- The result of `flatten` is the map written leaf by leaf, in depth-first order. -/
theorem flatten_eq_writeAll (m : GoMap) :
    flatten m = writeAll ((Value.leaves (.map m)).map flatEntry) [] := by
  rw [flatten, flattenRecursive_eq, writeAll, List.foldl_map]
  congr 1

/-! ## Lemmas on leaves -/

theorem Value.leaves_of_leaf (v : Value) (h : Value.isLeaf v = true) :
    Value.leaves v = [([], v)] := by
  cases v <;> simp [Value.isLeaf] at h <;> simp [Value.leaves]

theorem Value.mem_leavesList (xs : List Value) (i0 : Nat) (pl : List Seg × Value) :
    pl ∈ Value.leavesList xs i0 ↔
      ∃ j p, j < xs.length ∧ pl.1 = Seg.index (i0 + j) :: p ∧
        (p, pl.2) ∈ Value.leaves (xs.getD j .null) := by
  induction xs generalizing i0 with
  | nil => simp [Value.leavesList]
  | cons a t ih =>
    simp only [Value.leavesList, List.mem_append, List.mem_map, ih]
    constructor
    · rintro (⟨ql, hql, rfl⟩ | ⟨j, p, hj, hp, hmem⟩)
      · exact ⟨0, ql.1, by simp, by simp, by simpa using hql⟩
      · refine ⟨j + 1, p, by simpa using hj, ?_, by simpa using hmem⟩
        rw [hp]; congr 2; omega
    · rintro ⟨j, p, hj, hp, hmem⟩
      cases j with
      | zero =>
        left
        refine ⟨(p, pl.2), by simpa using hmem, ?_⟩
        obtain ⟨p1, x1⟩ := pl
        simp only at hp
        simp [hp]
      | succ j =>
        right
        refine ⟨j, p, by simpa using hj, ?_, by simpa using hmem⟩
        rw [hp]; congr 2; omega

theorem Value.mem_leavesEntries (m : GoMap) (pl : List Seg × Value) :
    pl ∈ Value.leavesEntries m ↔
      ∃ k x p, (k, x) ∈ m ∧ pl.1 = Seg.key k :: p ∧ (p, pl.2) ∈ Value.leaves x := by
  induction m with
  | nil => simp [Value.leavesEntries]
  | cons a t ih =>
    obtain ⟨k0, x0⟩ := a
    simp only [Value.leavesEntries, List.mem_append, List.mem_map, ih, List.mem_cons]
    constructor
    · rintro (⟨ql, hql, rfl⟩ | ⟨k, x, p, hkx, hp, hmem⟩)
      · exact ⟨k0, x0, ql.1, Or.inl rfl, rfl, hql⟩
      · exact ⟨k, x, p, Or.inr hkx, hp, hmem⟩
    · rintro ⟨k, x, p, hkx | hkx, hp, hmem⟩
      · left
        obtain ⟨rfl, rfl⟩ := Prod.mk.inj hkx
        refine ⟨(p, pl.2), hmem, ?_⟩
        obtain ⟨p1, x1⟩ := pl
        simp only at hp
        simp [hp]
      · exact Or.inr ⟨k, x, p, hkx, hp, hmem⟩

theorem Value.leaves_nil (w x : Value) (h : ([], x) ∈ Value.leaves w) :
    Value.isLeaf w = true ∧ x = w := by
  cases w with
  | list xs =>
    simp only [Value.leaves, Value.mem_leavesList] at h
    obtain ⟨j, p, _, hp, _⟩ := h
    simp at hp
  | map m =>
    simp only [Value.leaves, Value.mem_leavesEntries] at h
    obtain ⟨k, v, p, _, hp, _⟩ := h
    simp at hp
  | null => simpa [Value.leaves, Value.isLeaf] using h
  | bool b => simpa [Value.leaves, Value.isLeaf] using h
  | num z => simpa [Value.leaves, Value.isLeaf] using h
  | str s => simpa [Value.leaves, Value.isLeaf] using h

theorem Value.leaves_key (w x : Value) (k : GoString) (p : List Seg)
    (h : (Seg.key k :: p, x) ∈ Value.leaves w) :
    ∃ m v, w = .map m ∧ (k, v) ∈ m ∧ (p, x) ∈ Value.leaves v := by
  cases w with
  | list xs =>
    simp only [Value.leaves, Value.mem_leavesList] at h
    obtain ⟨j, q, _, hp, _⟩ := h
    simp at hp
  | map m =>
    simp only [Value.leaves, Value.mem_leavesEntries] at h
    obtain ⟨k1, v, q, hkv, hp, hmem⟩ := h
    simp only [List.cons.injEq, Seg.key.injEq] at hp
    obtain ⟨rfl, rfl⟩ := hp
    exact ⟨m, v, rfl, hkv, hmem⟩
  | null => simp [Value.leaves] at h
  | bool b => simp [Value.leaves] at h
  | num z => simp [Value.leaves] at h
  | str s => simp [Value.leaves] at h

theorem Value.leaves_index (w x : Value) (i : Nat) (p : List Seg)
    (h : (Seg.index i :: p, x) ∈ Value.leaves w) :
    ∃ xs, w = .list xs ∧ i < xs.length ∧ (p, x) ∈ Value.leaves (xs.getD i .null) := by
  cases w with
  | list xs =>
    simp only [Value.leaves, Value.mem_leavesList] at h
    obtain ⟨j, q, hj, hp, hmem⟩ := h
    simp only [List.cons.injEq, Seg.index.injEq, Nat.zero_add] at hp
    obtain ⟨rfl, rfl⟩ := hp
    exact ⟨xs, rfl, hj, hmem⟩
  | map m =>
    simp only [Value.leaves, Value.mem_leavesEntries] at h
    obtain ⟨k1, v, q, _, hp, _⟩ := h
    simp at hp
  | null => simp [Value.leaves] at h
  | bool b => simp [Value.leaves] at h
  | num z => simp [Value.leaves] at h
  | str s => simp [Value.leaves] at h

theorem Value.mem_leaves_map (m : GoMap) (k : GoString) (v x : Value) (p : List Seg)
    (hkv : (k, v) ∈ m) (h : (p, x) ∈ Value.leaves v) :
    (Seg.key k :: p, x) ∈ Value.leaves (.map m) := by
  simp only [Value.leaves, Value.mem_leavesEntries]
  exact ⟨k, v, p, hkv, rfl, h⟩

theorem Value.mem_leaves_list (xs : List Value) (i : Nat) (x : Value) (p : List Seg)
    (hi : i < xs.length) (h : (p, x) ∈ Value.leaves (xs.getD i .null)) :
    (Seg.index i :: p, x) ∈ Value.leaves (.list xs) := by
  simp only [Value.leaves, Value.mem_leavesList]
  exact ⟨i, p, hi, by simp, h⟩

theorem Value.isLeaf_of_mem_leaves (p : List Seg) : ∀ (w x : Value),
    (p, x) ∈ Value.leaves w → Value.isLeaf x = true := by
  induction p with
  | nil =>
    intro w x h
    obtain ⟨h1, h2⟩ := Value.leaves_nil w x h
    rw [h2]; exact h1
  | cons sg p ih =>
    intro w x h
    cases sg with
    | key k =>
      obtain ⟨m, v, _, _, h3⟩ := Value.leaves_key w x k p h
      exact ih v x h3
    | index i =>
      obtain ⟨xs, _, _, h3⟩ := Value.leaves_index w x i p h
      exact ih _ x h3

/-! ## More lemmas on maps and slices -/

theorem mapGet_of_mem (m : GoMap) (k : GoString) (v : Value) (hnd : (mapKeys m).Nodup)
    (h : (k, v) ∈ m) : mapGet m k = v := by
  induction m with
  | nil => simp at h
  | cons a t ih =>
    obtain ⟨k1, x⟩ := a
    simp only [mapKeys, List.map_cons, List.nodup_cons] at hnd
    rcases List.mem_cons.1 h with h | h
    · obtain ⟨rfl, rfl⟩ := Prod.mk.inj h
      simp [mapGet]
    · have hne : ¬ k1 = k := by
        rintro rfl
        exact hnd.1 (List.mem_map.2 ⟨(k1, v), h, rfl⟩)
      simp only [mapGet, if_neg hne]
      exact ih hnd.2 h

theorem mem_of_mem_mapKeys (m : GoMap) (k : GoString) (h : k ∈ mapKeys m) :
    (k, mapGet m k) ∈ m := by
  induction m with
  | nil => simp [mapKeys] at h
  | cons a t ih =>
    obtain ⟨k1, x⟩ := a
    by_cases hk : k1 = k
    · subst hk
      simp [mapGet]
    · simp only [mapKeys, List.map_cons, List.mem_cons] at h
      rcases h with h | h
      · exact absurd h.symm hk
      · simp only [mapGet, if_neg hk]
        exact List.mem_cons_of_mem _ (ih h)

theorem mem_mapKeys_of_mem (m : GoMap) (k : GoString) (v : Value) (h : (k, v) ∈ m) :
    k ∈ mapKeys m :=
  List.mem_map.2 ⟨(k, v), h, rfl⟩

theorem mapGet_mapSet (m : GoMap) (k : GoString) (v : Value) (k2 : GoString) :
    mapGet (mapSet m k v) k2 = if k2 = k then v else mapGet m k2 := by
  induction m with
  | nil =>
    by_cases h : k2 = k
    · simp [mapSet, mapGet, h]
    · have h2 : ¬ k = k2 := fun e => h e.symm
      simp [mapSet, mapGet, h, h2]
  | cons a t ih =>
    obtain ⟨k1, x⟩ := a
    by_cases hk : k1 = k
    · subst hk
      by_cases h : k2 = k1
      · subst h; simp [mapSet, mapGet]
      · have h2 : ¬ k1 = k2 := fun e => h e.symm
        simp [mapSet, mapGet, h, h2]
    · simp only [mapSet, if_neg hk, mapGet]
      by_cases h : k1 = k2
      · subst h
        have h2 : ¬ k1 = k := hk
        simp [h2]
      · simp only [if_neg h]
        exact ih

theorem nodup_mapSet (m : GoMap) (k : GoString) (v : Value) (hnd : (mapKeys m).Nodup) :
    (mapKeys (mapSet m k v)).Nodup := by
  induction m with
  | nil => simp [mapSet, mapKeys]
  | cons a t ih =>
    obtain ⟨k1, x⟩ := a
    simp only [mapKeys, List.map_cons, List.nodup_cons] at hnd
    by_cases hk : k1 = k
    · subst hk
      simpa [mapSet, mapKeys] using hnd
    · simp only [mapSet, if_neg hk]
      simp only [mapKeys, List.map_cons, List.nodup_cons]
      refine ⟨?_, ih hnd.2⟩
      intro hin
      rcases (mapKeys_mapSet t k v k1).1 hin with h | h
      · exact hnd.1 h
      · exact hk h

theorem mem_mapSet_self (m : GoMap) (k : GoString) (v : Value) : (k, v) ∈ mapSet m k v := by
  induction m with
  | nil => simp [mapSet]
  | cons a t ih =>
    obtain ⟨k1, x⟩ := a
    by_cases hk : k1 = k
    · subst hk; simp [mapSet]
    · simp only [mapSet, if_neg hk]
      exact List.mem_cons_of_mem _ ih

theorem mem_mapSet_of_ne (m : GoMap) (k : GoString) (v : Value) (k2 : GoString) (x : Value)
    (h : (k2, x) ∈ m) (hne : k2 ≠ k) : (k2, x) ∈ mapSet m k v := by
  induction m with
  | nil => simp at h
  | cons a t ih =>
    obtain ⟨k1, x1⟩ := a
    by_cases hk : k1 = k
    · subst hk
      simp only [mapSet, if_true]
      rcases List.mem_cons.1 h with h | h
      · exact absurd (Prod.mk.inj h).1 hne
      · exact List.mem_cons_of_mem _ h
    · simp only [mapSet, if_neg hk]
      rcases List.mem_cons.1 h with h | h
      · rw [h]; exact List.mem_cons_self _ _
      · exact List.mem_cons_of_mem _ (ih h)

theorem getD_pad (ts : List Value) (n j : Nat) :
    (ts ++ List.replicate n Value.null).getD j .null = ts.getD j .null := by
  by_cases h : j < ts.length
  · rw [List.getD_append _ _ _ _ h]
  · have h1 : ts.length ≤ j := by omega
    rw [List.getD_append_right _ _ _ _ h1, List.getD_eq_default ts _ h1]
    by_cases h2 : j - ts.length < n
    · rw [List.getD_eq_getElem _ _ (by simpa using h2)]
      simp
    · rw [List.getD_eq_default _ _ (by simpa using h2)]

theorem getD_set (l : List Value) (i j : Nat) (x : Value) (hi : i < l.length) :
    (l.set i x).getD j .null = if j = i then x else l.getD j .null := by
  by_cases h : j = i
  · subst h
    rw [if_pos rfl, List.getD_eq_getElem _ _ (by simpa using hi)]
    simp
  · rw [if_neg h]
    by_cases hj : j < l.length
    · rw [List.getD_eq_getElem _ _ (by simpa using hj), List.getD_eq_getElem _ _ hj]
      exact List.getElem_set_ne (fun e => h e.symm) _
    · rw [List.getD_eq_default _ _ (by simpa using hj), List.getD_eq_default _ _ (by omega)]

theorem getD_mem (l : List Value) (i : Nat) (hi : i < l.length) : l.getD i .null ∈ l := by
  rw [List.getD_eq_getElem _ _ hi]
  exact List.getElem_mem _

theorem wrapInt_succ (i : Nat) (h : (i : Int) + 1 ≤ maxInt) : wrapInt ((i : Int) + 1) = i + 1 := by
  simp only [wrapInt, maxInt, intSize] at *
  norm_num at *
  omega

theorem maxSliceLen_lt_maxInt : (maxSliceLen : Int) < maxInt := by
  decide

theorem makeSlice_succ (i : Nat) (hi : i + 1 ≤ maxSliceLen) :
    makeSlice ((i : Int) + 1) = some (List.replicate (i + 1) .null) := by
  have h : 0 ≤ (i : Int) + 1 ∧ (i : Int) + 1 ≤ (maxSliceLen : Int) := ⟨by omega, by omega⟩
  have h2 : ((i : Int) + 1).toNat = i + 1 := by omega
  rw [makeSlice, if_pos h, h2]

theorem sliceNode_null (i : Nat) (hi : i + 1 ≤ maxSliceLen) :
    sliceNode .null ((i : Int) + 1)
      = some (([] : List Value) ++ List.replicate (i + 1 - 0) .null) := by
  simp only [sliceNode, makeSlice_succ i hi]
  simp

theorem sliceNode_list (ts : List Value) (i : Nat) (hi : i + 1 ≤ maxSliceLen) :
    sliceNode (.list ts) ((i : Int) + 1)
      = some (ts ++ List.replicate (i + 1 - ts.length) .null) := by
  simp only [sliceNode, makeSlice_succ i hi]
  by_cases h : (ts.length : Int) < (i : Int) + 1
  · rw [if_pos h]
    simp
  · rw [if_neg h]
    have : i + 1 - ts.length = 0 := by omega
    simp [this]

/-! ## Conditions on nested values pass to the children -/

theorem Value.WF.nodup {m : GoMap} (h : Value.WF (.map m)) : (mapKeys m).Nodup := by
  have := h _ (Value.self_mem_nodes _)
  simpa [Value.nodeWF] using this

theorem Value.WF.length_le_max {xs : List Value} (h : Value.WF (.list xs)) :
    xs.length ≤ maxSliceLen := by
  have := h _ (Value.self_mem_nodes _)
  simpa [Value.nodeWF] using this

theorem Value.WF.length_le {xs : List Value} (h : Value.WF (.list xs)) :
    (xs.length : Int) ≤ maxInt := by
  have h1 := h.length_le_max
  have h2 := maxSliceLen_lt_maxInt
  omega

theorem Value.WF.wf_of_mem_map {m : GoMap} (h : Value.WF (.map m)) {k : GoString} {v : Value}
    (hkv : (k, v) ∈ m) : Value.WF v :=
  fun n hn => h n (Value.nodes_of_mem_map m k v n hkv hn)

theorem Value.WF.wf_of_mem_list {xs : List Value} (h : Value.WF (.list xs)) {x : Value}
    (hx : x ∈ xs) : Value.WF x :=
  fun n hn => h n (Value.nodes_of_mem_list xs x n hx hn)

theorem Value.KeysOK.keyOK {m : GoMap} (h : Value.KeysOK (.map m)) {k : GoString}
    (hk : k ∈ mapKeys m) : keyOK k := by
  have := h _ (Value.self_mem_nodes _)
  simp only [Value.nodeKeysOK, decide_eq_true_eq] at this
  exact this k hk

theorem Value.KeysOK.keys_of_mem_map {m : GoMap} (h : Value.KeysOK (.map m)) {k : GoString}
    {v : Value} (hkv : (k, v) ∈ m) : Value.KeysOK v :=
  fun n hn => h n (Value.nodes_of_mem_map m k v n hkv hn)

theorem Value.KeysOK.keys_of_mem_list {xs : List Value} (h : Value.KeysOK (.list xs)) {x : Value}
    (hx : x ∈ xs) : Value.KeysOK x :=
  fun n hn => h n (Value.nodes_of_mem_list xs x n hx hn)

/-! ## Partial builds of a nested value -/

theorem Sub.inv_map {R : Value → Value → Prop} {t : Value} {wm : GoMap}
    (h : Sub R t (.map wm)) :
    t = .null ∨ ∃ tm, t = .map tm ∧ (mapKeys tm).Nodup ∧ (∀ k ∈ mapKeys tm, k ∈ mapKeys wm) ∧
      ∀ k, Sub R (mapGet tm k) (mapGet wm k) := by
  cases h with
  | null => exact Or.inl rfl
  | leaf _ _ h1 h2 _ => simp [Value.isLeaf] at h2
  | map tm _ a b c => exact Or.inr ⟨tm, rfl, a, b, c⟩

theorem Sub.inv_list {R : Value → Value → Prop} {t : Value} {ws : List Value}
    (h : Sub R t (.list ws)) :
    t = .null ∨ ∃ ts, t = .list ts ∧ ts.length ≤ ws.length ∧
      ∀ i, Sub R (ts.getD i .null) (ws.getD i .null) := by
  cases h with
  | null => exact Or.inl rfl
  | leaf _ _ h1 h2 _ => simp [Value.isLeaf] at h2
  | list ts _ a b => exact Or.inr ⟨ts, rfl, a, b⟩

/-- The map branch of the inner loop on a partial build of a map. -/
theorem mapNode_spec {R : Value → Value → Prop} {t : Value} {wm : GoMap}
    (h : Sub R t (.map wm)) :
    ∃ node, mapNode t = some node ∧ (mapKeys node).Nodup ∧
      (∀ k ∈ mapKeys node, k ∈ mapKeys wm) ∧ (∀ k, Sub R (mapGet node k) (mapGet wm k)) ∧
      (∀ m, t = .map m → m = node) ∧ (t = .null ∨ t = .map node) := by
  rcases h.inv_map with rfl | ⟨tm, rfl, h1, h2, h3⟩
  · refine ⟨[], rfl, by simp [mapKeys], by simp [mapKeys], ?_, ?_, Or.inl rfl⟩
    · intro k; exact Sub.null _
    · intro m hm; cases hm
  · refine ⟨tm, rfl, h1, h2, h3, ?_, Or.inr rfl⟩
    intro m hm; cases hm; rfl

/-- The slice branch of the inner loop on a partial build of a slice. -/
theorem sliceNode_spec {R : Value → Value → Prop} {t : Value} {ws : List Value} (i : Nat)
    (hi : i + 1 ≤ maxSliceLen) (h : Sub R t (.list ws)) :
    ∃ ts, sliceNode t ((i : Int) + 1) = some (ts ++ List.replicate (i + 1 - ts.length) .null) ∧
      ts.length ≤ ws.length ∧ (∀ j, Sub R (ts.getD j .null) (ws.getD j .null)) ∧
      (∀ l, t = .list l → l = ts) ∧ (t = .null ∨ t = .list ts) := by
  rcases h.inv_list with rfl | ⟨ts, rfl, h1, h2⟩
  · refine ⟨[], sliceNode_null i hi, by simp, ?_, ?_, Or.inl rfl⟩
    · intro j; simpa using Sub.null _
    · intro l hl; cases hl
  · refine ⟨ts, sliceNode_list ts i hi, h1, h2, ?_, Or.inr rfl⟩
    intro l hl; cases hl; rfl

/-! ## One entry of the unflatten loop -/

/-- The inner loop of `unflatten` on the rendered path of a leaf of `w`, run on a partial build
of `w`: it does not panic, the result is again a partial build of `w`, it holds the stored
value at that path, and it keeps the leaves stored before at other paths of `w`. -/
theorem setPath_leaf (R : Value → Value → Prop) (p : List Seg) :
    ∀ (t w x raw y : Value), Value.WF w → Value.KeysOK w → Sub R t w →
      (p, x) ∈ Value.leaves w → decodeValue raw = some y → Value.isLeaf y = true → R y x →
      ∃ t2, setPath (p.map Seg.render) t raw = some t2 ∧ Sub R t2 w ∧
        (p, y) ∈ Value.leaves t2 ∧
        ∀ q z, (q, z) ∈ Value.leaves t → q ≠ p → (∃ z2, (q, z2) ∈ Value.leaves w) →
          (q, z) ∈ Value.leaves t2 := by
  induction p with
  | nil =>
    intro t w x raw y hwf hko hsub hmem hdec hy hR
    obtain ⟨hw, rfl⟩ := Value.leaves_nil w x hmem
    refine ⟨y, by simpa [setPath] using hdec, Sub.leaf _ _ hy hw hR, ?_, ?_⟩
    · rw [Value.leaves_of_leaf y hy]; simp
    · rintro q z _ hq ⟨z2, hz2⟩
      rw [Value.leaves_of_leaf x hw] at hz2
      simp only [List.mem_singleton, Prod.mk.injEq] at hz2
      exact absurd hz2.1 hq
  | cons sg p ih =>
    intro t w x raw y hwf hko hsub hmem hdec hy hR
    cases sg with
    | key k =>
      obtain ⟨wm, v, rfl, hkv, hpv⟩ := Value.leaves_key w x k p hmem
      have hnd := hwf.nodup
      have hk : keyOK k := hko.keyOK (mem_mapKeys_of_mem wm k v hkv)
      have hget : mapGet wm k = v := mapGet_of_mem wm k v hnd hkv
      obtain ⟨node, hnode, hnnd, hsubset, hpt, huniq, _⟩ := mapNode_spec hsub
      have hsubv : Sub R (mapGet node k) v := by rw [← hget]; exact hpt k
      obtain ⟨t2, hset, hsub2, hpres2, hkeep2⟩ :=
        ih (mapGet node k) v x raw y (hwf.wf_of_mem_map hkv) (hko.keys_of_mem_map hkv) hsubv hpv
          hdec hy hR
      refine ⟨.map (mapSet node k t2), ?_, ?_, ?_, ?_⟩
      · simp only [List.map_cons, Seg.render, setPath, hk.1, hnode, hset]
      · apply Sub.map
        · exact nodup_mapSet node k t2 hnnd
        · intro k2 hk2
          rcases (mapKeys_mapSet node k t2 k2).1 hk2 with h | h
          · exact hsubset k2 h
          · rw [h]; exact mem_mapKeys_of_mem wm k v hkv
        · intro k2
          rw [mapGet_mapSet]
          by_cases h : k2 = k
          · rw [if_pos h, h, hget]; exact hsub2
          · rw [if_neg h]; exact hpt k2
      · exact Value.mem_leaves_map _ k t2 y p (mem_mapSet_self node k t2) hpres2
      · rintro q z hqz hq ⟨z2, hz2⟩
        cases q with
        | nil =>
          have := (Value.leaves_nil _ _ hz2).1
          simp [Value.isLeaf] at this
        | cons sg2 q2 =>
          cases sg2 with
          | index j =>
            obtain ⟨xs, hxs, _⟩ := Value.leaves_index _ _ j q2 hz2
            cases hxs
          | key k2 =>
            obtain ⟨tm, v2, rfl, hkv2, hq2⟩ := Value.leaves_key t z k2 q2 hqz
            have htm := huniq tm rfl
            subst htm
            by_cases h : k2 = k
            · subst h
              have hv2 : mapGet tm k2 = v2 := mapGet_of_mem tm k2 v2 hnnd hkv2
              obtain ⟨wm2, v3, hwm2, hkv3, hq3⟩ := Value.leaves_key _ z2 k2 q2 hz2
              cases hwm2
              have hv3 : v3 = v := by
                rw [← hget, mapGet_of_mem wm k2 v3 hnd hkv3]
              subst hv3
              have hne : q2 ≠ p := fun e => hq (by rw [e])
              have hq2b : (q2, z) ∈ Value.leaves (mapGet tm k2) := by rw [hv2]; exact hq2
              exact Value.mem_leaves_map _ k2 t2 z q2 (mem_mapSet_self _ _ _)
                (hkeep2 q2 z hq2b hne ⟨z2, hq3⟩)
            · exact Value.mem_leaves_map _ k2 v2 z q2
                (mem_mapSet_of_ne tm k t2 k2 v2 hkv2 h) hq2
    | index i =>
      obtain ⟨ws, rfl, hi, hpv⟩ := Value.leaves_index w x i p hmem
      have hlen := hwf.length_le
      have hi1 : (i : Int) + 1 ≤ maxInt := by omega
      have hatoi : Atoi (Sprint i) = some (i : Int) := Atoi_Sprint i (by omega)
      have hmk := hwf.length_le_max
      obtain ⟨ts, hnode, hlen2, hpt, huniq, _⟩ := sliceNode_spec i (by omega) hsub
      have hgetD : ∀ j, (ts ++ List.replicate (i + 1 - ts.length) Value.null).getD j .null
          = ts.getD j .null := getD_pad ts _
      have hnl : (ts ++ List.replicate (i + 1 - ts.length) Value.null).length
          = ts.length + (i + 1 - ts.length) := by simp
      generalize hnodedef : ts ++ List.replicate (i + 1 - ts.length) Value.null = node at *
      have hsubv : Sub R (node.getD i .null) (ws.getD i .null) := by rw [hgetD]; exact hpt i
      obtain ⟨t2, hset, hsub2, hpres2, hkeep2⟩ :=
        ih (node.getD i .null) (ws.getD i .null) x raw y (hwf.wf_of_mem_list (getD_mem ws i hi))
          (hko.keys_of_mem_list (getD_mem ws i hi)) hsubv hpv hdec hy hR
      have hil : i < node.length := by omega
      refine ⟨.list (node.set i t2), ?_, ?_, ?_, ?_⟩
      · simp only [List.map_cons, Seg.render, setPath, hatoi, wrapInt_succ i hi1, hnode]
        have h1 : (0 : Int) ≤ (i : Int) ∧ (i : Int) < (node.length : Int) :=
          ⟨by omega, by exact_mod_cast hil⟩
        rw [if_pos h1]
        simp only [Int.toNat_ofNat, hset]
      · apply Sub.list
        · rw [List.length_set]; omega
        · intro j
          rw [getD_set node i j t2 hil]
          by_cases h : j = i
          · rw [if_pos h, h]; exact hsub2
          · rw [if_neg h, hgetD]; exact hpt j
      · apply Value.mem_leaves_list _ i y p (by rw [List.length_set]; exact hil)
        rw [getD_set node i i t2 hil, if_pos rfl]
        exact hpres2
      · rintro q z hqz hq ⟨z2, hz2⟩
        cases q with
        | nil =>
          have := (Value.leaves_nil _ _ hz2).1
          simp [Value.isLeaf] at this
        | cons sg2 q2 =>
          cases sg2 with
          | key k2 =>
            obtain ⟨m, v2, hm, _⟩ := Value.leaves_key _ _ k2 q2 hz2
            cases hm
          | index j =>
            obtain ⟨l, rfl, hj, hq2⟩ := Value.leaves_index t z j q2 hqz
            have hl := huniq l rfl
            subst hl
            obtain ⟨ws2, hws2, _, hq3⟩ := Value.leaves_index _ z2 j q2 hz2
            cases hws2
            apply Value.mem_leaves_list _ j z q2 (by rw [List.length_set]; omega)
            rw [getD_set node i j t2 hil]
            by_cases h : j = i
            · subst h
              rw [if_pos rfl]
              have hne : q2 ≠ p := fun e => hq (by rw [e])
              exact hkeep2 q2 z (by rw [hgetD]; exact hq2) hne ⟨z2, hq3⟩
            · rw [if_neg h, hgetD]; exact hq2

/-! ## Paths of leaves and flat keys -/

theorem Value.leaves_segOK (p : List Seg) : ∀ (w x : Value), Value.WF w → Value.KeysOK w →
    (p, x) ∈ Value.leaves w → ∀ s ∈ p, segOK s := by
  induction p with
  | nil => intro w x _ _ _ s hs; simp at hs
  | cons sg p ih =>
    intro w x hwf hko hmem s hs
    cases sg with
    | key k =>
      obtain ⟨m, v, rfl, hkv, hpv⟩ := Value.leaves_key w x k p hmem
      rcases List.mem_cons.1 hs with rfl | hs
      · exact hko.keyOK (mem_mapKeys_of_mem m k v hkv)
      · exact ih v x (hwf.wf_of_mem_map hkv) (hko.keys_of_mem_map hkv) hpv s hs
    | index i =>
      obtain ⟨xs, rfl, hi, hpv⟩ := Value.leaves_index w x i p hmem
      rcases List.mem_cons.1 hs with rfl | hs
      · have := hwf.length_le
        simp only [segOK]
        omega
      · exact ih _ x (hwf.wf_of_mem_list (getD_mem xs i hi)) (hko.keys_of_mem_list (getD_mem xs i hi))
          hpv s hs

theorem Value.leaves_unique (p : List Seg) : ∀ (w x y : Value), Value.WF w →
    (p, x) ∈ Value.leaves w → (p, y) ∈ Value.leaves w → x = y := by
  induction p with
  | nil =>
    intro w x y _ hx hy
    rw [(Value.leaves_nil w x hx).2, (Value.leaves_nil w y hy).2]
  | cons sg p ih =>
    intro w x y hwf hx hy
    cases sg with
    | key k =>
      obtain ⟨m, v, rfl, hkv, hpv⟩ := Value.leaves_key w x k p hx
      obtain ⟨m2, v2, hm2, hkv2, hpv2⟩ := Value.leaves_key _ y k p hy
      cases hm2
      have : v2 = v := by
        rw [← mapGet_of_mem m k v hwf.nodup hkv, mapGet_of_mem m k v2 hwf.nodup hkv2]
      subst this
      exact ih v2 x y (hwf.wf_of_mem_map hkv) hpv hpv2
    | index i =>
      obtain ⟨xs, rfl, hi, hpv⟩ := Value.leaves_index w x i p hx
      obtain ⟨xs2, hxs2, _, hpv2⟩ := Value.leaves_index _ y i p hy
      cases hxs2
      exact ih _ x y (hwf.wf_of_mem_list (getD_mem xs i hi)) hpv hpv2

theorem Value.mem_nodes_of_mem_leaves (p : List Seg) : ∀ (w x : Value),
    (p, x) ∈ Value.leaves w → x ∈ Value.nodes w := by
  induction p with
  | nil =>
    intro w x h
    rw [(Value.leaves_nil w x h).2]
    exact Value.self_mem_nodes w
  | cons sg p ih =>
    intro w x h
    cases sg with
    | key k =>
      obtain ⟨m, v, rfl, hkv, hpv⟩ := Value.leaves_key w x k p h
      exact Value.nodes_of_mem_map m k v x hkv (ih v x hpv)
    | index i =>
      obtain ⟨xs, rfl, hi, hpv⟩ := Value.leaves_index w x i p h
      exact Value.nodes_of_mem_list xs _ x (getD_mem xs i hi) (ih _ x hpv)

theorem render_no_sep (s : Seg) (h : segOK s) :
    ¬ flattenSep <:+: s.render ∧ s.render.getLast? ≠ some '_' := by
  cases s with
  | key k => exact ⟨h.2.1, h.2.2⟩
  | index i =>
    exact ⟨not_sep_infix_of_no_underscore _ (Sprint_no_underscore i),
      getLast_ne_of_no_underscore _ (Sprint_no_underscore i)⟩

theorem render_injective (s1 s2 : Seg) (h1 : segOK s1) (h2 : segOK s2)
    (h : s1.render = s2.render) : s1 = s2 := by
  cases s1 with
  | key k1 =>
    cases s2 with
    | key k2 => simpa [Seg.render] using h
    | index i2 =>
      simp only [Seg.render] at h
      have := Atoi_Sprint i2 h2
      rw [← h, h1.1] at this
      cases this
  | index i1 =>
    cases s2 with
    | key k2 =>
      simp only [Seg.render] at h
      have := Atoi_Sprint i1 h1
      rw [h, h2.1] at this
      cases this
    | index i2 =>
      simp only [Seg.render] at h
      rw [Sprint_injective i1 i2 h]

theorem map_render_injective (p : List Seg) : ∀ (q : List Seg), (∀ s ∈ p, segOK s) →
    (∀ s ∈ q, segOK s) → p.map Seg.render = q.map Seg.render → p = q := by
  induction p with
  | nil =>
    intro q _ _ h
    cases q with
    | nil => rfl
    | cons b q => simp at h
  | cons a p ih =>
    intro q hp hq h
    cases q with
    | nil => simp at h
    | cons b q =>
      simp only [List.map_cons, List.cons.injEq] at h
      rw [render_injective a b (hp a (by simp)) (hq b (by simp)) h.1,
        ih q (fun s hs => hp s (List.mem_cons_of_mem _ hs))
          (fun s hs => hq s (List.mem_cons_of_mem _ hs)) h.2]

/-- The flat key of a non-empty path splits into the rendered segments of the path. -/
theorem Split_keyPath (p : List Seg) (hne : p ≠ []) (h : ∀ s ∈ p, segOK s) :
    Split (keyPath p) flattenSep = p.map Seg.render := by
  apply Split_Join
  · simpa using hne
  · intro s hs
    obtain ⟨sg, hsg, rfl⟩ := List.mem_map.1 hs
    exact (render_no_sep sg (h sg hsg)).1
  · intro s hs
    obtain ⟨sg, hsg, rfl⟩ := List.mem_map.1 (List.mem_of_mem_dropLast hs)
    exact (render_no_sep sg (h sg hsg)).2

theorem keyPath_injective (p q : List Seg) (hp : p ≠ []) (hq : q ≠ [])
    (h1 : ∀ s ∈ p, segOK s) (h2 : ∀ s ∈ q, segOK s) (h : keyPath p = keyPath q) : p = q := by
  apply map_render_injective p q h1 h2
  rw [← Split_keyPath p hp h1, ← Split_keyPath q hq h2, h]

theorem Value.leaves_map_ne_nil (m : GoMap) (p : List Seg) (x : Value)
    (h : (p, x) ∈ Value.leaves (.map m)) : p ≠ [] := by
  rintro rfl
  have := (Value.leaves_nil _ _ h).1
  simp [Value.isLeaf] at this

/-! ## The unflatten loop on entries that are leaves of one value -/

/-- The loop of `unflatten`, started on a partial build `t` of the map `w` and run on entries
whose keys are pairwise distinct and are flat keys of leaves of `w`: it does not panic, its
result is a partial build of `w`, which holds every entry at its path and keeps the leaves
of `t` that no entry addresses. -/
theorem unflattenLoop_leaves (R : Value → Value → Prop) (m : GoMap)
    (hwf : Value.WF (.map m)) (hko : Value.KeysOK (.map m)) :
    ∀ (l : GoMap) (t : Value), (mapKeys l).Nodup → Sub R t (.map m) →
      (∀ e ∈ l, ∃ p x y, (p, x) ∈ Value.leaves (.map m) ∧ e.1 = keyPath p ∧
        decodeValue e.2 = some y ∧ Value.isLeaf y = true ∧ R y x) →
      ∃ t2, unflattenLoop l t = some t2 ∧ Sub R t2 (.map m) ∧
        (∀ e ∈ l, ∀ p, (∃ x, (p, x) ∈ Value.leaves (.map m)) → e.1 = keyPath p →
          ∀ y, decodeValue e.2 = some y → (p, y) ∈ Value.leaves t2) ∧
        (∀ q z, (q, z) ∈ Value.leaves t → (∃ z2, (q, z2) ∈ Value.leaves (.map m)) →
          keyPath q ∉ mapKeys l → (q, z) ∈ Value.leaves t2) := by
  intro l
  induction l with
  | nil =>
    intro t _ hsub _
    exact ⟨t, rfl, hsub, by simp, fun q z h _ _ => h⟩
  | cons e l ih =>
    intro t hnd hsub hall
    obtain ⟨key, raw⟩ := e
    simp only [mapKeys, List.map_cons, List.nodup_cons] at hnd
    obtain ⟨p, x, y, hpx, hkey, hdec, hy, hR⟩ := hall (key, raw) (List.mem_cons_self _ _)
    simp only at hkey hdec
    have hpne := Value.leaves_map_ne_nil m p x hpx
    have hpok := Value.leaves_segOK p _ x hwf hko hpx
    obtain ⟨t1, hset, hsub1, hpres1, hkeep1⟩ :=
      setPath_leaf R p t (.map m) x raw y hwf hko hsub hpx hdec hy hR
    obtain ⟨t2, hloop, hsub2, hpres2, hkeep2⟩ :=
      ih t1 hnd.2 hsub1 (fun e he => hall e (List.mem_cons_of_mem _ he))
    refine ⟨t2, ?_, hsub2, ?_, ?_⟩
    · simp only [unflattenLoop, hkey, Split_keyPath p hpne hpok, hset]
      exact hloop
    · intro e he q hq hkq y2 hy2
      rcases List.mem_cons.1 he with rfl | he
      · simp only at hkq hy2
        obtain ⟨x2, hx2⟩ := hq
        have hqp : q = p := by
          apply keyPath_injective q p (Value.leaves_map_ne_nil m q x2 hx2) hpne
            (Value.leaves_segOK q _ x2 hwf hko hx2) hpok
          rw [← hkq, hkey]
        subst hqp
        have hyy : y2 = y := by
          rw [hdec] at hy2
          exact (Option.some.inj hy2).symm
        subst hyy
        apply hkeep2 q y2 hpres1 ⟨x2, hx2⟩
        rw [← hkey]
        exact hnd.1
      · exact hpres2 e he q hq hkq y2 hy2
    · intro q z hqz hq hnot
      simp only [mapKeys, List.map_cons, List.mem_cons, not_or] at hnot
      apply hkeep2 q z _ hq hnot.2
      apply hkeep1 q z hqz _ hq
      rintro rfl
      exact hnot.1 hkey.symm

/-! ## Lemmas on the comparison of values -/

theorem Value.deepEqual_leaf_refl (x : Value) (h : Value.isLeaf x = true) :
    Value.deepEqual x x = true := by
  cases x <;> simp [Value.isLeaf] at h <;> simp [Value.deepEqual]

theorem Value.deepEqualList_of (a : List Value) : ∀ b : List Value, a.length = b.length →
    (∀ i, Value.deepEqual (a.getD i .null) (b.getD i .null) = true) →
    Value.deepEqualList a b = true := by
  induction a with
  | nil =>
    intro b hlen _
    cases b with
    | nil => simp [Value.deepEqualList]
    | cons y b => simp at hlen
  | cons x a ih =>
    intro b hlen h
    cases b with
    | nil => simp at hlen
    | cons y b =>
      simp only [Value.deepEqualList, Bool.and_eq_true]
      refine ⟨by simpa using h 0, ih b (by simpa using hlen) ?_⟩
      intro i
      simpa using h (i + 1)

theorem lookup_of_mem_mapKeys (m : GoMap) (k : GoString) (h : k ∈ mapKeys m) :
    m.lookup k = some (mapGet m k) := by
  induction m with
  | nil => simp [mapKeys] at h
  | cons a t ih =>
    obtain ⟨k1, x⟩ := a
    by_cases hk : k1 = k
    · subst hk
      simp [mapGet]
    · simp only [mapKeys, List.map_cons, List.mem_cons] at h
      rcases h with h | h
      · exact absurd h.symm hk
      · have hk2 : (k == k1) = false := by
          simp only [beq_eq_false_iff_ne, ne_eq]
          exact fun e => hk e.symm
        simp only [List.lookup_cons, hk2, mapGet, if_neg hk]
        exact ih h

theorem Value.deepEqualEntries_of (a b : GoMap)
    (h : ∀ kx ∈ a, kx.1 ∈ mapKeys b ∧ Value.deepEqual kx.2 (mapGet b kx.1) = true) :
    Value.deepEqualEntries a b = true := by
  induction a with
  | nil => simp [Value.deepEqualEntries]
  | cons e a ih =>
    obtain ⟨k, x⟩ := e
    simp only [Value.deepEqualEntries, Bool.and_eq_true]
    obtain ⟨h1, h2⟩ := h (k, x) (List.mem_cons_self _ _)
    refine ⟨?_, ih (fun kx hkx => h kx (List.mem_cons_of_mem _ hkx))⟩
    rw [lookup_of_mem_mapKeys b k h1]
    exact h2

theorem length_eq_of_same_keys (a b : GoMap) (ha : (mapKeys a).Nodup) (hb : (mapKeys b).Nodup)
    (h : ∀ k, k ∈ mapKeys a ↔ k ∈ mapKeys b) : a.length = b.length := by
  have h1 := (List.subperm_of_subset ha (fun k hk => (h k).1 hk)).length_le
  have h2 := (List.subperm_of_subset hb (fun k hk => (h k).2 hk)).length_le
  simp only [mapKeys, List.length_map] at h1 h2
  omega

/-! ## Values without empty containers -/

theorem Value.NoEmpty.noEmpty_of_mem_map {m : GoMap} (h : Value.NoEmpty (.map m)) {k : GoString}
    {v : Value} (hkv : (k, v) ∈ m) : Value.NoEmpty v :=
  fun n hn => h n (Value.nodes_of_mem_map m k v n hkv hn)

theorem Value.NoEmpty.noEmpty_of_mem_list {xs : List Value} (h : Value.NoEmpty (.list xs)) {x : Value}
    (hx : x ∈ xs) : Value.NoEmpty x :=
  fun n hn => h n (Value.nodes_of_mem_list xs x n hx hn)

theorem Value.NoEmpty.list_pos {xs : List Value} (h : Value.NoEmpty (.list xs)) :
    0 < xs.length := by
  have := h _ (Value.self_mem_nodes _)
  cases xs with
  | nil => simp [Value.nodeNonEmpty] at this
  | cons a t => simp

/-- A value without empty containers has a leaf. -/
theorem Value.exists_leaf (w : Value) : Value.NoEmpty w → ∃ p x, (p, x) ∈ Value.leaves w := by
  induction w using Value.induction with
  | hleaf v hv =>
    intro _
    exact ⟨[], v, by rw [Value.leaves_of_leaf v hv]; simp⟩
  | hlist xs ih =>
    intro hne
    have hpos := hne.list_pos
    obtain ⟨p, x, hpx⟩ := ih _ (getD_mem xs 0 hpos) (hne.noEmpty_of_mem_list (getD_mem xs 0 hpos))
    exact ⟨Seg.index 0 :: p, x, Value.mem_leaves_list xs 0 x p hpos hpx⟩
  | hmap m ih =>
    intro hne
    have := hne _ (Value.self_mem_nodes _)
    cases m with
    | nil => simp [Value.nodeNonEmpty] at this
    | cons a t =>
      obtain ⟨k, v⟩ := a
      obtain ⟨p, x, hpx⟩ := ih (k, v) (List.mem_cons_self _ _)
        (hne.noEmpty_of_mem_map (List.mem_cons_self _ _))
      exact ⟨Seg.key k :: p, x, Value.mem_leaves_map _ k v x p (List.mem_cons_self _ _) hpx⟩

/-! ## A partial build that holds every leaf is complete -/

theorem full_list_shape {R : Value → Value → Prop} {t : Value} {xs : List Value}
    (hsub : Sub R t (.list xs)) (hne : Value.NoEmpty (.list xs))
    (hfull : ∀ p x, (p, x) ∈ Value.leaves (.list xs) → (p, x) ∈ Value.leaves t) :
    ∃ ts, t = .list ts ∧ ts.length = xs.length ∧
      (∀ i, Sub R (ts.getD i .null) (xs.getD i .null)) ∧
      (∀ i, i < xs.length → ∀ p x, (p, x) ∈ Value.leaves (xs.getD i .null) →
        (p, x) ∈ Value.leaves (ts.getD i .null)) := by
  have hpos := hne.list_pos
  have hlast : xs.length - 1 < xs.length := by omega
  obtain ⟨p, x, hpx⟩ := Value.exists_leaf _ (hne.noEmpty_of_mem_list (getD_mem xs _ hlast))
  have hin := hfull _ _ (Value.mem_leaves_list xs _ x p hlast hpx)
  obtain ⟨ts, rfl, hlt, _⟩ := Value.leaves_index t x _ p hin
  rcases hsub.inv_list with h | ⟨ts2, h2, hle, hpt⟩
  · cases h
  · cases h2
    refine ⟨ts, rfl, by omega, hpt, ?_⟩
    intro i hi q z hqz
    obtain ⟨l, hl, _, hq⟩ := Value.leaves_index _ z i q
      (hfull _ _ (Value.mem_leaves_list xs i z q hi hqz))
    cases hl
    exact hq

theorem full_map_shape {R : Value → Value → Prop} {t : Value} {wm : GoMap}
    (hsub : Sub R t (.map wm)) (hne : Value.NoEmpty (.map wm))
    (hfull : ∀ p x, (p, x) ∈ Value.leaves (.map wm) → (p, x) ∈ Value.leaves t) :
    ∃ tm, t = .map tm ∧ (mapKeys tm).Nodup ∧ (∀ k, k ∈ mapKeys tm ↔ k ∈ mapKeys wm) ∧
      (∀ k, Sub R (mapGet tm k) (mapGet wm k)) ∧
      (∀ k v, (k, v) ∈ wm → ∀ p x, (p, x) ∈ Value.leaves v →
        (p, x) ∈ Value.leaves (mapGet tm k)) := by
  obtain ⟨p, x, hpx⟩ := Value.exists_leaf _ hne
  have hp := Value.leaves_map_ne_nil wm p x hpx
  rcases hsub.inv_map with h | ⟨tm, rfl, hnd, hsubset, hpt⟩
  · subst h
    have := hfull p x hpx
    simp only [Value.leaves, List.mem_singleton, Prod.mk.injEq] at this
    exact absurd this.1 hp
  · have hkey : ∀ k v, (k, v) ∈ wm → ∀ q z, (q, z) ∈ Value.leaves v →
        (k, mapGet tm k) ∈ tm ∧ (q, z) ∈ Value.leaves (mapGet tm k) := by
      intro k v hkv q z hqz
      obtain ⟨tm2, v2, h2, hkv2, hq⟩ := Value.leaves_key _ z k q
        (hfull _ _ (Value.mem_leaves_map wm k v z q hkv hqz))
      injection h2 with h2
      subst h2
      rw [mapGet_of_mem tm k v2 hnd hkv2]
      exact ⟨hkv2, hq⟩
    refine ⟨tm, rfl, hnd, ?_, hpt, fun k v hkv q z hqz => (hkey k v hkv q z hqz).2⟩
    intro k
    refine ⟨hsubset k, fun hk => ?_⟩
    have hkv := mem_of_mem_mapKeys wm k hk
    obtain ⟨q, z, hqz⟩ := Value.exists_leaf _ (hne.noEmpty_of_mem_map hkv)
    exact mem_mapKeys_of_mem tm k _ (hkey k _ hkv q z hqz).1

/-- Two partial builds of a value without empty containers that both hold every leaf of the
value are equal as Go data. -/
theorem deepEqual_of_full (w : Value) : ∀ t1 t2 : Value, Value.WF w → Value.NoEmpty w →
    Sub Eq t1 w → Sub Eq t2 w →
    (∀ p x, (p, x) ∈ Value.leaves w → (p, x) ∈ Value.leaves t1) →
    (∀ p x, (p, x) ∈ Value.leaves w → (p, x) ∈ Value.leaves t2) →
    Value.deepEqual t1 t2 = true := by
  induction w using Value.induction with
  | hleaf v hv =>
    intro t1 t2 _ _ _ _ h1 h2
    have hmem : (([] : List Seg), v) ∈ Value.leaves v := by
      rw [Value.leaves_of_leaf v hv]; simp
    have e1 := (Value.leaves_nil t1 v (h1 _ _ hmem)).2
    have e2 := (Value.leaves_nil t2 v (h2 _ _ hmem)).2
    rw [← e1, ← e2]
    exact Value.deepEqual_leaf_refl v hv
  | hlist xs ih =>
    intro t1 t2 hwf hne hs1 hs2 h1 h2
    obtain ⟨ts1, rfl, hl1, hp1, hf1⟩ := full_list_shape hs1 hne h1
    obtain ⟨ts2, rfl, hl2, hp2, hf2⟩ := full_list_shape hs2 hne h2
    simp only [Value.deepEqual]
    apply Value.deepEqualList_of ts1 ts2 (by omega)
    intro i
    by_cases hi : i < xs.length
    · have hmem := getD_mem xs i hi
      exact ih _ hmem _ _ (hwf.wf_of_mem_list hmem) (hne.noEmpty_of_mem_list hmem) (hp1 i) (hp2 i)
        (hf1 i hi) (hf2 i hi)
    · rw [List.getD_eq_default _ _ (by omega), List.getD_eq_default _ _ (by omega)]
      rfl
  | hmap m ih =>
    intro t1 t2 hwf hne hs1 hs2 h1 h2
    obtain ⟨tm1, rfl, hnd1, hk1, hp1, hf1⟩ := full_map_shape hs1 hne h1
    obtain ⟨tm2, rfl, hnd2, hk2, hp2, hf2⟩ := full_map_shape hs2 hne h2
    have hlen : tm1.length = tm2.length :=
      length_eq_of_same_keys tm1 tm2 hnd1 hnd2 (fun k => (hk1 k).trans (hk2 k).symm)
    simp only [Value.deepEqual, Bool.and_eq_true, beq_iff_eq]
    refine ⟨hlen, Value.deepEqualEntries_of tm1 tm2 ?_⟩
    rintro ⟨k, x⟩ hkx
    have hkin1 := mem_mapKeys_of_mem tm1 k x hkx
    have hkw := (hk1 k).1 hkin1
    have hkv := mem_of_mem_mapKeys m k hkw
    refine ⟨(hk2 k).2 hkw, ?_⟩
    have hx : mapGet tm1 k = x := mapGet_of_mem tm1 k x hnd1 hkx
    simp only
    rw [← hx]
    exact ih (k, mapGet m k) hkv _ _ (hwf.wf_of_mem_map hkv) (hne.noEmpty_of_mem_map hkv) (hp1 k) (hp2 k)
      (hf1 k _ hkv) (hf2 k _ hkv)

/-! ## unflatten on the result of flatten -/

theorem mapGet_of_not_mem (m : GoMap) (k : GoString) (h : k ∉ mapKeys m) :
    mapGet m k = .null := by
  induction m with
  | nil => rfl
  | cons a t ih =>
    obtain ⟨k1, x⟩ := a
    simp only [mapKeys, List.map_cons, List.mem_cons, not_or] at h
    have hk : ¬ k1 = k := fun e => h.1 e.symm
    simp only [mapGet, if_neg hk]
    exact ih h.2

/-- A well-formed value is a partial build of itself. -/
theorem Sub.refl_of_WF (w : Value) : Value.WF w → Sub Eq w w := by
  induction w using Value.induction with
  | hleaf v hv => intro _; exact Sub.leaf v v hv hv rfl
  | hlist xs ih =>
    intro hwf
    apply Sub.list xs xs (Nat.le_refl _)
    intro i
    by_cases hi : i < xs.length
    · exact ih _ (getD_mem xs i hi) (hwf.wf_of_mem_list (getD_mem xs i hi))
    · rw [List.getD_eq_default _ _ (by omega)]
      exact Sub.null _
  | hmap m ih =>
    intro hwf
    apply Sub.map m m hwf.nodup (fun k hk => hk)
    intro k
    by_cases hk : k ∈ mapKeys m
    · have hkv := mem_of_mem_mapKeys m k hk
      exact ih _ hkv (hwf.wf_of_mem_map hkv)
    · rw [mapGet_of_not_mem m k hk]
      exact Sub.null _

theorem nodup_writeAll (l : List (GoString × Value)) (r : GoMap) (h : (mapKeys r).Nodup) :
    (mapKeys (writeAll l r)).Nodup := by
  induction l generalizing r with
  | nil => exact h
  | cons a t ih => exact ih (mapSet r a.1 a.2) (nodup_mapSet r a.1 a.2 h)

theorem nodup_flatten (m : GoMap) : (mapKeys (flatten m)).Nodup := by
  rw [flatten_eq_writeAll]
  exact nodup_writeAll _ [] (by simp [mapKeys])

theorem mem_flatten (m : GoMap) (e : GoString × Value) (h : e ∈ flatten m) :
    ∃ pl ∈ Value.leaves (.map m), e = flatEntry pl := by
  rw [flatten_eq_writeAll] at h
  rcases mem_writeAll _ _ e h with h | h
  · simp at h
  · obtain ⟨pl, hpl, rfl⟩ := List.mem_map.1 h
    exact ⟨pl, hpl, rfl⟩

theorem keyPath_mem_flatten (m : GoMap) (pl : List Seg × Value)
    (h : pl ∈ Value.leaves (.map m)) : ∃ e ∈ flatten m, e.1 = keyPath pl.1 := by
  have : keyPath pl.1 ∈ mapKeys (flatten m) := by
    rw [flatten_eq_writeAll, mapKeys_writeAll]
    exact Or.inr (List.mem_map.2 ⟨flatEntry pl, List.mem_map.2 ⟨pl, h, rfl⟩, rfl⟩)
  obtain ⟨e, he, hk⟩ := List.mem_map.1 this
  exact ⟨e, he, hk⟩

/-- Decoding the encoded form of a leaf succeeds and gives a leaf. -/
theorem decode_encode_leaf (x : Value) (hx : Value.isLeaf x = true) :
    ∃ y, decodeValue (encodeValue x) = some y ∧ Value.isLeaf y = true := by
  cases x with
  | str s => exact ⟨_, decodeValue_encodeValue_str s, rfl⟩
  | null => exact ⟨_, rfl, rfl⟩
  | bool b => exact ⟨_, rfl, rfl⟩
  | num z => exact ⟨_, rfl, rfl⟩
  | list xs => simp [Value.isLeaf] at hx
  | map m => simp [Value.isLeaf] at hx

/-- Decoding the encoded form of a leaf without a backslash-n pair gives the leaf back. -/
theorem decode_encode_clean (x : Value) (hx : Value.isLeaf x = true)
    (hc : Value.nodeClean x = true) : decodeValue (encodeValue x) = some x := by
  cases x with
  | str s =>
    exact decodeValue_encodeValue_of_clean s (by simpa [Value.nodeClean] using hc)
  | null => rfl
  | bool b => rfl
  | num z => rfl
  | list xs => simp [Value.isLeaf] at hx
  | map m => simp [Value.isLeaf] at hx

/-- The loop of `unflatten` on the entries of `flatten m`, visited in any order: it does not
panic, and it builds a partial build of `m` that holds, at the path of every leaf of `m`,
the decoded form of the encoded leaf. -/
theorem unflatten_flatten_build (R : Value → Value → Prop) (m : GoMap)
    (hwf : Value.WF (.map m)) (hko : Value.KeysOK (.map m))
    (hR : ∀ p x, (p, x) ∈ Value.leaves (.map m) →
      ∃ y, decodeValue (encodeValue x) = some y ∧ Value.isLeaf y = true ∧ R y x)
    (l : GoMap) (hl : l.Perm (flatten m)) :
    ∃ t, unflatten l = some t ∧ Sub R t (.map m) ∧
      ∀ p x, (p, x) ∈ Value.leaves (.map m) →
        ∀ y, decodeValue (encodeValue x) = some y → (p, y) ∈ Value.leaves t := by
  have hnd : (mapKeys l).Nodup := ((hl.map Prod.fst).nodup_iff).2 (nodup_flatten m)
  have hstart : Sub R (.map []) (.map m) :=
    Sub.map [] m (by simp [mapKeys]) (by simp [mapKeys]) (fun k => Sub.null _)
  obtain ⟨t, hloop, hsub, hpres, _⟩ :=
    unflattenLoop_leaves R m hwf hko l (.map []) hnd hstart (by
      intro e he
      obtain ⟨pl, hpl, rfl⟩ := mem_flatten m e (hl.mem_iff.1 he)
      obtain ⟨y, hy1, hy2, hy3⟩ := hR pl.1 pl.2 hpl
      exact ⟨pl.1, pl.2, y, hpl, rfl, hy1, hy2, hy3⟩)
  refine ⟨t, hloop, hsub, ?_⟩
  intro p x hpx y hy
  obtain ⟨e, he, hk⟩ := keyPath_mem_flatten m (p, x) hpx
  obtain ⟨pl, hpl, rfl⟩ := mem_flatten m e he
  simp only [flatEntry] at hk
  have hpp : pl.1 = p :=
    keyPath_injective pl.1 p (Value.leaves_map_ne_nil m pl.1 pl.2 hpl)
      (Value.leaves_map_ne_nil m p x hpx) (Value.leaves_segOK pl.1 _ pl.2 hwf hko hpl)
      (Value.leaves_segOK p _ x hwf hko hpx) hk
  have hxx : pl.2 = x := by
    apply Value.leaves_unique p _ pl.2 x hwf _ hpx
    rw [← hpp]
    exact hpl
  apply hpres (flatEntry pl) (hl.mem_iff.2 he) p ⟨x, hpx⟩ hk y
  simp only [flatEntry, hxx]
  exact hy

/-- On a value whose strings hold no backslash-n pair the build holds every leaf. -/
theorem unflatten_flatten_full (m : GoMap) (hwf : Value.WF (.map m))
    (hko : Value.KeysOK (.map m)) (hc : Value.Clean (.map m))
    (l : GoMap) (hl : l.Perm (flatten m)) :
    ∃ t, unflatten l = some t ∧ Sub Eq t (.map m) ∧
      ∀ p x, (p, x) ∈ Value.leaves (.map m) → (p, x) ∈ Value.leaves t := by
  have hdec : ∀ p x, (p, x) ∈ Value.leaves (.map m) → decodeValue (encodeValue x) = some x :=
    fun p x hpx => decode_encode_clean x (Value.isLeaf_of_mem_leaves p _ x hpx)
      (hc x (Value.mem_nodes_of_mem_leaves p _ x hpx))
  obtain ⟨t, h1, h2, h3⟩ := unflatten_flatten_build Eq m hwf hko
    (fun p x hpx => ⟨x, hdec p x hpx, Value.isLeaf_of_mem_leaves p _ x hpx, rfl⟩) l hl
  exact ⟨t, h1, h2, fun p x hpx => h3 p x hpx x (hdec p x hpx)⟩

theorem noEmpty_root (m : GoMap) (hm : m ≠ []) (h : ∀ kx ∈ m, Value.NoEmpty kx.2) :
    Value.NoEmpty (.map m) := by
  intro n hn
  simp only [Value.nodes, List.mem_cons] at hn
  rcases hn with rfl | hn
  · cases m with
    | nil => exact absurd rfl hm
    | cons a t => rfl
  · obtain ⟨kx, hkx, hn⟩ := (Value.mem_nodesEntries m n).1 hn
    exact h kx hkx n hn

theorem flatten_nil : flatten [] = [] := rfl

theorem unflatten_of_perm_nil (l : GoMap) (hl : l.Perm (flatten [])) :
    unflatten l = some (.map []) := by
  rw [flatten_nil] at hl
  rw [List.Perm.eq_nil hl]
  rfl

/-! ## Lemmas for single steps and single entries -/

theorem Split_pair (k s : GoString) (hk : keyOK k) (hs : ¬ flattenSep <:+: s) :
    Split (k ++ flattenSep ++ s) flattenSep = [k, s] := by
  rw [Split_flattenSep, splitGo_append_sep k s hk.2.1 hk.2.2, splitGo_single s hs]

theorem set_replicate_last (i : Nat) (d : Value) :
    (List.replicate (i + 1) Value.null).set i d = List.replicate i Value.null ++ [d] := by
  induction i with
  | zero => rfl
  | succ i ih =>
    rw [List.replicate_succ, List.set_cons_succ, ih, List.replicate_succ, List.cons_append]

/-- One step of the inner loop on a segment that `Atoi` rejects. -/
theorem setPath_key_step (k : GoString) (keys : List GoString) (t raw : Value) (node : GoMap)
    (hk : Atoi k = none) (hnode : mapNode t = some node) :
    setPath (k :: keys) t raw =
      (setPath keys (mapGet node k) raw).map (fun x => .map (mapSet node k x)) := by
  simp only [setPath, hk, hnode]
  cases setPath keys (mapGet node k) raw <;> rfl

/-- One step of the inner loop on a segment that `Atoi` reads as a position. -/
theorem setPath_index_step (s : GoString) (keys : List GoString) (t raw : Value) (i : Nat)
    (node : List Value) (h : Atoi s = some (i : Int)) (hi : (i : Int) + 1 ≤ maxInt)
    (hnode : sliceNode t ((i : Int) + 1) = some node) (hil : i < node.length) :
    setPath (s :: keys) t raw =
      (setPath keys (node.getD i .null) raw).map (fun x => .list (node.set i x)) := by
  simp only [setPath, h, wrapInt_succ i hi, hnode]
  have h1 : (0 : Int) ≤ (i : Int) ∧ (i : Int) < (node.length : Int) :=
    ⟨by omega, by exact_mod_cast hil⟩
  rw [if_pos h1]
  simp only [Int.toNat_ofNat]
  cases setPath keys (node.getD i .null) raw <;> rfl

/-! ## Lemmas for list growth -/

theorem Value.nodes_of_leaf (x : Value) (h : Value.isLeaf x = true) : Value.nodes x = [x] := by
  cases x <;> simp [Value.isLeaf] at h <;> simp [Value.nodes]

theorem Value.nodeWF_of_leaf (x : Value) (h : Value.isLeaf x = true) :
    Value.nodeWF x = true ∧ Value.nodeKeysOK x = true := by
  cases x <;> simp [Value.isLeaf] at h <;> exact ⟨rfl, rfl⟩

theorem Sub.eq_null {t : Value} (h : Sub Eq t .null) : t = .null := by
  cases h with
  | null => rfl
  | leaf _ _ _ _ h3 => exact h3

theorem map_eq_singleton (tm : GoMap) (k : GoString) (v : Value) (hnd : (mapKeys tm).Nodup)
    (hk : ∀ k2 ∈ mapKeys tm, k2 = k) (hv : (k, v) ∈ tm) : tm = [(k, v)] := by
  cases tm with
  | nil => simp at hv
  | cons a rest =>
    cases rest with
    | nil =>
      rw [List.mem_singleton] at hv
      rw [hv]
    | cons b rest2 =>
      have h1 := hk a.1 (by simp [mapKeys])
      have h2 := hk b.1 (by simp [mapKeys])
      simp only [mapKeys, List.map_cons, List.nodup_cons, List.mem_cons, not_or] at hnd
      exact absurd (h1.trans h2.symm) hnd.1.1

theorem list_eq_of_getD (a b : List Value) (hlen : a.length = b.length)
    (h : ∀ i, a.getD i .null = b.getD i .null) : a = b := by
  apply List.ext_getElem hlen
  intro i h1 h2
  have := h i
  rwa [List.getD_eq_getElem _ _ h1, List.getD_eq_getElem _ _ h2] at this

/-! ## More lemmas on the value codec -/

theorem replaceGo_newline_eq (s : GoString) :
    replaceGo newline escapedNewline s 0 = escapeNewlines s := by
  induction s with
  | nil => rfl
  | cons c t ih =>
    rw [replaceGo_newline_cons, ih]
    by_cases h : c = '\n'
    · simp [escapeNewlines, h]
    · simp [escapeNewlines, h]

theorem newline_not_mem_escapeNewlines (s : GoString) : '\n' ∉ escapeNewlines s := by
  intro h
  obtain ⟨c, _, hc⟩ := List.mem_flatMap.1 h
  by_cases h1 : c = '\n'
  · rw [if_pos h1] at hc
    revert hc
    decide
  · rw [if_neg h1] at hc
    simp only [List.mem_singleton] at hc
    exact h1 hc.symm

/-- The worker form of the codec on strings. -/
theorem decode_encode_str_eq (s : GoString) :
    decodeValue (encodeValue (.str s)) =
      some (.str (replaceGo escapedNewline newline (replaceGo newline escapedNewline s 0) 0)) := by
  rw [decodeValue_encodeValue_str, Replace_newline, Replace_escaped]

theorem infix_cons_cases (c : Char) (t : GoString) (h : escapedNewline <:+: c :: t) :
    (c = '\\' ∧ t.head? = some 'n') ∨ escapedNewline <:+: t := by
  rcases List.infix_cons_iff.1 h with h | h
  · left
    obtain ⟨r, hr⟩ := h
    simp only [escapedNewline, List.cons_append, List.nil_append, List.cons.injEq] at hr
    obtain ⟨h1, h2⟩ := hr
    refine ⟨h1.symm, ?_⟩
    rw [← h2]
    rfl
  · exact Or.inr h

/-- Unescaping an escaped string never lengthens it, and shortens it when the string holds
a backslash followed by the letter n. -/
theorem unescape_escape_length (n : Nat) : ∀ s : GoString, s.length ≤ n →
    (replaceGo escapedNewline newline (replaceGo newline escapedNewline s 0) 0).length
        ≤ s.length ∧
    (escapedNewline <:+: s →
      (replaceGo escapedNewline newline (replaceGo newline escapedNewline s 0) 0).length
        < s.length) := by
  induction n with
  | zero =>
    intro s hs
    have : s = [] := List.length_eq_zero.1 (by omega)
    subst this
    refine ⟨by simp [replaceGo], ?_⟩
    intro h
    have := List.IsInfix.length_le h
    simp [escapedNewline] at this
  | succ n ih =>
    intro s hs
    cases s with
    | nil =>
      refine ⟨by simp [replaceGo], ?_⟩
      intro h
      have := List.IsInfix.length_le h
      simp [escapedNewline] at this
    | cons c t =>
      have ht : t.length ≤ n := by simpa using hs
      by_cases hc : c = '\n'
      · subst hc
        rw [replaceGo_newline_cons, if_pos rfl, replaceGo_escaped_hit]
        obtain ⟨h1, h2⟩ := ih t ht
        refine ⟨by simpa using h1, ?_⟩
        intro h
        rcases infix_cons_cases _ t h with ⟨h3, _⟩ | h3
        · exact absurd h3 (by decide)
        · simpa using h2 h3
      · by_cases hp : c = '\\' ∧ t.head? = some 'n'
        · obtain ⟨rfl, hn⟩ := hp
          cases t with
          | nil => simp at hn
          | cons d u =>
            simp only [List.head?_cons, Option.some.injEq] at hn
            subst hn
            have hu : u.length ≤ n := by simp at ht; omega
            have e1 : replaceGo newline escapedNewline ('\\' :: 'n' :: u) 0
                = '\\' :: 'n' :: replaceGo newline escapedNewline u 0 := by
              rw [replaceGo_newline_cons, if_neg (by decide), replaceGo_newline_cons,
                if_neg (by decide)]
            rw [e1, replaceGo_escaped_hit]
            obtain ⟨h1, _⟩ := ih u hu
            simp only [List.length_cons]
            constructor
            · omega
            · intro _; omega
        · rw [replaceGo_newline_cons, if_neg hc, replaceGo_escaped_miss]
          · obtain ⟨h1, h2⟩ := ih t ht
            refine ⟨by simpa using h1, ?_⟩
            intro h
            rcases infix_cons_cases _ t h with h3 | h3
            · exact absurd h3 hp
            · simpa using h2 h3
          · rintro ⟨h1, h2⟩
            rw [head_replaceGo_newline] at h2
            exact hp ⟨h1, h2⟩

/-- A string that holds a backslash followed by the letter n does not survive the codec. -/
theorem decode_encode_ne_of_escaped (s : GoString) (h : escapedNewline <:+: s) :
    decodeValue (encodeValue (.str s)) ≠ some (.str s) := by
  rw [decode_encode_str_eq]
  intro he
  have e : replaceGo escapedNewline newline (replaceGo newline escapedNewline s 0) 0 = s := by
    injection he with he
    injection he
  have := (unescape_escape_length s.length s (Nat.le_refl _)).2 h
  rw [e] at this
  omega

/-! ## Lemmas on safe keys -/

theorem parseDigits_all_digits (l : GoString) : ∀ (acc n : Nat), parseDigits l acc = some n →
    ∀ c ∈ l, (digitVal c).isSome = true := by
  induction l with
  | nil => intro _ _ _ c hc; simp at hc
  | cons a t ih =>
    intro acc n h c hc
    simp only [parseDigits] at h
    cases hd : digitVal a with
    | none => rw [hd] at h; simp at h
    | some d =>
      rw [hd] at h
      rcases List.mem_cons.1 hc with rfl | hc
      · rw [hd]; rfl
      · exact ih _ n h c hc

/-- What `Atoi` accepts is an optionally signed run of decimal digits. -/
theorem signedDigits_of_Atoi (k : GoString) (z : Int) (h : Atoi k = some z) :
    signedDigits k := by
  unfold signedDigits
  unfold Atoi at h
  dsimp only at h
  generalize (if k.head? = some '-' ∨ k.head? = some '+' then List.drop 1 k else k) = ds
    at h ⊢
  by_cases hne : ds = []
  · rw [if_pos hne] at h
    cases h
  · rw [if_neg hne] at h
    refine ⟨hne, ?_⟩
    cases hp : parseDigits ds 0 with
    | none => rw [hp] at h; cases h
    | some n => exact parseDigits_all_digits ds 0 n hp

theorem keyOK_of_keySafe (k : GoString) (h : keySafe k) : keyOK k := by
  refine ⟨?_, h.1, h.2.2.1⟩
  cases ha : Atoi k with
  | none => rfl
  | some z => exact absurd (signedDigits_of_Atoi k z ha) h.2.2.2

theorem Value.KeysOK_of_KeysSafe (v : Value) (h : Value.KeysSafe v) : Value.KeysOK v := by
  intro n hn
  have := h n hn
  cases n with
  | map m =>
    simp only [Value.nodeKeysSafe, decide_eq_true_eq] at this
    simp only [Value.nodeKeysOK, decide_eq_true_eq]
    exact fun k hk => keyOK_of_keySafe k (this k hk)
  | _ => rfl

/-! ## Lemmas on the plain file format -/

theorem indexGo_cons (c : Char) (rest : GoString) (i : Nat) :
    indexGo ['='] (c :: rest) i = if c = '=' then (i : Int) else indexGo ['='] rest (i + 1) := by
  by_cases h : c = '='
  · subst h
    simp [indexGo, List.isPrefixOf]
  · have h2 : ¬ '=' = c := fun e => h e.symm
    simp [indexGo, List.isPrefixOf, h, h2]

theorem indexGo_spec (line : GoString) : ∀ i : Nat,
    ('=' ∉ line → indexGo ['='] line i = -1) ∧
    ('=' ∈ line →
      indexGo ['='] line i = ((i + (line.takeWhile (fun c => c != '=')).length : Nat) : Int)) := by
  induction line with
  | nil =>
    intro i
    refine ⟨fun _ => by simp [indexGo], fun h => by simp at h⟩
  | cons c t ih =>
    intro i
    rw [indexGo_cons]
    by_cases h : c = '='
    · subst h
      refine ⟨fun hn => absurd (List.mem_cons_self _ _) hn, fun _ => ?_⟩
      simp
    · rw [if_neg h]
      have hne : (c != '=') = true := by simpa using h
      constructor
      · intro hn
        exact (ih (i + 1)).1 (fun hm => hn (List.mem_cons_of_mem _ hm))
      · intro hm
        have hm2 : '=' ∈ t := by
          rcases List.mem_cons.1 hm with e | e
          · exact absurd e.symm h
          · exact e
        rw [(ih (i + 1)).2 hm2, List.takeWhile_cons, hne]
        simp only [if_true, List.length_cons]
        congr 1
        omega

/-- On a non-empty line with a separator the loop of `LoadPlainFile` appends the item of the
line; on a non-empty line without one it returns the error. -/
theorem loadLoop_cons (line : GoString) (rest : List GoString) (branch : TreeBranch) :
    loadLoop (line :: rest) branch =
      if line = [] then loadLoop rest branch
      else if '=' ∈ line then loadLoop rest (branch ++ [itemOfLine line])
      else none := by
  by_cases h0 : line = []
  · subst h0
    simp [loadLoop]
  · have hlen : ¬ line.length = 0 := by simpa using h0
    simp only [loadLoop, if_neg hlen, if_neg h0, Index]
    by_cases hm : '=' ∈ line
    · have hi := (indexGo_spec line 0).2 hm
      simp only [Nat.zero_add] at hi
      have hne : ¬ indexGo ['='] line 0 = -1 := by rw [hi]; omega
      rw [if_neg hne, if_pos hm, hi, Int.toNat_ofNat]
      have hd := List.takeWhile_append_dropWhile (fun c => c != '=') line
      have e1 : line.take (line.takeWhile (fun c => c != '=')).length
          = line.takeWhile (fun c => c != '=') := by
        have := List.take_left (line.takeWhile (fun c => c != '='))
          (line.dropWhile (fun c => c != '='))
        rwa [hd] at this
      have e0 : line.drop (line.takeWhile (fun c => c != '=')).length
          = line.dropWhile (fun c => c != '=') := by
        have := List.drop_left (line.takeWhile (fun c => c != '='))
          (line.dropWhile (fun c => c != '='))
        rwa [hd] at this
      have e2 : line.drop ((line.takeWhile (fun c => c != '=')).length + 1)
          = (line.dropWhile (fun c => c != '=')).drop 1 := by
        rw [← e0, List.drop_drop]
      rw [e1, e2, itemOfLine]
    · rw [if_pos ((indexGo_spec line 0).1 hm), if_neg hm]

theorem loadLoop_good (lines : List GoString) : ∀ branch : TreeBranch,
    (∀ line ∈ lines, line ≠ [] → '=' ∈ line) →
    loadLoop lines branch
      = some (branch ++ (lines.filter (fun l => decide (l ≠ []))).map itemOfLine) := by
  induction lines with
  | nil => intro branch _; simp [loadLoop]
  | cons line rest ih =>
    intro branch h
    have hrest : ∀ l ∈ rest, l ≠ [] → '=' ∈ l := fun l hl => h l (List.mem_cons_of_mem _ hl)
    rw [loadLoop_cons]
    by_cases h0 : line = []
    · rw [if_pos h0, ih branch hrest]
      simp [h0]
    · rw [if_neg h0, if_pos (h line (List.mem_cons_self _ _) h0), ih _ hrest]
      simp [h0]

theorem loadLoop_bad (lines : List GoString) : ∀ branch : TreeBranch,
    (∃ line ∈ lines, line ≠ [] ∧ '=' ∉ line) → loadLoop lines branch = none := by
  induction lines with
  | nil => rintro branch ⟨l, hl, _⟩; simp at hl
  | cons line rest ih =>
    rintro branch ⟨l, hl, hne, hno⟩
    rw [loadLoop_cons]
    rcases List.mem_cons.1 hl with rfl | hl
    · rw [if_neg hne, if_neg hno]
    · by_cases h0 : line = []
      · rw [if_pos h0]; exact ih branch ⟨l, hl, hne, hno⟩
      · rw [if_neg h0]
        by_cases hm : '=' ∈ line
        · rw [if_pos hm]; exact ih _ ⟨l, hl, hne, hno⟩
        · rw [if_neg hm]

/-! ## Lemmas on the emitted lines -/

theorem isComplexValue_iff (v : TreeValue) :
    isComplexValue v = true ↔ (∃ xs, v = .plain (.list xs)) ∨ (∃ items, v = .branch items) := by
  cases v with
  | branch items => simp [isComplexValue]
  | plain x => cases x <;> simp [isComplexValue]

theorem emitLoop_eq (sprint : TreeValue → GoString) (b : TreeBranch) : ∀ buffer : GoString,
    (∀ item ∈ b, isComplexValue item.2 = false) →
    emitLoop sprint b buffer
      = some (buffer ++ b.flatMap (fun item => emittedLine sprint item ++ newline)) := by
  induction b with
  | nil => intro buffer _; simp [emitLoop]
  | cons item rest ih =>
    intro buffer h
    have h1 := h item (List.mem_cons_self _ _)
    simp only [emitLoop, h1, Bool.false_eq_true, if_false]
    rw [ih _ (fun it hit => h it (List.mem_cons_of_mem _ hit))]
    simp [emittedLine]

theorem emitLoop_none (sprint : TreeValue → GoString) (b : TreeBranch) : ∀ buffer : GoString,
    (∃ item ∈ b, isComplexValue item.2 = true) → emitLoop sprint b buffer = none := by
  induction b with
  | nil => rintro buffer ⟨it, hit, _⟩; simp at hit
  | cons item rest ih =>
    rintro buffer ⟨it, hit, hc⟩
    by_cases h1 : isComplexValue item.2 = true
    · simp only [emitLoop, h1, if_true]
    · simp only [emitLoop, h1, Bool.false_eq_true, if_false]
      rcases List.mem_cons.1 hit with rfl | hit
      · exact absurd hc h1
      · exact ih _ ⟨it, hit, hc⟩

theorem splitGo_newline_cons (c : Char) (t : GoString) :
    splitGo newline (c :: t) 0 =
      if c = '\n' then [] :: splitGo newline t 0 else consHead c (splitGo newline t 0) := by
  by_cases h : c = '\n'
  · subst h
    simp [splitGo, newline, List.isPrefixOf]
  · have h2 : ¬ '\n' = c := fun e => h e.symm
    simp [splitGo, newline, List.isPrefixOf, h, h2]

/-- A line without a newline is cut off at the newline that follows it. -/
theorem splitGo_newline_line (l rest : GoString) (h : '\n' ∉ l) :
    splitGo newline (l ++ newline ++ rest) 0 = l :: splitGo newline rest 0 := by
  induction l with
  | nil =>
    show splitGo newline ('\n' :: rest) 0 = [] :: splitGo newline rest 0
    rw [splitGo_newline_cons, if_pos rfl]
  | cons c t ih =>
    have hc : ¬ c = '\n' := fun e => h (by rw [e]; exact List.mem_cons_self _ _)
    have ht : '\n' ∉ t := fun hm => h (List.mem_cons_of_mem _ hm)
    rw [List.cons_append, List.cons_append, splitGo_newline_cons, if_neg hc, ih ht, consHead]

theorem splitGo_emitted (sprint : TreeValue → GoString) (b : TreeBranch)
    (h : ∀ item ∈ b, '\n' ∉ emittedLine sprint item) :
    splitGo newline (b.flatMap (fun item => emittedLine sprint item ++ newline)) 0
      = b.map (emittedLine sprint) ++ [[]] := by
  induction b with
  | nil => simp [splitGo]
  | cons item rest ih =>
    simp only [List.flatMap_cons, List.map_cons, List.cons_append]
    rw [splitGo_newline_line _ _ (h item (List.mem_cons_self _ _)),
      ih (fun it hit => h it (List.mem_cons_of_mem _ hit))]

theorem takeWhile_before_sep (k v : GoString) (h : '=' ∉ k) :
    (k ++ '=' :: v).takeWhile (fun c => c != '=') = k ∧
    (k ++ '=' :: v).dropWhile (fun c => c != '=') = '=' :: v := by
  induction k with
  | nil => simp
  | cons c t ih =>
    have hc : (c != '=') = true := by
      simp only [bne_iff_ne, ne_eq]
      exact fun e => h (by rw [e]; exact List.mem_cons_self _ _)
    have ht := ih (fun hm => h (List.mem_cons_of_mem _ hm))
    simp only [List.cons_append, List.takeWhile_cons, List.dropWhile_cons, hc, if_true]
    exact ⟨by rw [ht.1], ht.2⟩

theorem itemOfLine_eq (k v : GoString) (h : '=' ∉ k) :
    itemOfLine (k ++ ['='] ++ v) = (.plain (.str k), .plain (.str v)) := by
  have e : k ++ ['='] ++ v = k ++ '=' :: v := by simp
  obtain ⟨h1, h2⟩ := takeWhile_before_sep k v h
  rw [e, itemOfLine, h1, h2]
  rfl

/-! ## Lemmas on empty containers -/

/-- No leaf of a well-formed value lies at the path of an empty map or an empty list. -/
theorem Value.not_leaf_of_nodeAt_empty (p : List Seg) : ∀ w : Value, Value.WF w →
    (Value.nodeAt w p = some (.map []) ∨ Value.nodeAt w p = some (.list [])) →
    ∀ x, (p, x) ∉ Value.leaves w := by
  induction p with
  | nil =>
    intro w _ h x hx
    simp only [Value.nodeAt, Option.some.injEq] at h
    rcases h with rfl | rfl
    · simp [Value.leaves, Value.leavesEntries] at hx
    · simp [Value.leaves, Value.leavesList] at hx
  | cons sg p ih =>
    intro w hwf h x hx
    cases sg with
    | key k =>
      obtain ⟨m, v, rfl, hkv, hpv⟩ := Value.leaves_key w x k p hx
      have hl : m.lookup k = some v := by
        rw [lookup_of_mem_mapKeys m k (mem_mapKeys_of_mem m k v hkv),
          mapGet_of_mem m k v hwf.nodup hkv]
      simp only [Value.nodeAt, hl] at h
      exact ih v (hwf.wf_of_mem_map hkv) h x hpv
    | index i =>
      obtain ⟨xs, rfl, hi, hpv⟩ := Value.leaves_index w x i p hx
      have hl : xs[i]? = some (xs.getD i .null) := by
        rw [List.getD_eq_getElem _ _ hi, List.getElem?_eq_getElem hi]
      simp only [Value.nodeAt, hl] at h
      exact ih _ (hwf.wf_of_mem_list (getD_mem xs i hi)) h x hpv

/-! ## Lemmas on signed numerals -/

/-- An optionally signed run of decimal digits does not hold the separator. -/
theorem not_sep_of_signedDigits (s : GoString) (h : signedDigits s) : ¬ flattenSep <:+: s := by
  intro hsep
  obtain ⟨a, b, hab⟩ := hsep
  have hmem : '_' ∈ (if s.head? = some '-' ∨ s.head? = some '+' then s.drop 1 else s) := by
    have hs1 : '_' ∈ s := by
      rw [← hab]
      simp [flattenSep]
    have hs2 : '_' ∈ s.drop 1 := by
      rw [← hab]
      cases a with
      | nil => simp [flattenSep]
      | cons c a => simp [flattenSep]
    split
    · exact hs2
    · exact hs1
  have := h.2 _ hmem
  revert this
  decide

/-! ## Lemmas on addresses and on the unflatten loop in any order -/

theorem Value.WF.of_list (xs : List Value) (hlen : xs.length ≤ maxSliceLen)
    (h : ∀ x ∈ xs, Value.WF x) : Value.WF (.list xs) := by
  intro n hn
  simp only [Value.nodes, List.mem_cons] at hn
  rcases hn with rfl | hn
  · simpa [Value.nodeWF] using hlen
  · obtain ⟨x, hx, hnx⟩ := (Value.mem_nodesList xs n).1 hn
    exact h x hx n hnx

theorem Value.WF.of_map (m : GoMap) (hnd : (mapKeys m).Nodup)
    (h : ∀ kx ∈ m, Value.WF kx.2) : Value.WF (.map m) := by
  intro n hn
  simp only [Value.nodes, List.mem_cons] at hn
  rcases hn with rfl | hn
  · simpa [Value.nodeWF] using hnd
  · obtain ⟨kx, hx, hnx⟩ := (Value.mem_nodesEntries m n).1 hn
    exact h kx hx n hnx

theorem Value.WF_null : Value.WF .null := by
  decide

theorem Value.WF_mapGet (m : GoMap) (k : GoString) (h : Value.WF (.map m)) :
    Value.WF (mapGet m k) := by
  by_cases hk : k ∈ mapKeys m
  · exact h.wf_of_mem_map (mem_of_mem_mapKeys m k hk)
  · rw [mapGet_of_not_mem m k hk]
    exact Value.WF_null

theorem Value.WF_getD (xs : List Value) (i : Nat) (h : ∀ x ∈ xs, Value.WF x) :
    Value.WF (xs.getD i .null) := by
  by_cases hi : i < xs.length
  · exact h _ (getD_mem xs i hi)
  · rw [List.getD_eq_default _ _ (by omega)]
    exact Value.WF_null

theorem Value.WF_decodeValue (raw y : Value) (h : Value.WF raw) (hd : decodeValue raw = some y) :
    Value.WF y := by
  cases raw with
  | str s =>
    have : ∃ s2, y = .str s2 := by
      simp only [decodeValue] at hd
      split at hd
      · split at hd
        · exact ⟨_, (Option.some.inj hd).symm⟩
        · cases hd
      · exact ⟨_, (Option.some.inj hd).symm⟩
    obtain ⟨s2, rfl⟩ := this
    intro n hn
    simp only [Value.nodes, List.mem_singleton] at hn
    rw [hn]
    rfl
  | null => cases hd; exact h
  | bool b => cases hd; exact h
  | num z => cases hd; exact h
  | list xs => cases hd; exact h
  | map m => cases hd; exact h

theorem mapGet_of_lookup (m : GoMap) (k : GoString) (v : Value) (h : m.lookup k = some v) :
    mapGet m k = v ∧ k ∈ mapKeys m := by
  induction m with
  | nil => simp at h
  | cons a t ih =>
    obtain ⟨k1, x⟩ := a
    by_cases hk : k1 = k
    · subst hk
      simp only [List.lookup_cons, beq_self_eq_true, Option.some.injEq] at h
      simp [mapGet, mapKeys, h]
    · have hk2 : (k == k1) = false := by
        simp only [beq_eq_false_iff_ne, ne_eq]
        exact fun e => hk e.symm
      simp only [List.lookup_cons, hk2] at h
      obtain ⟨h1, h2⟩ := ih h
      simp only [mapGet, if_neg hk, mapKeys, List.map_cons, List.mem_cons]
      exact ⟨h1, Or.inr h2⟩

theorem lookup_mapSet (m : GoMap) (k : GoString) (v : Value) (k2 : GoString) :
    (mapSet m k v).lookup k2 = if k2 = k then some v else m.lookup k2 := by
  by_cases h : k2 = k
  · rw [if_pos h, lookup_of_mem_mapKeys _ k2 ((mapKeys_mapSet m k v k2).2 (Or.inr h)),
      mapGet_mapSet, if_pos h]
  · rw [if_neg h]
    by_cases hm : k2 ∈ mapKeys m
    · rw [lookup_of_mem_mapKeys _ k2 ((mapKeys_mapSet m k v k2).2 (Or.inl hm)),
        mapGet_mapSet, if_neg h, lookup_of_mem_mapKeys m k2 hm]
    · have h1 : (mapSet m k v).lookup k2 = none := by
        cases hl : (mapSet m k v).lookup k2 with
        | none => rfl
        | some x =>
          have := (mapGet_of_lookup _ _ _ hl).2
          rcases (mapKeys_mapSet m k v k2).1 this with h2 | h2
          · exact absurd h2 hm
          · exact absurd h2 h
      have h2 : m.lookup k2 = none := by
        cases hl : m.lookup k2 with
        | none => rfl
        | some x => exact absurd (mapGet_of_lookup _ _ _ hl).2 hm
      rw [h1, h2]

theorem Value.nodeAt_key (w x : Value) (k : GoString) (p : List Seg)
    (h : Value.nodeAt w (.key k :: p) = some x) :
    ∃ m v, w = .map m ∧ m.lookup k = some v ∧ Value.nodeAt v p = some x := by
  cases w with
  | map m =>
    simp only [Value.nodeAt] at h
    cases hl : m.lookup k with
    | none => rw [hl] at h; cases h
    | some v => rw [hl] at h; exact ⟨m, v, rfl, hl, h⟩
  | null => simp [Value.nodeAt] at h
  | bool b => simp [Value.nodeAt] at h
  | num z => simp [Value.nodeAt] at h
  | str s => simp [Value.nodeAt] at h
  | list xs => simp [Value.nodeAt] at h

theorem Value.nodeAt_index (w x : Value) (i : Nat) (p : List Seg)
    (h : Value.nodeAt w (.index i :: p) = some x) :
    ∃ xs v, w = .list xs ∧ xs[i]? = some v ∧ Value.nodeAt v p = some x := by
  cases w with
  | list xs =>
    simp only [Value.nodeAt] at h
    cases hl : xs[i]? with
    | none => rw [hl] at h; cases h
    | some v => rw [hl] at h; exact ⟨xs, v, rfl, hl, h⟩
  | null => simp [Value.nodeAt] at h
  | bool b => simp [Value.nodeAt] at h
  | num z => simp [Value.nodeAt] at h
  | str s => simp [Value.nodeAt] at h
  | map m => simp [Value.nodeAt] at h

theorem segOf_of_none (s : GoString) (h : Atoi s = none) : segOf s = .key s := by
  simp [segOf, h]

theorem segOf_of_nat (s : GoString) (i : Nat) (h : Atoi s = some (i : Int)) :
    segOf s = .index i := by
  simp [segOf, h]

theorem makeSlice_success (len : Int) (node : List Value) (h : makeSlice len = some node) :
    node = List.replicate len.toNat .null ∧ len.toNat ≤ maxSliceLen := by
  unfold makeSlice at h
  split at h
  · rename_i hc
    refine ⟨(Option.some.inj h).symm, ?_⟩
    omega
  · cases h

theorem sliceNode_map (m : GoMap) (len : Int) : sliceNode (.map m) len = none := rfl

/-- The slice branch of the inner loop, when it does not panic: the slot holds nil or a
slice, and the node is that slice, padded with nil values. -/
theorem sliceNode_success (t : Value) (len : Int) (node : List Value) (hwf : Value.WF t)
    (h : sliceNode t len = some node) :
    ∃ l n, (t = .null ∧ l = [] ∨ t = .list l) ∧ node = l ++ List.replicate n .null ∧
      node.length ≤ maxSliceLen := by
  cases t with
  | null =>
    simp only [sliceNode] at h
    obtain ⟨h1, h2⟩ := makeSlice_success len node h
    refine ⟨[], len.toNat, Or.inl ⟨rfl, rfl⟩, by simpa using h1, ?_⟩
    rw [h1, List.length_replicate]
    exact h2
  | list l =>
    simp only [sliceNode] at h
    split at h
    · rename_i hlt
      cases hm : makeSlice len with
      | none => rw [hm] at h; cases h
      | some newNode =>
        rw [hm] at h
        obtain ⟨h1, h2⟩ := makeSlice_success len newNode hm
        have hn : node = l ++ List.replicate (len.toNat - l.length) .null := by
          rw [← Option.some.inj h, h1, List.drop_replicate]
        refine ⟨l, len.toNat - l.length, Or.inr rfl, hn, ?_⟩
        rw [hn, List.length_append, List.length_replicate]
        omega
    · refine ⟨l, 0, Or.inr rfl, by simpa using (Option.some.inj h).symm, ?_⟩
      rw [← Option.some.inj h]
      exact hwf.length_le_max
  | bool b => simp [sliceNode] at h
  | num z => simp [sliceNode] at h
  | str s => simp [sliceNode] at h
  | map m => simp [sliceNode] at h

/-- The map branch of the inner loop, when it does not panic: the slot holds nil or the
node. -/
theorem mapNode_success (t : Value) (node : GoMap) (h : mapNode t = some node) :
    t = .null ∧ node = [] ∨ t = .map node := by
  cases t with
  | null => left; exact ⟨rfl, (Option.some.inj h).symm⟩
  | map m => right; rw [Option.some.inj h]
  | bool b => simp [mapNode] at h
  | num z => simp [mapNode] at h
  | str s => simp [mapNode] at h
  | list xs => simp [mapNode] at h

theorem splitGo_ne_nil (sep : GoString) (s : GoString) : ∀ skip : Nat, splitGo sep s skip ≠ [] := by
  induction s with
  | nil => intro skip; simp [splitGo]
  | cons c rest ih =>
    intro skip
    cases skip with
    | succ n => simpa [splitGo] using ih n
    | zero =>
      simp only [splitGo]
      split
      · simp
      · cases splitGo sep rest 0 <;> simp [consHead]

theorem Split_ne_nil (s : GoString) : Split s flattenSep ≠ [] := by
  rw [Split_flattenSep]
  exact splitGo_ne_nil _ _ _

/-- The inner loop on a slot that holds a map leaves a map in the slot. -/
theorem setPath_map (segs : List GoString) (m : GoMap) (raw t2 : Value) (hne : segs ≠ [])
    (h : setPath segs (.map m) raw = some t2) : ∃ m2, t2 = .map m2 := by
  cases segs with
  | nil => exact absurd rfl hne
  | cons s rest =>
    simp only [setPath] at h
    cases hA : Atoi s with
    | some z => simp [hA, sliceNode] at h
    | none =>
      simp only [hA, mapNode] at h
      cases hr : setPath rest (mapGet m s) raw with
      | none => simp [hr] at h
      | some x =>
        simp only [hr, Option.some.injEq] at h
        exact ⟨_, h.symm⟩

theorem unflattenLoop_map (l : GoMap) : ∀ (m : GoMap) (t2 : Value),
    unflattenLoop l (.map m) = some t2 → ∃ m2, t2 = .map m2 := by
  induction l with
  | nil =>
    intro m t2 h
    simp only [unflattenLoop, Option.some.injEq] at h
    exact ⟨m, h.symm⟩
  | cons e rest ih =>
    intro m t2 h
    obtain ⟨k, raw⟩ := e
    simp only [unflattenLoop] at h
    cases hs : setPath (Split k flattenSep) (.map m) raw with
    | none => simp [hs] at h
    | some t =>
      simp only [hs] at h
      obtain ⟨m1, rfl⟩ := setPath_map _ m raw t (Split_ne_nil k) hs
      exact ih m1 t2 h

/-- The inner loop of `unflatten`, when it does not panic on a well-formed tree: the result
is well-formed, `Atoi` reads no segment as a negative number, the decoded value is at the
address of the segments, and every node at an address that is neither above nor below that
address is kept. -/
theorem setPath_success (segs : List GoString) : ∀ (t raw t2 : Value), Value.WF t →
    Value.WF raw → setPath segs t raw = some t2 →
    Value.WF t2 ∧ (∀ s ∈ segs, Atoi s = none ∨ ∃ i : Nat, Atoi s = some (i : Int)) ∧
    (∃ y, decodeValue raw = some y ∧ Value.nodeAt t2 (segs.map segOf) = some y) ∧
    ∀ q v0, Value.nodeAt t q = some v0 → ¬ q <+: segs.map segOf → ¬ segs.map segOf <+: q →
      Value.nodeAt t2 q = some v0 := by
  induction segs with
  | nil =>
    intro t raw t2 hwf hraw h
    simp only [setPath] at h
    refine ⟨Value.WF_decodeValue raw t2 hraw h, by simp, ⟨t2, h, by simp [Value.nodeAt]⟩, ?_⟩
    intro q v0 _ _ hq
    exact absurd List.nil_prefix hq
  | cons s rest ih =>
    intro t raw t2 hwf hraw h
    simp only [setPath] at h
    cases hA : Atoi s with
    | none =>
      simp only [hA] at h
      cases hm : mapNode t with
      | none => simp [hm] at h
      | some node =>
        cases hr : setPath rest (mapGet node s) raw with
        | none => simp [hm, hr] at h
        | some x =>
          simp only [hm, hr, Option.some.injEq] at h
          subst h
          have hnodewf : Value.WF (.map node) := by
            rcases mapNode_success t node hm with ⟨_, rfl⟩ | rfl
            · decide
            · exact hwf
          obtain ⟨hx, hsegs, ⟨y, hy1, hy2⟩, hpres⟩ :=
            ih _ raw x (Value.WF_mapGet node s hnodewf) hraw hr
          refine ⟨?_, ?_, ⟨y, hy1, ?_⟩, ?_⟩
          · apply Value.WF.of_map _ (nodup_mapSet node s x hnodewf.nodup)
            intro kx hkx
            rcases mem_mapSet node s x kx hkx with h1 | h1
            · exact hnodewf.wf_of_mem_map (k := kx.1) (v := kx.2) h1
            · rw [h1]; exact hx
          · intro s2 hs2
            rcases List.mem_cons.1 hs2 with rfl | hs2
            · exact Or.inl hA
            · exact hsegs s2 hs2
          · simp only [List.map_cons, segOf_of_none s hA, Value.nodeAt, lookup_mapSet, if_pos]
            exact hy2
          · intro q v0 hq h1 h2
            rw [List.map_cons, segOf_of_none s hA] at h1 h2
            cases q with
            | nil => exact absurd List.nil_prefix h1
            | cons sg q2 =>
              cases sg with
              | index j =>
                obtain ⟨xs, v, hxs, _, _⟩ := Value.nodeAt_index t v0 j q2 hq
                subst hxs
                simp [mapNode] at hm
              | key k2 =>
                obtain ⟨m, v, hm2, hl, hv⟩ := Value.nodeAt_key t v0 k2 q2 hq
                subst hm2
                simp only [mapNode, Option.some.injEq] at hm
                subst hm
                simp only [Value.nodeAt, lookup_mapSet]
                by_cases hk : k2 = s
                · subst hk
                  rw [if_pos rfl]
                  have hg := (mapGet_of_lookup m k2 v hl).1
                  apply hpres q2 v0 (by rw [hg]; exact hv)
                  · intro hp; exact h1 (List.cons_prefix_cons.2 ⟨rfl, hp⟩)
                  · intro hp; exact h2 (List.cons_prefix_cons.2 ⟨rfl, hp⟩)
                · rw [if_neg hk, hl]
                  exact hv
    | some z =>
      simp only [hA] at h
      cases hn : sliceNode t (wrapInt (z + 1)) with
      | none => simp [hn] at h
      | some node =>
        simp only [hn] at h
        by_cases hc : 0 ≤ z ∧ z < (node.length : Int)
        · rw [if_pos hc] at h
          cases hr : setPath rest (node.getD z.toNat .null) raw with
          | none => rw [hr] at h; cases h
          | some x =>
            rw [hr] at h
            have h := Option.some.inj h
            subst h
            obtain ⟨i, rfl⟩ : ∃ i : Nat, z = i := ⟨z.toNat, by omega⟩
            simp only [Int.toNat_ofNat] at hr ⊢
            have hil : i < node.length := by omega
            obtain ⟨l, n, hshape, hnode, hlen⟩ := sliceNode_success t _ node hwf hn
            have hlwf : ∀ v ∈ l, Value.WF v := by
              rcases hshape with ⟨_, rfl⟩ | rfl
              · simp
              · intro v hv; exact hwf.wf_of_mem_list hv
            have hnodewf : ∀ v ∈ node, Value.WF v := by
              intro v hv
              rw [hnode] at hv
              rcases List.mem_append.1 hv with h1 | h1
              · exact hlwf v h1
              · rw [List.eq_of_mem_replicate h1]; exact Value.WF_null
            obtain ⟨hx, hsegs, ⟨y, hy1, hy2⟩, hpres⟩ :=
              ih _ raw x (Value.WF_getD node i hnodewf) hraw hr
            have hset : (node.set i x)[i]? = some x := by
              simp [List.getElem?_set, hil]
            refine ⟨?_, ?_, ⟨y, hy1, ?_⟩, ?_⟩
            · apply Value.WF.of_list _ (by rw [List.length_set]; exact hlen)
              intro v hv
              rcases List.mem_or_eq_of_mem_set hv with h1 | h1
              · exact hnodewf v h1
              · rw [h1]; exact hx
            · intro s2 hs2
              rcases List.mem_cons.1 hs2 with rfl | hs2
              · exact Or.inr ⟨i, hA⟩
              · exact hsegs s2 hs2
            · simp only [List.map_cons, segOf_of_nat s i hA, Value.nodeAt, hset]
              exact hy2
            · intro q v0 hq h1 h2
              rw [List.map_cons, segOf_of_nat s i hA] at h1 h2
              cases q with
              | nil => exact absurd List.nil_prefix h1
              | cons sg q2 =>
                cases sg with
                | key k2 =>
                  obtain ⟨m, v, hm2, _, _⟩ := Value.nodeAt_key t v0 k2 q2 hq
                  subst hm2
                  rw [sliceNode_map] at hn
                  cases hn
                | index j =>
                  obtain ⟨xs, v, hxs, hl, hv⟩ := Value.nodeAt_index t v0 j q2 hq
                  subst hxs
                  have hl2 : l = xs := by
                    rcases hshape with ⟨h0, _⟩ | h0
                    · cases h0
                    · exact (Value.list.inj h0).symm
                  subst hl2
                  have hjl : j < l.length := by
                    rcases Nat.lt_or_ge j l.length with h3 | h3
                    · exact h3
                    · rw [List.getElem?_eq_none h3] at hl
                      cases hl
                  have hnj : node[j]? = some v := by
                    rw [hnode, List.getElem?_append_left hjl]
                    exact hl
                  simp only [Value.nodeAt]
                  by_cases hj : j = i
                  · subst hj
                    rw [hset]
                    have hg : node.getD j .null = v := by
                      rw [List.getD_eq_getElem?_getD, hnj]
                      rfl
                    apply hpres q2 v0 (by rw [hg]; exact hv)
                    · intro hp; exact h1 (List.cons_prefix_cons.2 ⟨rfl, hp⟩)
                    · intro hp; exact h2 (List.cons_prefix_cons.2 ⟨rfl, hp⟩)
                  · have hne : (node.set i x)[j]? = node[j]? := by
                      simp [List.getElem?_set, Ne.symm hj]
                    rw [hne, hnj]
                    exact hv
        · rw [if_neg hc] at h
          cases h

/-- The loop of `unflatten` on independent entries, when it does not panic on a well-formed
tree: the result is well-formed, the decoded value of every entry is at the address of the
entry, and every node at an address that is neither above nor below one of the entries is
kept. -/
theorem unflattenLoop_success (l : GoMap) : ∀ (t t2 : Value), Value.WF t →
    (∀ e ∈ l, Value.WF e.2) → l.Pairwise Independent → unflattenLoop l t = some t2 →
    Value.WF t2 ∧
    (∀ e ∈ l, (∀ s ∈ Split e.1 flattenSep, Atoi s = none ∨ ∃ i : Nat, Atoi s = some (i : Int)) ∧
      ∃ y, decodeValue e.2 = some y ∧ Value.nodeAt t2 (address e.1) = some y) ∧
    ∀ q v0, Value.nodeAt t q = some v0 →
      (∀ e ∈ l, ¬ q <+: address e.1 ∧ ¬ address e.1 <+: q) → Value.nodeAt t2 q = some v0 := by
  induction l with
  | nil =>
    intro t t2 hwf _ _ h
    simp only [unflattenLoop, Option.some.injEq] at h
    subst h
    exact ⟨hwf, by simp, fun q v0 hq _ => hq⟩
  | cons e rest ih =>
    intro t t2 hwf hraw hind h
    obtain ⟨k, raw⟩ := e
    simp only [unflattenLoop] at h
    cases hs : setPath (Split k flattenSep) t raw with
    | none => rw [hs] at h; cases h
    | some t1 =>
      rw [hs] at h
      simp only at h
      obtain ⟨hwf1, hsegs, ⟨y, hy1, hy2⟩, hpres1⟩ :=
        setPath_success _ t raw t1 hwf (hraw (k, raw) (List.mem_cons_self _ _)) hs
      rw [List.pairwise_cons] at hind
      obtain ⟨hwf2, hall, hpres2⟩ :=
        ih t1 t2 hwf1 (fun e he => hraw e (List.mem_cons_of_mem _ he)) hind.2 h
      refine ⟨hwf2, ?_, ?_⟩
      · intro e he
        rcases List.mem_cons.1 he with rfl | he
        · exact ⟨hsegs, y, hy1, hpres2 _ y hy2 (fun e2 he2 => hind.1 e2 he2)⟩
        · exact hall e he
      · intro q v0 hq hfar
        have h1 := hfar (k, raw) (List.mem_cons_self _ _)
        exact hpres2 q v0 (hpres1 q v0 hq h1.1 h1.2)
          (fun e2 he2 => hfar e2 (List.mem_cons_of_mem _ he2))

/-- The inner loop of `unflatten` on a partial build of `w`, for segments that address a node
of `w` and a value that decodes to that node: it does not panic and the result is again a
partial build of `w`. -/
theorem setPath_below (segs : List GoString) : ∀ (t w raw x : Value), Value.WF w →
    Sub Eq t w → (∀ s ∈ segs, Atoi s = none ∨ ∃ i : Nat, Atoi s = some (i : Int)) →
    Value.nodeAt w (segs.map segOf) = some x → decodeValue raw = some x →
    ∃ t2, setPath segs t raw = some t2 ∧ Sub Eq t2 w := by
  induction segs with
  | nil =>
    intro t w raw x hwf _ _ hat hdec
    simp only [List.map_nil, Value.nodeAt, Option.some.injEq] at hat
    subst hat
    exact ⟨w, by simpa [setPath] using hdec, Sub.refl_of_WF w hwf⟩
  | cons s rest ih =>
    intro t w raw x hwf hsub hsegs hat hdec
    have hrest : ∀ s2 ∈ rest, Atoi s2 = none ∨ ∃ i : Nat, Atoi s2 = some (i : Int) :=
      fun s2 hs2 => hsegs s2 (List.mem_cons_of_mem _ hs2)
    rcases hsegs s (List.mem_cons_self _ _) with hA | ⟨i, hA⟩
    · rw [List.map_cons, segOf_of_none s hA] at hat
      obtain ⟨wm, v, rfl, hl, hv⟩ := Value.nodeAt_key w x s _ hat
      obtain ⟨hget, hkey⟩ := mapGet_of_lookup wm s v hl
      have hkv : (s, v) ∈ wm := by rw [← hget]; exact mem_of_mem_mapKeys wm s hkey
      obtain ⟨node, hnode, hnnd, hsubset, hpt, _, _⟩ := mapNode_spec hsub
      have hsubv : Sub Eq (mapGet node s) v := by rw [← hget]; exact hpt s
      obtain ⟨t2, hset, hsub2⟩ :=
        ih (mapGet node s) v raw x (hwf.wf_of_mem_map hkv) hsubv hrest hv hdec
      refine ⟨.map (mapSet node s t2), ?_, ?_⟩
      · rw [setPath_key_step s rest t raw node hA hnode, hset]
        rfl
      · apply Sub.map
        · exact nodup_mapSet node s t2 hnnd
        · intro k2 hk2
          rcases (mapKeys_mapSet node s t2 k2).1 hk2 with h | h
          · exact hsubset k2 h
          · rw [h]; exact hkey
        · intro k2
          rw [mapGet_mapSet]
          by_cases h : k2 = s
          · rw [if_pos h, h, hget]; exact hsub2
          · rw [if_neg h]; exact hpt k2
    · rw [List.map_cons, segOf_of_nat s i hA] at hat
      obtain ⟨ws, v, rfl, hl, hv⟩ := Value.nodeAt_index w x i _ hat
      have hi : i < ws.length := by
        rcases Nat.lt_or_ge i ws.length with h3 | h3
        · exact h3
        · rw [List.getElem?_eq_none h3] at hl
          cases hl
      have hgw : ws.getD i .null = v := by
        rw [List.getD_eq_getElem?_getD, hl]
        rfl
      have hmk := hwf.length_le_max
      have hmax := maxSliceLen_lt_maxInt
      obtain ⟨ts, hnode, hlen2, hpt, _, _⟩ := sliceNode_spec i (by omega) hsub
      have hgetD : ∀ j, (ts ++ List.replicate (i + 1 - ts.length) Value.null).getD j .null
          = ts.getD j .null := getD_pad ts _
      have hnl : (ts ++ List.replicate (i + 1 - ts.length) Value.null).length
          = ts.length + (i + 1 - ts.length) := by simp
      generalize hnodedef : ts ++ List.replicate (i + 1 - ts.length) Value.null = node at *
      have hsubv : Sub Eq (node.getD i .null) v := by rw [hgetD, ← hgw]; exact hpt i
      have hvmem : v ∈ ws := by rw [← hgw]; exact getD_mem ws i hi
      obtain ⟨t2, hset, hsub2⟩ :=
        ih (node.getD i .null) v raw x (hwf.wf_of_mem_list hvmem) hsubv hrest hv hdec
      have hil : i < node.length := by omega
      refine ⟨.list (node.set i t2), ?_, ?_⟩
      · rw [setPath_index_step s rest t raw i node hA (by omega) hnode hil, hset]
        rfl
      · apply Sub.list
        · rw [List.length_set]; omega
        · intro j
          rw [getD_set node i j t2 hil]
          by_cases h : j = i
          · rw [if_pos h, h, hgw]; exact hsub2
          · rw [if_neg h, hgetD]; exact hpt j

/-- The loop of `unflatten` on a partial build of `w`, for entries whose decoded values are
the nodes of `w` at their addresses: it does not panic and the result is a partial build of
`w`. -/
theorem unflattenLoop_below (l : GoMap) : ∀ (t w : Value), Value.WF w → Sub Eq t w →
    (∀ e ∈ l, (∀ s ∈ Split e.1 flattenSep, Atoi s = none ∨ ∃ i : Nat, Atoi s = some (i : Int)) ∧
      ∃ y, decodeValue e.2 = some y ∧ Value.nodeAt w (address e.1) = some y) →
    ∃ t2, unflattenLoop l t = some t2 ∧ Sub Eq t2 w := by
  induction l with
  | nil =>
    intro t w _ hsub _
    exact ⟨t, rfl, hsub⟩
  | cons e rest ih =>
    intro t w hwf hsub hall
    obtain ⟨k, raw⟩ := e
    obtain ⟨hsegs, y, hy1, hy2⟩ := hall (k, raw) (List.mem_cons_self _ _)
    obtain ⟨t1, hset, hsub1⟩ := setPath_below _ t w raw y hwf hsub hsegs hy2 hy1
    obtain ⟨t2, hloop, hsub2⟩ :=
      ih t1 w hwf hsub1 (fun e he => hall e (List.mem_cons_of_mem _ he))
    refine ⟨t2, ?_, hsub2⟩
    simp only [unflattenLoop, hset]
    exact hloop

/-- Two values that are partial builds of each other are equal as Go data. -/
theorem Sub.antisymm (a : Value) : ∀ b : Value, Sub Eq a b → Sub Eq b a →
    Value.deepEqual a b = true := by
  induction a using Value.induction with
  | hleaf v hv =>
    intro b h1 h2
    cases h1 with
    | null =>
      rw [h2.eq_null]
      rfl
    | leaf _ _ _ _ h3 =>
      rw [← h3]
      exact Value.deepEqual_leaf_refl v hv
    | list ts ws _ _ => simp [Value.isLeaf] at hv
    | map tm wm _ _ _ => simp [Value.isLeaf] at hv
  | hlist xs ih =>
    intro b h1 h2
    cases h1 with
    | leaf _ _ h3 _ _ => simp [Value.isLeaf] at h3
    | list _ ws hlen hpt =>
      rcases h2.inv_list with h | ⟨ts, hts, hlen2, hpt2⟩
      · cases h
      · have hts2 := Value.list.inj hts
        subst hts2
        simp only [Value.deepEqual]
        apply Value.deepEqualList_of xs ws (by omega)
        intro i
        by_cases hi : i < xs.length
        · exact ih _ (getD_mem xs i hi) _ (hpt i) (hpt2 i)
        · rw [List.getD_eq_default _ _ (by omega), List.getD_eq_default _ _ (by omega)]
          rfl
  | hmap m ih =>
    intro b h1 h2
    cases h1 with
    | leaf _ _ h3 _ _ => simp [Value.isLeaf] at h3
    | map _ wm hnd hsubset hpt =>
      rcases h2.inv_map with h | ⟨tm, htm, hnd2, hsubset2, hpt2⟩
      · cases h
      · have htm2 := Value.map.inj htm
        subst htm2
        simp only [Value.deepEqual, Bool.and_eq_true, beq_iff_eq]
        refine ⟨length_eq_of_same_keys m wm hnd hnd2
          (fun k => ⟨hsubset k, hsubset2 k⟩), ?_⟩
        apply Value.deepEqualEntries_of
        intro kx hkx
        have hk : kx.1 ∈ mapKeys m := mem_mapKeys_of_mem m kx.1 kx.2 hkx
        have hg : mapGet m kx.1 = kx.2 := mapGet_of_mem m kx.1 kx.2 hnd hkx
        refine ⟨hsubset _ hk, ih kx hkx _ ?_ ?_⟩
        · rw [← hg]; exact hpt kx.1
        · rw [← hg]; exact hpt2 kx.1

theorem Independent.symm {a b : GoString × Value} (h : Independent a b) : Independent b a :=
  ⟨h.2, h.1⟩

/-- The loop of `unflatten` on independent entries: when it completes in one order, it
completes in every order, and the results are equal as Go data. -/
theorem unflatten_perm (l1 l2 : GoMap) (hwf : ∀ e ∈ l1, Value.WF e.2)
    (hind : l1.Pairwise Independent) (hp : l2.Perm l1) (t1 : Value)
    (hs : unflatten l1 = some t1) :
    ∃ t2, unflatten l2 = some t2 ∧ Value.deepEqual t1 t2 = true := by
  have hroot : Value.WF (.map []) := by decide
  have hind2 : l2.Pairwise Independent :=
    (hp.pairwise_iff (fun h => Independent.symm h)).2 hind
  have hwf2 : ∀ e ∈ l2, Value.WF e.2 := fun e he => hwf e (hp.mem_iff.1 he)
  obtain ⟨hwft1, hall1, _⟩ := unflattenLoop_success l1 _ t1 hroot hwf hind hs
  obtain ⟨m1, hm1⟩ := unflattenLoop_map l1 [] t1 hs
  have hstart1 : Sub Eq (.map []) t1 := by
    rw [hm1]
    exact Sub.map [] _ (by simp [mapKeys]) (by simp [mapKeys]) (fun _ => Sub.null _)
  obtain ⟨t2, hloop2, hsub21⟩ := unflattenLoop_below l2 _ t1 hwft1 hstart1
    (fun e he => hall1 e (hp.mem_iff.1 he))
  obtain ⟨hwft2, hall2, _⟩ := unflattenLoop_success l2 _ t2 hroot hwf2 hind2 hloop2
  obtain ⟨m2, hm2⟩ := unflattenLoop_map l2 [] t2 hloop2
  have hstart2 : Sub Eq (.map []) t2 := by
    rw [hm2]
    exact Sub.map [] _ (by simp [mapKeys]) (by simp [mapKeys]) (fun _ => Sub.null _)
  obtain ⟨t3, hloop1, hsub12⟩ := unflattenLoop_below l1 _ t2 hwft2 hstart2
    (fun e he => hall2 e (hp.mem_iff.2 he))
  have h31 : t3 = t1 := by
    have : unflattenLoop l1 (.map []) = some t1 := hs
    rw [this] at hloop1
    exact (Option.some.inj hloop1).symm
  subst h31
  exact ⟨t2, hloop2, Sub.antisymm _ _ hsub12 hsub21⟩

/-! ## The value codec: properties -/

/-- C2, as stated, fails: the two-character string backslash-n neither begins nor ends with
a double quote, yet it is decoded to a newline. -/
theorem codec_round_trip_fails :
    ¬ (∀ v : Value,
        (∀ s, v = .str s → ¬ (s.head? = some dquote ∧ s.getLast? = some dquote)) →
        decodeValue (encodeValue v) = some v) := by
  intro h
  have h1 := h (.str ['\\', 'n']) (by
    intro s hs
    cases hs
    decide)
  revert h1
  decide

/-- C2 (amended): for every value that is not a string, and for every string that does not
both begin and end with a double quote and holds no backslash followed by the letter n,
decoding the encoded value gives the value back. -/
theorem codec_round_trip (v : Value)
    (h : ∀ s, v = .str s →
      ¬ (s.head? = some dquote ∧ s.getLast? = some dquote) ∧ ¬ escapedNewline <:+: s) :
    decodeValue (encodeValue v) = some v := by
  cases v with
  | str s => exact decodeValue_encodeValue_of_clean s (h s rfl).2
  | _ => rfl

theorem codec_round_trip_witness :
    decodeValue (encodeValue (.str ['a', '\n', 'b'])) = some (.str ['a', '\n', 'b']) :=
  codec_round_trip (.str ['a', '\n', 'b']) (by
    intro s hs
    cases hs
    decide)

/-- On every input but the one-character double quote `decodeValue` behaves as described: a
value that is not a string and a string that does not both begin and end with a double quote
are returned unchanged, and a string of two or more characters that begins and ends with a
double quote loses the two quotes and has its escaped newlines restored. -/
theorem decodeValue_cases (v : Value) :
    ((∀ s, v ≠ .str s) → decodeValue v = some v) ∧
    (∀ s, v = .str s → ¬ (s.head? = some dquote ∧ s.getLast? = some dquote) →
      decodeValue v = some v) ∧
    (∀ s, v = .str s → 2 ≤ s.length → s.head? = some dquote → s.getLast? = some dquote →
      decodeValue v
        = some (.str (Replace ((s.take (s.length - 1)).drop 1) escapedNewline newline))) := by
  refine ⟨?_, ?_, ?_⟩
  · intro h
    cases v with
    | str s => exact absurd rfl (h s)
    | _ => rfl
  · rintro s rfl h
    simp only [decodeValue]
    rw [if_neg (fun hh => h hh.2)]
  · rintro s rfl hlen h1 h2
    simp only [decodeValue]
    rw [if_pos ⟨by omega, h1, h2⟩]
    have : sliceStr s 1 (s.length - 1) = some ((s.take (s.length - 1)).drop 1) := by
      simp only [sliceStr]
      rw [if_pos ⟨by omega, by omega⟩]
    rw [this]

/-- C9: on the one-character string that is a double quote the slice expression of
`decodeValue` is out of range, so the call panics instead of returning its argument. -/
theorem decodeValue_single_quote_panics : decodeValue (.str [dquote]) = none := by
  decide

/-! ## The path joiner and splitter: properties -/

/-- C5, as stated, fails: neither segment of the path `a_`, `b` holds the separator, but the
joined key `a___b` is split at its first two underscores, into `a` and `_b`. -/
theorem split_join_fails :
    ¬ (∀ segs : List GoString, segs ≠ [] → (∀ s ∈ segs, ¬ flattenSep <:+: s) →
        Split (Join segs flattenSep) flattenSep = segs) := by
  intro h
  have h1 := h [['a', '_'], ['b']] (by simp) (by decide)
  revert h1
  decide

/-- C5 (amended): for every non-empty sequence of segments none of which holds the separator
and none of which, the last one apart, ends with an underscore, splitting the joined
sequence on the separator yields the same sequence. -/
theorem split_join_round_trip (segs : List GoString) (hne : segs ≠ [])
    (hsep : ∀ s ∈ segs, ¬ flattenSep <:+: s)
    (hlast : ∀ s ∈ segs.dropLast, s.getLast? ≠ some '_') :
    Split (Join segs flattenSep) flattenSep = segs :=
  Split_Join segs hne hsep hlast

theorem split_join_round_trip_witness :
    Split (Join [['_', 'a'], ['0'], ['b', '_']] flattenSep) flattenSep
      = [['_', 'a'], ['0'], ['b', '_']] :=
  split_join_round_trip [['_', 'a'], ['0'], ['b', '_']] (by simp) (by decide) (by decide)

/-! ## flatten: properties -/

/-- C6, as stated, fails: the map with the keys `a` (holding a map with the key `b`) and
`a__b` has two leaves, which share the flat key `a__b`, so `flatten` has one entry. -/
theorem flatten_leaf_count_fails :
    ¬ (∀ m : GoMap, (flatten m).length = (Value.leaves (.map m)).length) := by
  intro h
  have h1 := h [(['a'], .map [(['b'], .num 1)]), (['a', '_', '_', 'b'], .num 2)]
  revert h1
  decide

/-- C6 (amended): for every nested root map whose leaves have pairwise distinct joined
paths, the number of entries of `flatten` equals the number of leaves. -/
theorem flatten_leaf_count (m : GoMap)
    (h : ((Value.leaves (.map m)).map (fun pl => keyPath pl.1)).Nodup) :
    (flatten m).length = (Value.leaves (.map m)).length := by
  rw [flatten_eq_writeAll, length_writeAll]
  · simp
  · simpa [List.map_map, flatEntry, Function.comp_def] using h
  · intro k _ hk
    simp [mapKeys] at hk

theorem flatten_leaf_count_witness :
    (flatten [(['a'], .map [(['b'], .num 1)]), (['c'], .list [.num 2, .null])]).length
      = (Value.leaves (.map [(['a'], .map [(['b'], .num 1)]),
          (['c'], .list [.num 2, .null])])).length :=
  flatten_leaf_count _ (by decide)

/-- C7: every entry of `flatten` is the joined path of a leaf (a node that is neither a map
nor a slice) together with the encoded value of that leaf, and the joined path of every
leaf is a key of `flatten`. -/
theorem flatten_characterisation (m : GoMap) :
    (∀ e ∈ flatten m, ∃ pl ∈ Value.leaves (.map m),
        Value.isLeaf pl.2 = true ∧ e = (keyPath pl.1, encodeValue pl.2)) ∧
    (∀ pl ∈ Value.leaves (.map m), keyPath pl.1 ∈ mapKeys (flatten m)) := by
  rw [flatten_eq_writeAll]
  constructor
  · intro e he
    rcases mem_writeAll _ _ e he with h | h
    · simp at h
    · obtain ⟨pl, hpl, rfl⟩ := List.mem_map.1 h
      exact ⟨pl, hpl, Value.isLeaf_of_mem_leaves pl.1 _ pl.2 hpl, rfl⟩
  · intro pl hpl
    rw [mapKeys_writeAll]
    refine Or.inr (List.mem_map.2 ⟨flatEntry pl, List.mem_map.2 ⟨pl, hpl, rfl⟩, rfl⟩)

/-! ## The round trip: properties -/

/-- C1, as stated, fails: the root map with the key `a` and the string leaf backslash-n has
no empty container, no numeric key, no separator in a key and no quote in its leaf, yet
the leaf comes back as a newline. -/
theorem round_trip_fails :
    unflatten (flatten [(['a'], .str ['\\', 'n'])]) = some (.map [(['a'], .str ['\n'])]) ∧
    Value.deepEqual (.map [(['a'], .str ['\n'])]) (.map [(['a'], .str ['\\', 'n'])])
      = false := by
  decide

/-- C1 (amended): for every nested root map (its map keys pairwise distinct, as in every Go
map) in which every map and list below the root is non-empty, no map key is accepted by
`Atoi`, holds the separator or ends with an underscore, and no string holds a backslash
followed by the letter n, `unflatten` applied to the entries of `flatten`, visited in any
order, does not panic and returns a value equal to the root map. -/
theorem unflatten_flatten_round_trip (m : GoMap) (hwf : Value.WF (.map m))
    (hko : Value.KeysOK (.map m)) (hne : ∀ kx ∈ m, Value.NoEmpty kx.2)
    (hc : Value.Clean (.map m)) (l : GoMap) (hl : l.Perm (flatten m)) :
    ∃ t, unflatten l = some t ∧ Value.deepEqual t (.map m) = true := by
  by_cases hm : m = []
  · subst hm
    exact ⟨_, unflatten_of_perm_nil l hl, rfl⟩
  · obtain ⟨t, h1, h2, h3⟩ := unflatten_flatten_full m hwf hko hc l hl
    exact ⟨t, h1, deepEqual_of_full _ t (.map m) hwf (noEmpty_root m hm hne) h2
      (Sub.refl_of_WF _ hwf) h3 (fun _ _ h => h)⟩

theorem unflatten_flatten_round_trip_witness :
    ∃ t, unflatten (flatten [("user".toList, .map [("name".toList, .str "ann".toList),
        ("tags".toList, .list [.str "x".toList, .null, .num 3])])]).reverse = some t ∧
      Value.deepEqual t (.map [("user".toList, .map [("name".toList, .str "ann".toList),
        ("tags".toList, .list [.str "x".toList, .null, .num 3])])]) = true :=
  unflatten_flatten_round_trip _ (by decide) (by decide) (by decide) (by decide) _
    (List.reverse_perm _)

/-- C3, as stated, fails: the keys `k__0` and `k__00` are distinct, both address position 0
of the list under `k`, and the entry visited last wins. -/
theorem unflatten_order_dependent :
    ¬ (∀ f l1 l2 : GoMap, (mapKeys f).Nodup → l1.Perm f → l2.Perm f →
        ∀ t1 t2, unflatten l1 = some t1 → unflatten l2 = some t2 →
          Value.deepEqual t1 t2 = true) := by
  intro h
  have h1 := h [(['k', '_', '_', '0'], .num 1), (['k', '_', '_', '0', '0'], .num 2)]
    [(['k', '_', '_', '0'], .num 1), (['k', '_', '_', '0', '0'], .num 2)]
    [(['k', '_', '_', '0', '0'], .num 2), (['k', '_', '_', '0'], .num 1)]
    (by decide) (List.Perm.refl _) (List.Perm.swap _ _ _)
    (.map [(['k'], .list [.num 2])]) (.map [(['k'], .list [.num 1])]) (by decide) (by decide)
  revert h1
  decide

/-- Entries that address a slot and a slot below it make the result depend on the order: with
a nil value under `a` the entry `a__b` is lost in one order and kept in the other, and with a
number under `a` the loop panics in one order and completes in the other. -/
theorem unflatten_below_order_dependent :
    unflatten [(['a'], .null), (['a', '_', '_', 'b'], .num 2)]
      = some (.map [(['a'], .map [(['b'], .num 2)])]) ∧
    unflatten [(['a', '_', '_', 'b'], .num 2), (['a'], .null)]
      = some (.map [(['a'], .null)]) ∧
    unflatten [(['a'], .num 1), (['a', '_', '_', 'b'], .num 2)] = none ∧
    unflatten [(['a', '_', '_', 'b'], .num 2), (['a'], .num 1)]
      = some (.map [(['a'], .num 1)]) := by
  decide

/-- C3 (amended): for every flat mapping in which no two entries address the same slot or a
slot and a slot below it (a segment addresses a list position when `Atoi` reads it as a
non-negative integer, and the map key with its text otherwise), and for every two orders of
its entries: when the loop of `unflatten` completes in the first order, it completes in the
second order, and the two final values are equal.  The values of the entries are any Go
values (`Value.WF` states the invariants of Go maps and slices). -/
theorem unflatten_order_independent (f l1 l2 : GoMap) (hwf : ∀ e ∈ f, Value.WF e.2)
    (hind : f.Pairwise Independent) (h1 : l1.Perm f) (h2 : l2.Perm f) (t1 : Value)
    (hs : unflatten l1 = some t1) :
    ∃ t2, unflatten l2 = some t2 ∧ Value.deepEqual t1 t2 = true :=
  unflatten_perm l1 l2 (fun e he => hwf e (h1.mem_iff.1 he))
    ((h1.pairwise_iff (fun h => Independent.symm h)).2 hind) (h2.trans h1.symm) t1 hs

theorem unflatten_order_independent_witness :
    ∃ t2, unflatten sparseFlat.reverse = some t2 ∧
      Value.deepEqual (.map [(['k'], .list [.map [(['b'], .str ['x'])], .null, .num 1]),
        (['n'], .list [.null, .str ['\\', 'n']]), (['m'], .map [])]) t2 = true :=
  unflatten_order_independent sparseFlat sparseFlat sparseFlat.reverse (by decide) (by decide)
    (List.Perm.refl _) (List.reverse_perm _)
    (.map [(['k'], .list [.map [(['b'], .str ['x'])], .null, .num 1]),
      (['n'], .list [.null, .str ['\\', 'n']]), (['m'], .map [])])
    (by decide)

/-- C4, as stated, fails: on the root map with the single key `0` the result of `flatten` has
the key `0`, `Atoi` accepts it, and the type assertion on the root slot, which holds the
result map and not a slice, panics. -/
theorem unflatten_flatten_not_total :
    ¬ (∀ m : GoMap, Value.WF (.map m) → ∀ l : GoMap, l.Perm (flatten m) →
        (unflatten l).isSome = true) := by
  intro h
  have h1 := h [(['0'], .num 1)] (by decide) _ (List.Perm.refl _)
  revert h1
  decide

/-- C4 (amended): for every nested root map (its map keys pairwise distinct) in which no map
key is accepted by `Atoi`, holds the separator or ends with an underscore, `unflatten`
applied to the entries of `flatten`, visited in any order, completes without a panic. -/
theorem unflatten_flatten_total (m : GoMap) (hwf : Value.WF (.map m))
    (hko : Value.KeysOK (.map m)) (l : GoMap) (hl : l.Perm (flatten m)) :
    (unflatten l).isSome = true := by
  obtain ⟨t, h1, _, _⟩ := unflatten_flatten_build (fun _ _ => True) m hwf hko
    (fun p x hpx => by
      obtain ⟨y, hy1, hy2⟩ := decode_encode_leaf x (Value.isLeaf_of_mem_leaves p _ x hpx)
      exact ⟨y, hy1, hy2, trivial⟩) l hl
  rw [h1]
  rfl

theorem unflatten_flatten_total_witness :
    (unflatten (flatten [(['a'], .map []), (['b'], .list [.str ['\\', 'n'], .list []]),
      (['c'], .str [dquote])]).reverse).isSome = true :=
  unflatten_flatten_total _ (by decide) (by decide) _ (List.reverse_perm _)

/-! ## Segment kinds: properties -/

/-- C10, as stated, fails: `Atoi` accepts the segment `+1`, so the entry `k__+1` yields a
list of length two under `k`, not a map with the key `+1`. -/
theorem segment_kind_fails :
    Atoi ['+', '1'] = some 1 ∧
    unflatten [(['k', '_', '_', '+', '1'], .num 5)]
      = some (.map [(['k'], .list [.null, .num 5])]) := by
  decide

/-- C10 (amended): `unflatten` treats a path segment as a map key when `Atoi` rejects it, and
as a list index when `Atoi` reads it as a non-negative integer below the largest length that
`make` accepts: for a key `k` that `Atoi` rejects (and that splits off cleanly), a value that
decodes to `d`, a segment `s1` without the separator that `Atoi` rejects and a segment `s2`
that `Atoi` reads as such an `i`, the single entry `k__s1` yields the map with `d` under `s1`
under `k`, and the single entry `k__s2` yields under `k` a list of length `i + 1` with `d` in
its last slot and nil in every other slot. -/
theorem unflatten_segment_kind (k s1 s2 : GoString) (raw d : Value) (i : Nat) (hk : keyOK k)
    (hs1 : ¬ flattenSep <:+: s1) (hd : decodeValue raw = some d) (h1 : Atoi s1 = none)
    (h2 : Atoi s2 = some (i : Int)) (hi : i < maxSliceLen) :
    unflatten [(k ++ flattenSep ++ s1, raw)] = some (.map [(k, .map [(s1, d)])]) ∧
    unflatten [(k ++ flattenSep ++ s2, raw)]
      = some (.map [(k, .list (List.replicate i .null ++ [d]))]) := by
  have hroot : ∀ s : GoString, ¬ flattenSep <:+: s → ∀ r : Option Value,
      setPath [s] .null raw = r →
      unflatten [(k ++ flattenSep ++ s, raw)] = r.map (fun x => .map [(k, x)]) := by
    intro s hs r hr
    simp only [unflatten, unflattenLoop, Split_pair k s hk hs]
    rw [setPath_key_step k [s] (.map []) raw [] hk.1 rfl]
    have : mapGet [] k = Value.null := rfl
    rw [this, hr]
    cases r <;> rfl
  have hmax := maxSliceLen_lt_maxInt
  constructor
  · have hr : setPath [s1] .null raw = some (.map [(s1, d)]) := by
      rw [setPath_key_step s1 [] .null raw [] h1 rfl]
      simp only [setPath, hd]
      rfl
    rw [hroot s1 hs1 _ hr]
    rfl
  · have hr : setPath [s2] .null raw = some (.list (List.replicate i .null ++ [d])) := by
      rw [setPath_index_step s2 [] .null raw i _ h2 (by omega) (sliceNode_null i (by omega))
        (by simp)]
      simp only [setPath, hd, Nat.sub_zero, List.nil_append, Option.map_some',
        set_replicate_last]
    rw [hroot s2 (not_sep_of_signedDigits s2 (signedDigits_of_Atoi s2 _ h2)) _ hr]
    rfl

/-- A segment that `Atoi` reads as a negative number makes `unflatten` panic: the slice made
for it has no slot with a negative index. -/
theorem unflatten_negative_index_panics :
    Atoi ['-', '1'] = some (-1) ∧ unflatten [(['k', '_', '_', '-', '1'], .num 5)] = none := by
  decide

/-- A segment that `Atoi` reads as a position at or beyond the largest length that `make`
accepts makes `unflatten` panic: the length of the slice to make is out of range. -/
theorem unflatten_large_index_panics :
    Atoi "17592186044416".toList = some (maxSliceLen : Int) ∧
    unflatten [("k__17592186044416".toList, .num 5)] = none ∧
    Atoi "4611686018427387904".toList = some (2 ^ 62) ∧
    unflatten [("k__4611686018427387904".toList, .num 5)] = none := by
  decide

theorem unflatten_segment_kind_witness :
    unflatten [(['k'] ++ flattenSep ++ ['-', 'x'], .str [dquote, 'v', dquote])]
      = some (.map [(['k'], .map [(['-', 'x'], .str ['v'])])]) ∧
    unflatten [(['k'] ++ flattenSep ++ ['+', '1'], .str [dquote, 'v', dquote])]
      = some (.map [(['k'], .list (List.replicate 1 .null ++ [.str ['v']]))]) :=
  unflatten_segment_kind ['k'] ['-', 'x'] ['+', '1'] (.str [dquote, 'v', dquote]) (.str ['v']) 1
    (by decide) (by decide) (by decide) (by decide) (by decide) (by decide)

/-! ## List growth: properties -/

/-- C8, as stated, fails: `Atoi` rejects the key `a_`, but the entry `a___0` is split into
`a` and `_0`, so the result holds a map under `a` and no list under `a_`. -/
theorem list_growth_fails :
    Atoi ['a', '_'] = none ∧
    unflatten [(['a', '_'] ++ flattenSep ++ Sprint 0, .num 1)]
      = some (.map [(['a'], .map [(['_', '0'], .num 1)])]) := by
  decide

/-- C8 (amended): for a key `k` that `Atoi` rejects, that does not hold the separator and does
not end with an underscore, every `n` such that `make` accepts the length `n + 1` (that is,
`n` below `maxSliceLen`), every list `idxs` of distinct
indices up to `n` that contains `n`, and values that decode to scalars `d i`, `unflatten` on
the entries `k__i`, visited in the order of `idxs`, yields under `k` a list of length `n + 1`
whose slot `i` holds `d i` for each chosen `i` and nil for every other slot. -/
theorem unflatten_list_growth (k : GoString) (hk : keyOK k) (n : Nat)
    (hn : n < maxSliceLen) (idxs : List Nat) (hnd : idxs.Nodup) (hmem : n ∈ idxs)
    (hle : ∀ i ∈ idxs, i ≤ n) (raw d : Nat → Value)
    (hdec : ∀ i ∈ idxs, decodeValue (raw i) = some (d i) ∧ Value.isLeaf (d i) = true) :
    unflatten (idxs.map (fun i => (k ++ flattenSep ++ Sprint i, raw i)))
      = some (.map [(k, .list (grownList idxs d n))]) ∧
    (grownList idxs d n).length = n + 1 := by
  have hlen : (grownList idxs d n).length = n + 1 := by simp [grownList]
  refine ⟨?_, hlen⟩
  have hget : ∀ i, (grownList idxs d n).getD i .null = if i ∈ idxs then d i else .null := by
    intro i
    by_cases hi : i < n + 1
    · rw [List.getD_eq_getElem _ _ (by rw [hlen]; exact hi)]
      simp [grownList]
    · rw [List.getD_eq_default _ _ (by rw [hlen]; omega)]
      have : i ∉ idxs := fun h => hi (by have := hle i h; omega)
      rw [if_neg this]
  have hleaf : ∀ i, Value.isLeaf ((grownList idxs d n).getD i .null) = true := by
    intro i
    rw [hget]
    by_cases hi : i ∈ idxs
    · rw [if_pos hi]; exact (hdec i hi).2
    · rw [if_neg hi]; rfl
  have hleafmem : ∀ x ∈ grownList idxs d n, Value.isLeaf x = true := by
    intro x hx
    obtain ⟨i, hi, rfl⟩ := List.getElem_of_mem hx
    rw [← List.getD_eq_getElem _ .null hi]
    exact hleaf i
  have hnodes : ∀ x ∈ Value.nodes (.map [(k, .list (grownList idxs d n))]),
      x = .map [(k, .list (grownList idxs d n))] ∨ x = .list (grownList idxs d n) ∨
        Value.isLeaf x = true := by
    intro x hx
    simp only [Value.nodes, Value.nodesEntries, List.append_nil, List.mem_cons] at hx
    rcases hx with h | h | h
    · exact Or.inl h
    · exact Or.inr (Or.inl h)
    · obtain ⟨y, hy, hxy⟩ := (Value.mem_nodesList _ x).1 h
      rw [Value.nodes_of_leaf y (hleafmem y hy)] at hxy
      simp only [List.mem_singleton] at hxy
      rw [hxy]
      exact Or.inr (Or.inr (hleafmem y hy))
  have hwf : Value.WF (.map [(k, .list (grownList idxs d n))]) := by
    intro x hx
    rcases hnodes x hx with rfl | rfl | h
    · simp [Value.nodeWF, mapKeys]
    · simp only [Value.nodeWF, hlen, decide_eq_true_eq]
      omega
    · exact (Value.nodeWF_of_leaf x h).1
  have hko : Value.KeysOK (.map [(k, .list (grownList idxs d n))]) := by
    intro x hx
    rcases hnodes x hx with rfl | rfl | h
    · simpa [Value.nodeKeysOK, mapKeys] using hk
    · rfl
    · exact (Value.nodeWF_of_leaf x h).2
  have hpath : ∀ i, i < n + 1 → ([Seg.key k, Seg.index i], (grownList idxs d n).getD i .null)
      ∈ Value.leaves (.map [(k, .list (grownList idxs d n))]) := by
    intro i hi
    apply Value.mem_leaves_map _ k _ _ _ (List.mem_singleton.2 rfl)
    apply Value.mem_leaves_list _ i _ _ (by rw [hlen]; exact hi)
    rw [Value.leaves_of_leaf _ (hleaf i)]
    simp
  have hkp : ∀ i, keyPath [Seg.key k, Seg.index i] = k ++ flattenSep ++ Sprint i := by
    intro i
    simp [keyPath, Join, Seg.render]
  have hkeys : (mapKeys (idxs.map (fun i => (k ++ flattenSep ++ Sprint i, raw i)))).Nodup := by
    simp only [mapKeys, List.map_map]
    apply hnd.map
    intro i j hij
    simp only [Function.comp_apply] at hij
    exact Sprint_injective i j (List.append_cancel_left hij)
  have hstart : Sub Eq (.map []) (.map [(k, .list (grownList idxs d n))]) :=
    Sub.map [] _ (by simp [mapKeys]) (by simp [mapKeys]) (fun _ => Sub.null _)
  obtain ⟨t, hloop, hsub, hpres, _⟩ :=
    unflattenLoop_leaves Eq _ hwf hko _ (.map []) hkeys hstart (by
      intro e he
      obtain ⟨i, hi, rfl⟩ := List.mem_map.1 he
      have hin : i < n + 1 := by have := hle i hi; omega
      refine ⟨_, _, d i, hpath i hin, (hkp i).symm, (hdec i hi).1, (hdec i hi).2, ?_⟩
      rw [hget, if_pos hi])
  have hP : ∀ i ∈ idxs, ([Seg.key k, Seg.index i], d i) ∈ Value.leaves t := by
    intro i hi
    have hin : i < n + 1 := by have := hle i hi; omega
    exact hpres _ (List.mem_map.2 ⟨i, hi, rfl⟩) _ ⟨_, hpath i hin⟩ (hkp i).symm _ (hdec i hi).1
  obtain ⟨tm, v, rfl, hkv, hv⟩ := Value.leaves_key t _ k _ (hP n hmem)
  rcases hsub.inv_map with h | ⟨tm2, h2, hnd2, hsubset, hpt⟩
  · cases h
  injection h2 with h2
  subst h2
  have htm : tm = [(k, v)] := map_eq_singleton tm k v hnd2
    (fun k2 hk2 => by simpa [mapKeys] using hsubset k2 hk2) hkv
  subst htm
  have hsv : Sub Eq v (.list (grownList idxs d n)) := by
    have := hpt k
    simpa [mapGet] using this
  obtain ⟨ts, rfl, hnlt, _⟩ := Value.leaves_index v _ n _ hv
  rcases hsv.inv_list with h | ⟨ts2, h2, hlen2, hpt2⟩
  · cases h
  injection h2 with h2
  subst h2
  have hts : ts = grownList idxs d n := by
    apply list_eq_of_getD ts _ (by rw [hlen] at hlen2 ⊢; omega)
    intro i
    rw [hget]
    by_cases hi : i ∈ idxs
    · rw [if_pos hi]
      obtain ⟨tm3, v3, h3, hkv3, hv3⟩ := Value.leaves_key _ _ k _ (hP i hi)
      injection h3 with h3
      subst h3
      have : v3 = .list ts := by simpa using hkv3
      subst this
      obtain ⟨ts3, h4, _, hv4⟩ := Value.leaves_index _ _ i _ hv3
      injection h4 with h4
      subst h4
      exact ((Value.leaves_nil _ _ hv4).2).symm
    · rw [if_neg hi]
      have := hpt2 i
      rw [hget, if_neg hi] at this
      exact this.eq_null
  rw [unflatten, hloop, hts]

theorem unflatten_list_growth_witness :
    unflatten ([2, 0].map (fun i => (['k'] ++ flattenSep ++ Sprint i, Value.num i)))
      = some (.map [(['k'], .list (grownList [2, 0] (fun i => Value.num i) 2))]) ∧
    (grownList [2, 0] (fun i => Value.num i) 2).length = 2 + 1 :=
  unflatten_list_growth ['k'] (by decide) 2 (by decide) [2, 0] (by decide) (by decide)
    (by decide) (fun i => Value.num i) (fun i => Value.num i) (fun _ _ => ⟨rfl, rfl⟩)

/-! ## The value codec: further properties -/

/-- C11: for every string `s`, `encodeValue` returns a double quote, then `s` with every newline
replaced by backslash n, then a double quote, a string without any newline; every value that
is not a string is returned as it is; and the two-line string `line1`, newline, `line2` is
encoded to the fourteen characters `"line1\nline2"` and decoded back to itself. -/
theorem encodeValue_shape (s : GoString) :
    encodeValue (.str s) = .str ([dquote] ++ escapeNewlines s ++ [dquote]) ∧
    '\n' ∉ [dquote] ++ escapeNewlines s ++ [dquote] ∧
    encodeValue .null = .null ∧ (∀ b, encodeValue (.bool b) = .bool b) ∧
    (∀ z, encodeValue (.num z) = .num z) ∧
    encodeValue (.str "line1\nline2".toList)
      = .str ([dquote] ++ "line1\\nline2".toList ++ [dquote]) ∧
    ([dquote] ++ "line1\\nline2".toList ++ [dquote]).length = 14 ∧
    decodeValue (.str ([dquote] ++ "line1\\nline2".toList ++ [dquote]))
      = some (.str "line1\nline2".toList) := by
  refine ⟨?_, ?_, rfl, fun _ => rfl, fun _ => rfl, by decide, by decide, by decide⟩
  · simp only [encodeValue, Replace_newline, replaceGo_newline_eq]
    rfl
  · intro h
    simp only [List.mem_append, List.mem_singleton] at h
    rcases h with (h | h) | h
    · revert h; decide
    · exact newline_not_mem_escapeNewlines s h
    · revert h; decide

/-- C14, as stated, fails: the one-character string that is a double quote and the string `x`
between two double quotes both survive the codec. -/
theorem quoted_strings_survive :
    decodeValue (encodeValue (.str [dquote])) = some (.str [dquote]) ∧
    decodeValue (encodeValue (.str [dquote, 'x', dquote]))
      = some (.str [dquote, 'x', dquote]) := by
  decide

/-- C14 (amended): a string that begins and ends with a double quote (the one-character string
that is a double quote included) and holds no backslash followed by the letter n survives the
codec. -/
theorem quoted_round_trip (s : GoString) (_h1 : s.head? = some dquote)
    (_h2 : s.getLast? = some dquote) (h : ¬ escapedNewline <:+: s) :
    decodeValue (encodeValue (.str s)) = some (.str s) := by
  rw [decode_encode_str_eq, unescape_escape s h]

theorem quoted_round_trip_witness :
    decodeValue (encodeValue (.str [dquote, 'a', '\n', dquote]))
      = some (.str [dquote, 'a', '\n', dquote]) :=
  quoted_round_trip [dquote, 'a', '\n', dquote] (by decide) (by decide) (by decide)

/-- C17: a string survives the codec exactly when it holds no backslash followed by the
letter n; in particular every string without that pair survives, whatever newlines and
double quotes it holds. -/
theorem codec_exact_domain (s : GoString) :
    decodeValue (encodeValue (.str s)) = some (.str s) ↔ ¬ escapedNewline <:+: s := by
  constructor
  · intro h hs
    exact decode_encode_ne_of_escaped s hs h
  · intro h
    rw [decode_encode_str_eq, unescape_escape s h]

/-- Instances of C17: a string with newlines, a backslash right before a newline, a string
between double quotes, the empty string and the one-character double quote. -/
theorem codec_exact_domain_examples :
    decodeValue (encodeValue (.str ['a', '\n', 'b', '\n'])) = some (.str ['a', '\n', 'b', '\n']) ∧
    decodeValue (encodeValue (.str ['\\', '\n'])) = some (.str ['\\', '\n']) ∧
    decodeValue (encodeValue (.str [dquote, 'x', dquote])) = some (.str [dquote, 'x', dquote]) ∧
    decodeValue (encodeValue (.str [])) = some (.str []) ∧
    decodeValue (encodeValue (.str [dquote])) = some (.str [dquote]) := by
  decide

/-! ## Elision, the concrete scenario and the sufficient preconditions: properties -/

/-- C12: for every nested root map (its map keys pairwise distinct), no leaf lies at the path
of a node that is an empty map or an empty list, and `flatten` has no entry whose key is
the joined path of such a node, provided no leaf has that same joined path; and `flatten` of
the map with an empty map under `a` and the list of the number 1 under `b`, in either order
of its keys, has exactly one entry, with the key `b__0` and the value 1. -/
theorem flatten_elides_empty (m : GoMap) (p : List Seg) (hwf : Value.WF (.map m))
    (hnode : Value.nodeAt (.map m) p = some (.map []) ∨
      Value.nodeAt (.map m) p = some (.list []))
    (hfree : ∀ pl ∈ Value.leaves (.map m), keyPath pl.1 ≠ keyPath p) :
    (∀ x, (p, x) ∉ Value.leaves (.map m)) ∧
    keyPath p ∉ mapKeys (flatten m) ∧
    flatten [(['a'], .map []), (['b'], .list [.num 1])] = [(['b', '_', '_', '0'], .num 1)] ∧
    flatten [(['b'], .list [.num 1]), (['a'], .map [])] = [(['b', '_', '_', '0'], .num 1)] := by
  refine ⟨Value.not_leaf_of_nodeAt_empty p _ hwf hnode, ?_, by decide, by decide⟩
  intro h
  obtain ⟨e, he, hk⟩ := List.mem_map.1 h
  obtain ⟨pl, hpl, rfl⟩ := mem_flatten m e he
  exact hfree pl hpl hk

theorem flatten_elides_empty_witness :
    (∀ x, ([Seg.key ['a']], x) ∉ Value.leaves (.map [(['a'], .map []), (['b'], .list [.num 1])])) ∧
    keyPath [Seg.key ['a']] ∉ mapKeys (flatten [(['a'], .map []), (['b'], .list [.num 1])]) ∧
    flatten [(['a'], .map []), (['b'], .list [.num 1])] = [(['b', '_', '_', '0'], .num 1)] ∧
    flatten [(['b'], .list [.num 1]), (['a'], .map [])] = [(['b', '_', '_', '0'], .num 1)] :=
  flatten_elides_empty [(['a'], .map []), (['b'], .list [.num 1])] [Seg.key ['a']]
    (by decide) (by decide) (by decide)

/-- C13: `flatten` of the scenario value is exactly the three-entry scenario mapping (the same
three entries when the inner map is visited in the other order), and `unflatten` of that
mapping, its entries visited in any order, does not panic and returns a value equal to the
scenario value. -/
theorem scenario_round_trip (l : GoMap) (hl : l.Perm scenarioFlat) :
    flatten scenarioValue = scenarioFlat ∧
    (flatten [("user".toList, .map [("tags".toList, .list [.str "x".toList, .str "y".toList]),
      ("name".toList, .str "ann".toList)])]).Perm scenarioFlat ∧
    ∃ t, unflatten l = some t ∧ Value.deepEqual t (.map scenarioValue) = true := by
  have hf : flatten scenarioValue = scenarioFlat := by decide
  have hf2 : flatten [("user".toList, .map [("tags".toList,
      .list [.str "x".toList, .str "y".toList]), ("name".toList, .str "ann".toList)])]
      = scenarioFlat.rotate 1 := by decide
  refine ⟨hf, by rw [hf2]; exact List.rotate_perm _ _, ?_⟩
  rw [← hf] at hl
  have hwf : Value.WF (.map scenarioValue) := by decide
  obtain ⟨t, h1, h2, h3⟩ :=
    unflatten_flatten_full scenarioValue hwf (by decide) (by decide) l hl
  exact ⟨t, h1, deepEqual_of_full _ t (.map scenarioValue) hwf (by decide) h2
    (Sub.refl_of_WF _ hwf) h3 (fun _ _ h => h)⟩

theorem scenario_round_trip_witness :
    flatten scenarioValue = scenarioFlat ∧
    (flatten [("user".toList, .map [("tags".toList, .list [.str "x".toList, .str "y".toList]),
      ("name".toList, .str "ann".toList)])]).Perm scenarioFlat ∧
    ∃ t, unflatten scenarioFlat.reverse = some t ∧
      Value.deepEqual t (.map scenarioValue) = true :=
  scenario_round_trip scenarioFlat.reverse (List.reverse_perm _)

/-- C18: for every nested root map (its map keys pairwise distinct, its leaves strings,
numbers, booleans or nil) in which every map and list below the root is non-empty, no map
key holds the separator, begins or ends with an underscore or is an optionally signed run
of decimal digits, and no string holds a backslash followed by the letter n, `unflatten`
applied to the entries of `flatten`, visited in any order, returns a value equal to the
root map, whatever the order in which `flatten` visits the maps. -/
theorem round_trip_sufficient (m : GoMap) (hwf : Value.WF (.map m))
    (hne : ∀ kx ∈ m, Value.NoEmpty kx.2) (hks : Value.KeysSafe (.map m))
    (hc : Value.Clean (.map m)) (l : GoMap) (hl : l.Perm (flatten m)) :
    ∃ t, unflatten l = some t ∧ Value.deepEqual t (.map m) = true := by
  have hko := Value.KeysOK_of_KeysSafe _ hks
  by_cases hm : m = []
  · subst hm
    exact ⟨_, unflatten_of_perm_nil l hl, rfl⟩
  · obtain ⟨t, h1, h2, h3⟩ := unflatten_flatten_full m hwf hko hc l hl
    exact ⟨t, h1, deepEqual_of_full _ t (.map m) hwf (noEmpty_root m hm hne) h2
      (Sub.refl_of_WF _ hwf) h3 (fun _ _ h => h)⟩

theorem round_trip_sufficient_witness :
    ∃ t, unflatten (flatten [(['k', '1'], .list [.map [(['-'], .str [dquote, '\n'])], .null]),
        ([], .bool false), (['a', '_', 'b'], .num (-7))]).reverse = some t ∧
      Value.deepEqual t (.map [(['k', '1'], .list [.map [(['-'], .str [dquote, '\n'])], .null]),
        ([], .bool false), (['a', '_', 'b'], .num (-7))]) = true :=
  round_trip_sufficient _ (by decide) (by decide) (by decide) (by decide) _
    (List.reverse_perm _)

/-! ## The plain file format: properties -/

/-- C15: `LoadPlainFile` returns an error exactly when some non-empty line of the input,
split on the newline, holds no `=`; otherwise it returns, in the order of the lines, one
item for each non-empty line, whose key is the text before the first `=` and whose value
is the text after it. -/
theorem LoadPlainFile_spec (inp : GoString) :
    (LoadPlainFile inp = none ↔ ∃ line ∈ Split inp newline, line ≠ [] ∧ '=' ∉ line) ∧
    ((∀ line ∈ Split inp newline, line ≠ [] → '=' ∈ line) →
      LoadPlainFile inp
        = some (((Split inp newline).filter (fun l => decide (l ≠ []))).map itemOfLine)) := by
  have hgood : (∀ line ∈ Split inp newline, line ≠ [] → '=' ∈ line) →
      LoadPlainFile inp
        = some (((Split inp newline).filter (fun l => decide (l ≠ []))).map itemOfLine) := by
    intro h
    rw [LoadPlainFile, loadLoop_good _ [] h]
    rfl
  refine ⟨⟨?_, fun h => loadLoop_bad _ [] h⟩, hgood⟩
  intro hnone
  by_contra hex
  have : ∀ line ∈ Split inp newline, line ≠ [] → '=' ∈ line := by
    intro line hl hne
    by_contra hno
    exact hex ⟨line, hl, hne, hno⟩
  rw [hgood this] at hnone
  cases hnone

/-- C16, as stated, fails: an item whose value is a Go map is a nested container, and
`EmitPlainFile` does not reject it. -/
theorem emit_accepts_map :
    ¬ (∀ (sprint : TreeValue → GoString) (b : TreeBranch),
        (∃ item ∈ b, isContainer item.2 = true) → EmitPlainFile sprint b = none) := by
  intro h
  have h1 := h sprintString [(.plain (.str ['a']), .plain (.map []))]
    ⟨_, List.mem_singleton.2 rfl, rfl⟩
  revert h1
  decide

/-- C16 (amended): `EmitPlainFile` returns an error, and no bytes, exactly when the value of
some item is a list (`[]interface{}`) or a tree branch, and so it succeeds whenever the
value of every item is a scalar. -/
theorem EmitPlainFile_rejects (sprint : TreeValue → GoString) (b : TreeBranch) :
    (EmitPlainFile sprint b = none ↔
      ∃ item ∈ b, (∃ xs, item.2 = .plain (.list xs)) ∨ (∃ items, item.2 = .branch items)) ∧
    ((∀ item ∈ b, ∃ v, item.2 = .plain v ∧ Value.isLeaf v = true) →
      (EmitPlainFile sprint b).isSome = true) := by
  have hiff : EmitPlainFile sprint b = none ↔ ∃ item ∈ b, isComplexValue item.2 = true := by
    constructor
    · intro hnone
      by_contra hex
      have hall : ∀ item ∈ b, isComplexValue item.2 = false := by
        intro item hi
        cases hc : isComplexValue item.2 with
        | false => rfl
        | true => exact absurd ⟨item, hi, hc⟩ hex
      rw [EmitPlainFile, emitLoop_eq sprint b [] hall] at hnone
      cases hnone
    · exact emitLoop_none sprint b []
  constructor
  · rw [hiff]
    constructor
    · rintro ⟨item, hi, hc⟩
      exact ⟨item, hi, (isComplexValue_iff _).1 hc⟩
    · rintro ⟨item, hi, hc⟩
      exact ⟨item, hi, (isComplexValue_iff _).2 hc⟩
  · intro hall
    have : ∀ item ∈ b, isComplexValue item.2 = false := by
      intro item hi
      obtain ⟨v, hv, hleaf⟩ := hall item hi
      rw [hv]
      cases v <;> simp [Value.isLeaf] at hleaf <;> rfl
    rw [EmitPlainFile, emitLoop_eq sprint b [] this]
    rfl

/-- C19: for every branch whose items have string keys and string values, no key holding `=`
or a newline and no value holding a newline, `EmitPlainFile` succeeds and `LoadPlainFile`
applied to its output returns the same items in the same order. -/
theorem emit_load_round_trip (sprint : TreeValue → GoString)
    (hs : ∀ s, sprint (.plain (.str s)) = s) (b : TreeBranch)
    (hb : ∀ item ∈ b, ∃ k v, item = (.plain (.str k), .plain (.str v)) ∧
      '=' ∉ k ∧ '\n' ∉ k ∧ '\n' ∉ v) :
    ∃ out, EmitPlainFile sprint b = some out ∧ LoadPlainFile out = some b := by
  have hline : ∀ item ∈ b, ∃ k v, item = (.plain (.str k), .plain (.str v)) ∧
      emittedLine sprint item = k ++ ['='] ++ v ∧ '=' ∉ k ∧ '\n' ∉ k ∧ '\n' ∉ v := by
    intro item hi
    obtain ⟨k, v, rfl, h1, h2, h3⟩ := hb item hi
    exact ⟨k, v, rfl, by simp [emittedLine, hs], h1, h2, h3⟩
  have hsimple : ∀ item ∈ b, isComplexValue item.2 = false := by
    intro item hi
    obtain ⟨k, v, rfl, _⟩ := hb item hi
    rfl
  refine ⟨_, by rw [EmitPlainFile, emitLoop_eq sprint b [] hsimple], ?_⟩
  have hnl : ∀ item ∈ b, '\n' ∉ emittedLine sprint item := by
    intro item hi
    obtain ⟨k, v, _, he, _, h2, h3⟩ := hline item hi
    rw [he]
    simp only [List.mem_append, List.mem_singleton, not_or]
    exact ⟨⟨h2, by decide⟩, h3⟩
  rw [LoadPlainFile, List.nil_append, Split]
  rw [if_neg (by simp [newline]), splitGo_emitted sprint b hnl]
  rw [loadLoop_good]
  · simp only [List.nil_append, List.filter_append, List.map_append]
    have hfil : (b.map (emittedLine sprint)).filter (fun l => decide (l ≠ []))
        = b.map (emittedLine sprint) := by
      apply List.filter_eq_self.2
      intro l hl
      obtain ⟨item, hi, rfl⟩ := List.mem_map.1 hl
      obtain ⟨k, v, _, he, _⟩ := hline item hi
      rw [he]
      simp
    rw [hfil]
    simp only [List.map_map, ne_eq, not_true_eq_false, decide_False, List.filter_cons_of_neg,
      Bool.false_eq_true, not_false_eq_true, List.filter_nil, List.map_nil, List.append_nil]
    congr 1
    conv_rhs => rw [← List.map_id b]
    apply List.map_congr_left
    intro item hi
    obtain ⟨k, v, rfl, he, h1, _⟩ := hline item hi
    simp only [Function.comp_apply, he, id_eq]
    exact itemOfLine_eq k v h1
  · intro line hl hne
    rcases List.mem_append.1 hl with hl | hl
    · obtain ⟨item, hi, rfl⟩ := List.mem_map.1 hl
      obtain ⟨k, v, _, he, _⟩ := hline item hi
      rw [he]
      simp
    · simp only [List.mem_singleton] at hl
      exact absurd hl hne

theorem emit_load_round_trip_witness :
    ∃ out, EmitPlainFile sprintString [(.plain (.str ['a']), .plain (.str ['x', '=', 'y'])),
        (.plain (.str []), .plain (.str []))] = some out ∧
      LoadPlainFile out = some [(.plain (.str ['a']), .plain (.str ['x', '=', 'y'])),
        (.plain (.str []), .plain (.str []))] :=
  emit_load_round_trip sprintString (fun _ => rfl) _ (by
    intro item hi
    simp only [List.mem_cons, List.mem_singleton, List.not_mem_nil, or_false] at hi
    rcases hi with rfl | rfl
    · exact ⟨['a'], ['x', '=', 'y'], rfl, by decide, by decide, by decide⟩
    · exact ⟨[], [], rfl, by decide, by decide, by decide⟩)

end Dotenv
